import Mathlib

/-!
# LockFreeList.h: a doubly-linked list with head and tail sentinels

A shallow embedding of `src/LockFreeList.h`.

* Memory is a heap of nodes addressed by natural numbers; address `0` is the null
  pointer, `new` hands out a fresh address, `delete` frees a cell, and following a
  null or freed pointer is a `fault` (undefined behaviour in C++).
* A list object is the record of its four fields `head`, `tail`, `current`, `m_size`;
  several list objects can live in one heap.
* Positions are `unsigned int` and `m_size` is a `size_t`, with the widths of the usual
  64-bit targets (32 and 64 bits).  Where the source stores `m_size` in an
  `unsigned int` (the tail traversals, `insert(data)`, `remove()`) or counts with one
  (`operator=`), the value is kept modulo `2 ^ 32` (`UINT_MOD`).  `m_size` itself counts
  live nodes, each at its own address, so its increment never wraps and is taken on
  `Nat`.
* The per-node mutex is only locked and at once released by `find`; it carries no
  state between two calls and is left out of the node record.
* Loops that run until a pointer is met (`find`, `clear`) take a fuel argument.
* An iterator is a node address; `advance` repeats `operator++`.
* `Reachable h0` collects the states a list constructed in the heap `h0` goes through
  under its mutating calls, whatever their arguments and however they end, while the
  rest of the program leaves its nodes alone.
-/

namespace LockFreeList

/-- The number of values of an `unsigned int` (32 bits). -/
def UINT_MOD : Nat := 4294967296

/-- The `struct Node` of the source without its mutex: `data`, `next`, `prev`. -/
structure Node (T : Type) where
  data : T
  next : Nat
  prev : Nat

/-- The free store: `cell a` is the node living at address `a` (if any), `top` the
highest address handed out so far. -/
structure Heap (T : Type) where
  cell : Nat → Option (Node T)
  top : Nat

/-- The fields of one `LockFreeList<T>` object. -/
structure ListObj where
  head : Nat
  tail : Nat
  current : Nat
  m_size : Nat

/-- A list object together with the heap its nodes live in. -/
structure State (T : Type) where
  heap : Heap T
  obj : ListObj

/-- How a call ends: normally, with `std::out_of_range`, with undefined behaviour
(null or dangling dereference, failed assertion), or out of fuel. -/
inductive Outcome (α : Type) where
  | ok (a : α)
  | outOfRange
  | fault
  | outOfFuel
deriving DecidableEq

variable {T : Type}

/-- The heap in which nothing has been allocated. -/
def Heap.empty : Heap T := { cell := fun _ => none, top := 0 }

/-- Dereference `p`: `none` for the null pointer and for a freed cell. -/
def Heap.get (h : Heap T) (p : Nat) : Option (Node T) :=
  if p = 0 then none else h.cell p

/-- Overwrite the cell at `p`. -/
def Heap.put (h : Heap T) (p : Nat) (n : Option (Node T)) : Heap T :=
  { h with cell := fun a => if a = p then n else h.cell a }

/-- The address the next `new Node` returns. -/
def Heap.newAddr (h : Heap T) : Nat := h.top + 1

/-- `new Node`: a fresh cell (its fields are written before they are read). -/
def Heap.alloc [Inhabited T] (h : Heap T) : Heap T :=
  { cell := fun a => if a = h.top + 1 then some ⟨default, 0, 0⟩ else h.cell a, top := h.top + 1 }

/-- `p->next = v`. -/
def Heap.setNext (h : Heap T) (p v : Nat) : Option (Heap T) :=
  match h.get p with
  | none => none
  | some n => some (h.put p (some { n with next := v }))

/-- `p->prev = v`. -/
def Heap.setPrev (h : Heap T) (p v : Nat) : Option (Heap T) :=
  match h.get p with
  | none => none
  | some n => some (h.put p (some { n with prev := v }))

/-- `p->data = v`. -/
def Heap.setData (h : Heap T) (p : Nat) (v : T) : Option (Heap T) :=
  match h.get p with
  | none => none
  | some n => some (h.put p (some { n with data := v }))

/-- `delete p` for a live `p`. -/
def Heap.free (h : Heap T) (p : Nat) : Option (Heap T) :=
  match h.get p with
  | none => none
  | some _ => some (h.put p none)

/-- Run `current = current->next` the given number of times. -/
def walkNext (h : Heap T) : Nat → Nat → Option Nat
  | 0, cur => some cur
  | k + 1, cur =>
    match h.get cur with
    | none => none
    | some c => walkNext h k c.next

/-- Run `current = current->prev` the given number of times. -/
def walkPrev (h : Heap T) : Nat → Nat → Option Nat
  | 0, cur => some cur
  | k + 1, cur =>
    match h.get cur with
    | none => none
    | some c => walkPrev h k c.prev

/-- The loop of `getNode`: `for (i = 0; i < pos && current; ++i) current = current->next`. -/
def getNodeLoop (h : Heap T) : Nat → Nat → Option Nat
  | 0, cur => some cur
  | k + 1, cur =>
    if cur = 0 then some cur
    else
      match h.get cur with
      | none => none
      | some c => getNodeLoop h k c.next

/-- `LockFreeList()`: two sentinels linked to each other, `current = 0`, `m_size = 0`. -/
def new [Inhabited T] (h : Heap T) : State T :=
  let hd := h.newAddr
  let h1 := h.alloc
  let tl := h1.newAddr
  let h2 := h1.alloc
  let h3 := h2.put hd (some ⟨default, tl, 0⟩)
  let h4 := h3.put tl (some ⟨default, 0, hd⟩)
  { heap := h4, obj := { head := hd, tail := tl, current := 0, m_size := 0 } }

/-- `size()`. -/
def size (s : State T) : Nat := s.obj.m_size

/-- `getNode(pos)`: the node `pos` steps after `head->next`. -/
def getNode (s : State T) (pos : Nat) : Outcome Nat :=
  if pos > s.obj.m_size then .outOfRange
  else
    match s.heap.get s.obj.head with
    | none => .fault
    | some hd =>
      match getNodeLoop s.heap pos hd.next with
      | none => .fault
      | some cur => .ok cur

/-- `operator[](pos)`: a reference to `getNode(pos)->data`, given as the address of
its node. -/
def index (s : State T) (pos : Nat) : Outcome Nat × State T :=
  match getNode s pos with
  | .ok p =>
    match s.heap.get p with
    | none => (.fault, s)
    | some _ => (.ok p, s)
  | .outOfRange => (.outOfRange, s)
  | .fault => (.fault, s)
  | .outOfFuel => (.outOfFuel, s)

/-- Read through a reference returned by `operator[]` or an iterator. -/
def deref (h : Heap T) (p : Nat) : Option T := (h.get p).map Node.data

/-- `startFromHead(pos)`. -/
def startFromHead (s : State T) (pos : Nat) : Bool :=
  decide (pos < s.obj.m_size / 2)

/-- `isEmpty()`: `head->next == tail`. -/
def isEmpty (s : State T) : Option Bool :=
  (s.heap.get s.obj.head).map fun hd => decide (hd.next = s.obj.tail)

/-- The loop `while (i-- > pos) current = current->prev` for an `unsigned int i`: the
test reads `i` before the decrement, and at `i = 0` the test fails (the wrapped `i` is
not read again). -/
def downLoop (h : Heap T) (pos : Nat) : Nat → Nat → Option Nat
  | 0, cur => some cur
  | i + 1, cur =>
    if i + 1 > pos then
      match h.get cur with
      | none => none
      | some c => downLoop h pos i c.prev
    else some cur

/-- The head traversal of `insert` and `remove`:
`current = head->next; i = 0; while (i++ < pos) current = current->next`; the body
runs for `i = 0, ..., pos - 1`. -/
def fromHead (h : Heap T) (head pos : Nat) : Option Nat :=
  match h.get head with
  | none => none
  | some hd => walkNext h pos hd.next

/-- The tail traversal of `insert`:
`current = tail; unsigned int i = m_size; while (i-- > pos) current = current->prev`. -/
def insertFromTail (h : Heap T) (tail m_size pos : Nat) : Option Nat :=
  downLoop h pos (m_size % UINT_MOD) tail

/-- The tail traversal of `remove`:
`unsigned int i = m_size - 1; current = tail->prev; while (i-- > pos) current = current->prev`. -/
def removeFromTail (h : Heap T) (tail m_size pos : Nat) : Option Nat :=
  match h.get tail with
  | none => none
  | some tl => downLoop h pos ((m_size - 1) % UINT_MOD) tl.prev

/-- The four pointer writes and the data write of `insert`, for the new node `n` and
the located node `cur`. -/
def splice (h0 : Heap T) (n cur : Nat) (data : T) : Option (Heap T) :=
  -- n->next = current
  (h0.setNext n cur).bind fun h1 =>
  -- n->prev = current->prev
  (h1.get cur).bind fun c =>
  (h1.setPrev n c.prev).bind fun h2 =>
  -- n->prev->next = n
  (h2.get n).bind fun nn =>
  (h2.setNext nn.prev n).bind fun h3 =>
  -- current->prev = n
  (h3.setPrev cur n).bind fun h4 =>
  -- n->data = data
  h4.setData n data

/-- The two pointer writes and the `delete` of `remove` (the same three lines in both
of its branches), for the located node `cur`. -/
def unsplice (h0 : Heap T) (cur : Nat) : Option (Heap T) :=
  -- current->prev->next = current->next
  (h0.get cur).bind fun c =>
  (h0.setNext c.prev c.next).bind fun h1 =>
  -- current->next->prev = current->prev
  (h1.get cur).bind fun c1 =>
  (h1.setPrev c1.next c1.prev).bind fun h2 =>
  -- delete current
  h2.free cur

/-- `insert(data, pos)`. -/
def insert [Inhabited T] (data : T) (pos : Nat) (s : State T) : Outcome Unit × State T :=
  if ¬ (pos ≤ s.obj.m_size) then (.outOfRange, s)
  else
    -- NodePtr n = new Node
    let n := s.heap.newAddr
    let h0 := s.heap.alloc
    let located : Option Nat :=
      if startFromHead s pos then fromHead h0 s.obj.head pos
      else insertFromTail h0 s.obj.tail s.obj.m_size pos
    match located with
    | none => (.fault, { s with heap := h0 })
    | some cur =>
      match splice h0 n cur data with
      | none => (.fault, { heap := h0, obj := { s.obj with current := cur } })
      | some h5 =>
        -- m_size++
        (.ok (), { heap := h5, obj := { s.obj with current := cur, m_size := s.obj.m_size + 1 } })

/-- `insert(data)`: `insert(data, m_size)`, the size passed as an `unsigned int`. -/
def insertBack [Inhabited T] (data : T) (s : State T) : Outcome Unit × State T :=
  insert data (s.obj.m_size % UINT_MOD) s

/-- `remove(pos)`. -/
def remove (pos : Nat) (s : State T) : Outcome Unit × State T :=
  if s.obj.m_size = 0 then (.ok (), s)
  else if pos > s.obj.m_size then (.outOfRange, s)
  else
    let located : Option Nat :=
      if startFromHead s pos then fromHead s.heap s.obj.head pos
      else removeFromTail s.heap s.obj.tail s.obj.m_size pos
    match located with
    | none => (.fault, s)
    | some cur =>
      match unsplice s.heap cur with
      | none => (.fault, { s with obj := { s.obj with current := cur } })
      | some h3 =>
        -- m_size--
        (.ok (), { heap := h3, obj := { s.obj with current := cur, m_size := s.obj.m_size - 1 } })

/-- `remove()`: `remove(m_size)`, the size passed as an `unsigned int`. -/
def removeBack (s : State T) : Outcome Unit × State T :=
  remove (s.obj.m_size % UINT_MOD) s

/-- The loop of `clear`:
`while (current != tail) { head->next = current->next; delete current; current = head->next; }`. -/
def clearLoop (head tail : Nat) : Nat → Heap T → Nat → Outcome (Heap T × Nat)
  | 0, _, _ => .outOfFuel
  | f + 1, h, cur =>
    if cur = tail then .ok (h, cur)
    else
      match h.get cur with
      | none => .fault
      | some c =>
        match h.setNext head c.next with
        | none => .fault
        | some h1 =>
          match h1.free cur with
          | none => .fault
          | some h2 =>
            match h2.get head with
            | none => .fault
            | some hd => clearLoop head tail f h2 hd.next

/-- `clear()`. -/
def clear (fuel : Nat) (s : State T) : Outcome Unit × State T :=
  match s.heap.get s.obj.head with
  | none => (.fault, s)
  | some hd =>
    match clearLoop s.obj.head s.obj.tail fuel s.heap hd.next with
    | .ok (h1, cur) =>
      match h1.setPrev s.obj.tail s.obj.head with
      | none => (.fault, { heap := h1, obj := { s.obj with current := cur } })
      | some h2 => (.ok (), { heap := h2, obj := { s.obj with current := cur, m_size := 0 } })
    | .outOfRange => (.outOfRange, s)
    | .fault => (.fault, s)
    | .outOfFuel => (.outOfFuel, s)

/-- The class `iterator`: a node pointer. -/
structure iterator where
  m_node : Nat
deriving DecidableEq

/-- `begin()`: `iterator(head->next)`. -/
def begin_ (s : State T) : Option iterator :=
  (s.heap.get s.obj.head).map fun hd => ⟨hd.next⟩

/-- `end()`: `iterator(tail)`. -/
def end_ (s : State T) : iterator := ⟨s.obj.tail⟩

/-- The loop of `find`: advance (`++curr`, which asserts a non-null node), touch the
mutex of the node reached, stop at `tail` or at a node holding `el`. -/
def findLoop [DecidableEq T] (h : Heap T) (tail : Nat) (el : T) : Nat → Nat → Outcome Nat
  | 0, _ => .outOfFuel
  | f + 1, curr =>
    match h.get curr with
    | none => .fault
    | some c =>
      match h.get c.next with
      | none => .fault
      | some nx =>
        if c.next = tail ∨ nx.data = el then .ok c.next
        else findLoop h tail el f c.next

/-- `find(el)`. -/
def find [DecidableEq T] (fuel : Nat) (el : T) (s : State T) : Outcome iterator × State T :=
  match findLoop s.heap s.obj.tail el fuel s.obj.head with
  | .ok curr => if curr ≠ s.obj.tail then (.ok ⟨curr⟩, s) else (.ok (end_ s), s)
  | .outOfRange => (.outOfRange, s)
  | .fault => (.fault, s)
  | .outOfFuel => (.outOfFuel, s)

/-- The argument of `operator=`: a reference to this very object or to another one. -/
inductive Other where
  | self
  | distinct (o : ListObj)

/-- The list `other` refers to, as seen from the state of `this`. -/
def Other.view (other : Other) (s : State T) : State T :=
  match other with
  | .self => s
  | .distinct o => { heap := s.heap, obj := o }

/-- The loop of `operator=`:
`for (unsigned int i = 0; i < other.m_size; ++i) insert(other.getNode(i)->data, i)`. -/
def assignLoop [Inhabited T] (other : Other) : Nat → Nat → State T → Outcome Unit × State T
  | 0, _, s => (.outOfFuel, s)
  | f + 1, i, s =>
    if i < (other.view s).obj.m_size then
      match getNode (other.view s) i with
      | .ok p =>
        match s.heap.get p with
        | none => (.fault, s)
        | some nd =>
          match insert nd.data i s with
          | (.ok _, s1) => assignLoop other f ((i + 1) % UINT_MOD) s1
          | (.outOfRange, s1) => (.outOfRange, s1)
          | (.fault, s1) => (.fault, s1)
          | (.outOfFuel, s1) => (.outOfFuel, s1)
      | .outOfRange => (.outOfRange, s)
      | .fault => (.fault, s)
      | .outOfFuel => (.outOfFuel, s)
    else (.ok (), s)

/-- `operator=(other)`: `clear()`, then the copy loop. -/
def assign [Inhabited T] (fuel : Nat) (other : Other) (s : State T) : Outcome Unit × State T :=
  match clear fuel s with
  | (.ok _, s1) => assignLoop other fuel 0 s1
  | (.outOfRange, s1) => (.outOfRange, s1)
  | (.fault, s1) => (.fault, s1)
  | (.outOfFuel, s1) => (.outOfFuel, s1)

/-- `a[pos] = v`: a write through the reference `operator[]` returns. -/
def writeAt (v : T) (pos : Nat) (s : State T) : Outcome Unit × State T :=
  match index s pos with
  | (.ok p, s1) =>
    match s1.heap.setData p v with
    | none => (.fault, s1)
    | some h1 => (.ok (), { s1 with heap := h1 })
  | (.outOfRange, s1) => (.outOfRange, s1)
  | (.fault, s1) => (.fault, s1)
  | (.outOfFuel, s1) => (.outOfFuel, s1)

/-- Walk `next` from `cur` up to `tail`, collecting the data met on the way. -/
def collect (h : Heap T) (tail : Nat) : Nat → Nat → Option (List T)
  | 0, _ => none
  | f + 1, cur =>
    if cur = tail then some []
    else
      match h.get cur with
      | none => none
      | some c => (collect h tail f c.next).map fun r => c.data :: r

/-- The element sequence read off the heap: the data of the nodes from `head->next`
up to `tail`. -/
def toList (fuel : Nat) (s : State T) : Option (List T) :=
  match s.heap.get s.obj.head with
  | none => none
  | some hd => collect s.heap s.obj.tail fuel hd.next

/-- The list built by appending the elements of `xs` to a fresh list in `h`. -/
def build [Inhabited T] (h : Heap T) (xs : List T) : State T :=
  xs.foldl (fun s x => (insert x s.obj.m_size s).2) (new h)

/-! ## Sequences of calls -/

/-- One call on a list: `insert(v, p)`, `insert(v)`, `remove(p)` or `remove()`. -/
inductive Call (T : Type) where
  | insertAt (v : T) (p : Nat)
  | insertBack (v : T)
  | removeAt (p : Nat)
  | removeBack

/-- Is the call one of the two `insert`s? -/
def Call.isInsert : Call T → Bool
  | .insertAt _ _ => true
  | .insertBack _ => true
  | .removeAt _ => false
  | .removeBack => false

/-- Make the call. -/
def Call.run [Inhabited T] : Call T → State T → Outcome Unit × State T
  | .insertAt v p, s => insert v p s
  | .insertBack v, s => LockFreeList.insertBack v s
  | .removeAt p, s => remove p s
  | .removeBack, s => LockFreeList.removeBack s

/-- A list together with the count of `insert` calls that did not raise `OutOfRange`,
of `remove` calls that did not raise and were applied to a non-empty list, and of calls
that ended neither normally nor with `OutOfRange`. -/
structure Tally (T : Type) where
  state : State T
  inserts : Nat
  removes : Nat
  others : Nat

/-- Make one call and count it; the caller catches `OutOfRange` and goes on with the
list as the call left it. -/
def Tally.step [Inhabited T] (c : Call T) (t : Tally T) : Tally T :=
  { state := (c.run t.state).2,
    inserts := t.inserts +
      (if c.isInsert = true ∧ (c.run t.state).1 ≠ .outOfRange then 1 else 0),
    removes := t.removes +
      (if c.isInsert = false ∧ (c.run t.state).1 ≠ .outOfRange ∧ isEmpty t.state = some false
        then 1 else 0),
    others := t.others +
      (if (c.run t.state).1 = .ok () ∨ (c.run t.state).1 = .outOfRange then 0 else 1) }

/-- Make the calls one after the other. -/
def runCalls [Inhabited T] : List (Call T) → Tally T → Tally T
  | [], t => t
  | c :: cs, t => runCalls cs (t.step c)

/-! ## Well-formed lists -/

/-- The address a run of nodes starts at (`d` when the run is empty). -/
def firstAddr (d : Nat) : List (Nat × T) → Nat
  | [] => d
  | (a, _) :: _ => a

/-- The address a run of nodes ends at (`d` when the run is empty). -/
def lastAddr : Nat → List (Nat × T) → Nat
  | d, [] => d
  | _, (a, _) :: r => lastAddr a r

/-- The addresses of a run of nodes. -/
def addrs (l : List (Nat × T)) : List Nat := l.map Prod.fst

/-- The nodes `l` (address, data) are live and doubly linked in this order: each one's
`next` is its successor (`nxt` after the last) and each one's `prev` its predecessor
(`prv` before the first). -/
def Chain (h : Heap T) : Nat → List (Nat × T) → Nat → Prop
  | _, [], _ => True
  | prv, (a, x) :: r, nxt => h.get a = some ⟨x, firstAddr nxt r, prv⟩ ∧ Chain h a r nxt

/-- All nodes of the list: the head sentinel, the real nodes `ns`, the tail sentinel
(`dh` and `dt` are whatever the sentinels hold). -/
def fullNodes (s : State T) (dh dt : T) (ns : List (Nat × T)) : List (Nat × T) :=
  (s.obj.head, dh) :: (ns ++ [(s.obj.tail, dt)])

/-- The addresses of all nodes of the list: `head`, the real nodes, `tail`. -/
def nodeAddrs (s : State T) (ns : List (Nat × T)) : List Nat :=
  s.obj.head :: (addrs ns ++ [s.obj.tail])

/-- The list object is well formed with the real nodes `ns` (address, data) in order:
`head`, `ns`, `tail` form a doubly-linked chain with `head->prev == 0` and
`tail->next == 0`, the nodes are distinct and were handed out by `new`. -/
def Shape (s : State T) (ns : List (Nat × T)) : Prop :=
  (∃ dh dt, Chain s.heap 0 (fullNodes s dh dt ns) 0) ∧
    (nodeAddrs s ns).Nodup ∧ ∀ a ∈ nodeAddrs s ns, a ≤ s.heap.top

/-- The list object is well formed, its element sequence is `xs` and `m_size` is the
number of its real nodes. -/
def Repr (s : State T) (xs : List T) : Prop :=
  ∃ ns, Shape s ns ∧ ns.map Prod.snd = xs ∧ s.obj.m_size = ns.length

/-- Two list objects `a` and `b` in one heap: both are well formed, with element
sequences `xs` and `ys`, and they share no node. -/
def Apart (h : Heap T) (a b : ListObj) (xs ys : List T) : Prop :=
  ∃ na nb, Shape ⟨h, a⟩ na ∧ Shape ⟨h, b⟩ nb ∧
    na.map Prod.snd = xs ∧ nb.map Prod.snd = ys ∧
    a.m_size = na.length ∧ b.m_size = nb.length ∧
    ∀ x ∈ nodeAddrs ⟨h, a⟩ na, x ∉ nodeAddrs ⟨h, b⟩ nb

/-- The invariant of a run of calls: the list is well formed, its size is the number
of counted `insert`s less the counted `remove`s, and every call ended normally or with
`OutOfRange`. -/
def Tally.Good (t : Tally T) : Prop :=
  ∃ xs, Repr t.state xs ∧ xs.length + t.removes = t.inserts ∧ t.others = 0

/-- The index at which `insert(_, pos)` puts the new node into a list of `n` nodes:
`pos` from the head, and from the tail as many steps back as the 32-bit counter allows. -/
def insertIndex (n pos : Nat) : Nat :=
  if pos < n / 2 then pos else n - (n % UINT_MOD - pos)

/-- The index of the node `remove(pos)` unlinks from a list of `n` nodes. -/
def removeIndex (n pos : Nat) : Nat :=
  if pos < n / 2 then pos else n - 1 - ((n - 1) % UINT_MOD - pos)

/-- `peek(out)`: `0` on an empty list (`head->next == tail`), otherwise
`out = tail->prev->data` and `1`. The result is the number returned together with the
value of the output argument after the call. -/
def peek (out : T) (s : State T) : Outcome (Nat × T) × State T :=
  match s.heap.get s.obj.head with
  | none => (.fault, s)
  | some hd =>
    if hd.next = s.obj.tail then (.ok (0, out), s)
    else
      match s.heap.get s.obj.tail with
      | none => (.fault, s)
      | some tl =>
        match s.heap.get tl.prev with
        | none => (.fault, s)
        | some last => (.ok (1, last.data), s)

/-- `iterator::operator++` (both forms move the iterator the same way):
`assert(m_node != nullptr); m_node = m_node->next`. -/
def iterator.incr (h : Heap T) (it : iterator) : Option iterator :=
  match h.get it.m_node with
  | none => none
  | some n => some ⟨n.next⟩

/-- `iterator::operator*`: `m_node->data`. -/
def iterator.deref (h : Heap T) (it : iterator) : Option T :=
  (h.get it.m_node).map Node.data

/-- `iterator::operator==`: `other.m_node == m_node`. -/
def iterator.eq (it other : iterator) : Bool :=
  decide (other.m_node = it.m_node)

/-- `iterator::operator!=`: `!(*this == other)`. -/
def iterator.ne (it other : iterator) : Bool :=
  !(it.eq other)

/-- `k` increments of an iterator. -/
def advance (h : Heap T) : Nat → iterator → Option iterator
  | 0, it => some it
  | k + 1, it =>
    match it.incr h with
    | none => none
    | some it1 => advance h k it1

/-- `insert(data, pos)` with the branch given by `useHead` where the code asks
`startFromHead(pos)`: the rest of the body is that of `insert`. -/
def insertBy [Inhabited T] (useHead : Bool) (data : T) (pos : Nat) (s : State T) :
    Outcome Unit × State T :=
  if ¬ (pos ≤ s.obj.m_size) then (.outOfRange, s)
  else
    let n := s.heap.newAddr
    let h0 := s.heap.alloc
    let located : Option Nat :=
      if useHead then fromHead h0 s.obj.head pos
      else insertFromTail h0 s.obj.tail s.obj.m_size pos
    match located with
    | none => (.fault, { s with heap := h0 })
    | some cur =>
      match splice h0 n cur data with
      | none => (.fault, { heap := h0, obj := { s.obj with current := cur } })
      | some h5 =>
        (.ok (), { heap := h5, obj := { s.obj with current := cur, m_size := s.obj.m_size + 1 } })

/-- `remove(pos)` with the branch given by `useHead` where the code asks
`startFromHead(pos)`: the rest of the body is that of `remove`. -/
def removeBy (useHead : Bool) (pos : Nat) (s : State T) : Outcome Unit × State T :=
  if s.obj.m_size = 0 then (.ok (), s)
  else if pos > s.obj.m_size then (.outOfRange, s)
  else
    let located : Option Nat :=
      if useHead then fromHead s.heap s.obj.head pos
      else removeFromTail s.heap s.obj.tail s.obj.m_size pos
    match located with
    | none => (.fault, s)
    | some cur =>
      match unsplice s.heap cur with
      | none => (.fault, { s with obj := { s.obj with current := cur } })
      | some h3 =>
        (.ok (), { heap := h3, obj := { s.obj with current := cur, m_size := s.obj.m_size - 1 } })

/-- The states of a list object constructed in the heap `h0`: the state after
construction; the state after a call of `insert(v, p)`, `insert(v)`, `remove(p)`,
`remove()`, `clear()` or `operator=` on a state of the list, however the call ends, where
the source of `operator=` is the list itself or another well-formed list of the heap
that shares no node with it; and the state after the rest of the program has run, which
may allocate and may write outside the nodes of the list. -/
inductive Reachable [Inhabited T] (h0 : Heap T) : State T → Prop where
  | construct : Reachable h0 (new h0)
  | insertAt (s : State T) (v : T) (p : Nat) : Reachable h0 s → Reachable h0 (insert v p s).2
  | insertLast (s : State T) (v : T) : Reachable h0 s → Reachable h0 (insertBack v s).2
  | removeAt (s : State T) (p : Nat) : Reachable h0 s → Reachable h0 (remove p s).2
  | removeLast (s : State T) : Reachable h0 s → Reachable h0 (removeBack s).2
  | cleared (s : State T) (fuel : Nat) : Reachable h0 s → Reachable h0 (clear fuel s).2
  | assigned (s : State T) (fuel : Nat) (b : ListObj) (xs ys : List T) :
      Reachable h0 s → Apart s.heap s.obj b xs ys →
      Reachable h0 (assign fuel (.distinct b) s).2
  | selfAssigned (s : State T) (fuel : Nat) :
      Reachable h0 s → Reachable h0 (assign fuel .self s).2
  | others (s : State T) (h1 : Heap T) :
      Reachable h0 s →
      (∀ ns, Shape s ns → ∀ a ∈ nodeAddrs s ns, h1.get a = s.heap.get a) →
      s.heap.top ≤ h1.top → Reachable h0 ⟨h1, s.obj⟩

/-! ## The heap -/

theorem get_put (h : Heap T) (p : Nat) (n : Option (Node T)) (a : Nat) (hp : p ≠ 0) :
    (h.put p n).get a = if a = p then n else h.get a := by
  unfold Heap.get Heap.put
  by_cases h1 : a = p
  · subst h1; simp [hp]
  · simp [h1]

theorem get_put_ne (h : Heap T) (p : Nat) (n : Option (Node T)) (a : Nat) (hne : a ≠ p) :
    (h.put p n).get a = h.get a := by
  unfold Heap.get Heap.put
  simp [hne]

theorem get_put_same (h : Heap T) (p : Nat) (n : Option (Node T)) (hp : p ≠ 0) :
    (h.put p n).get p = n := by
  rw [get_put h p n p hp]; simp

theorem top_put (h : Heap T) (p : Nat) (n : Option (Node T)) : (h.put p n).top = h.top := rfl

theorem get_alloc [Inhabited T] (h : Heap T) (a : Nat) :
    h.alloc.get a = if a = h.top + 1 then some ⟨default, 0, 0⟩ else h.get a := by
  unfold Heap.get Heap.alloc
  by_cases h1 : a = h.top + 1
  · subst h1; simp
  · simp [h1]

theorem get_alloc_le [Inhabited T] (h : Heap T) (a : Nat) (ha : a ≤ h.top) :
    h.alloc.get a = h.get a := by
  rw [get_alloc]; simp; intro h1; omega

theorem top_alloc [Inhabited T] (h : Heap T) : h.alloc.top = h.top + 1 := rfl

theorem get_ne_zero {h : Heap T} {a : Nat} {n : Node T} (hg : h.get a = some n) : a ≠ 0 := by
  intro h0; subst h0; simp [Heap.get] at hg

/-! ## Chains -/

theorem firstAddr_append (d : Nat) (l r : List (Nat × T)) :
    firstAddr d (l ++ r) = firstAddr (firstAddr d r) l := by
  cases l with
  | nil => rfl
  | cons a l => obtain ⟨a, x⟩ := a; rfl

theorem lastAddr_append (d : Nat) (l r : List (Nat × T)) :
    lastAddr d (l ++ r) = lastAddr (lastAddr d l) r := by
  induction l generalizing d with
  | nil => rfl
  | cons a l ih => obtain ⟨a, x⟩ := a; simp [lastAddr, ih]

theorem chain_append (h : Heap T) (prv nxt : Nat) (l r : List (Nat × T)) :
    Chain h prv (l ++ r) nxt ↔
      Chain h prv l (firstAddr nxt r) ∧ Chain h (lastAddr prv l) r nxt := by
  induction l generalizing prv with
  | nil => simp [Chain, lastAddr]
  | cons a l ih =>
    obtain ⟨a, x⟩ := a
    show (h.get a = some ⟨x, firstAddr nxt (l ++ r), prv⟩ ∧ Chain h a (l ++ r) nxt) ↔
      (h.get a = some ⟨x, firstAddr (firstAddr nxt r) l, prv⟩ ∧ Chain h a l (firstAddr nxt r)) ∧
        Chain h (lastAddr a l) r nxt
    rw [ih, firstAddr_append, and_assoc]

theorem chain_frame {h h' : Heap T} {prv nxt : Nat} {l : List (Nat × T)}
    (hf : ∀ a ∈ addrs l, h'.get a = h.get a) (hc : Chain h prv l nxt) : Chain h' prv l nxt := by
  induction l generalizing prv with
  | nil => trivial
  | cons a l ih =>
    obtain ⟨a, x⟩ := a
    refine ⟨?_, ih (fun b hb => hf b ?_) hc.2⟩
    · rw [hf a (by simp [addrs])]; exact hc.1
    · simp only [addrs, List.map_cons, List.mem_cons] at hb ⊢; exact Or.inr hb

theorem chain_get {h : Heap T} {prv nxt : Nat} {A B : List (Nat × T)} {c : Nat} {x : T}
    (hc : Chain h prv (A ++ (c, x) :: B) nxt) :
    h.get c = some ⟨x, firstAddr nxt B, lastAddr prv A⟩ := by
  rw [chain_append] at hc
  exact hc.2.1

theorem chain_addr_ne_zero {h : Heap T} {prv nxt : Nat} {l : List (Nat × T)}
    (hc : Chain h prv l nxt) : ∀ a ∈ addrs l, a ≠ 0 := by
  induction l generalizing prv with
  | nil => intro a ha; simp [addrs] at ha
  | cons b l ih =>
    obtain ⟨b, x⟩ := b
    intro a ha
    simp only [addrs, List.map_cons, List.mem_cons] at ha
    rcases ha with rfl | ha
    · exact get_ne_zero hc.1
    · exact ih hc.2 a ha

theorem walkNext_chain {h : Heap T} {prv nxt : Nat} (A B : List (Nat × T))
    (hc : Chain h prv (A ++ B) nxt) :
    walkNext h A.length (firstAddr nxt (A ++ B)) = some (firstAddr nxt B) := by
  induction A generalizing prv with
  | nil => rfl
  | cons a A ih =>
    obtain ⟨a, x⟩ := a
    simp only [List.cons_append, Chain] at hc
    simp only [List.cons_append, firstAddr, List.length_cons, walkNext, hc.1]
    exact ih hc.2

theorem walkPrev_chain {h : Heap T} {prv nxt : Nat} (A B : List (Nat × T))
    (hc : Chain h prv (A ++ B) nxt) :
    walkPrev h B.length (lastAddr prv (A ++ B)) = some (lastAddr prv A) := by
  induction B using List.reverseRecOn generalizing nxt with
  | nil => simp [walkPrev]
  | append_singleton B b ih =>
    obtain ⟨b, x⟩ := b
    have hc1 : Chain h prv ((A ++ B) ++ [(b, x)]) nxt := by simpa using hc
    have hb := chain_get hc1
    rw [chain_append] at hc1
    have hl : lastAddr prv (A ++ (B ++ [(b, x)])) = b := by
      rw [← List.append_assoc, lastAddr_append]; rfl
    simp only [List.length_append, List.length_singleton, walkPrev, hl, hb]
    exact ih hc1.1

theorem splice_chain [Inhabited T] {h : Heap T} {A R : List (Nat × T)} (v : T)
    (hc : Chain h 0 (A ++ R) 0) (hA : A ≠ []) (hR : R ≠ [])
    (hnd : (addrs (A ++ R)).Nodup) (htop : ∀ a ∈ addrs (A ++ R), a ≤ h.top) :
    ∃ h5, splice h.alloc h.newAddr (firstAddr 0 R) v = some h5 ∧
      Chain h5 0 (A ++ (h.newAddr, v) :: R) 0 ∧ h5.top = h.top + 1 ∧
      ∀ a, a ≤ h.top → a ∉ addrs (A ++ R) → h5.get a = h.get a := by
  rcases List.eq_nil_or_concat A with rfl | ⟨A0, ⟨p, xp⟩, rfl⟩
  · exact absurd rfl hA
  cases R with
  | nil => exact absurd rfl hR
  | cons c B =>
  obtain ⟨c, xc⟩ := c
  simp only [List.concat_eq_append] at hc hnd htop ⊢
  have hc' : Chain h 0 (A0 ++ (p, xp) :: (c, xc) :: B) 0 := by simpa using hc
  have hp := chain_get hc'
  have hcg := chain_get hc
  rw [lastAddr_append] at hcg
  change h.get p = some ⟨xp, c, lastAddr 0 A0⟩ at hp
  change h.get c = some ⟨xc, firstAddr 0 B, p⟩ at hcg
  have hp0 := get_ne_zero hp
  have hc0 := get_ne_zero hcg
  have hple : p ≤ h.top := htop p (by simp [addrs])
  have hcle : c ≤ h.top := htop c (by simp [addrs])
  have hnd' : (addrs A0 ++ p :: c :: addrs B).Nodup := by simpa [addrs] using hnd
  have hpc : p ≠ c := by
    intro e; subst e
    simp [List.nodup_append] at hnd'
  have hn0 : h.newAddr ≠ 0 := by simp [Heap.newAddr]
  have hnp : p ≠ h.newAddr := by simp only [Heap.newAddr]; omega
  have hnc : c ≠ h.newAddr := by simp only [Heap.newAddr]; omega
  have hgn : h.alloc.get h.newAddr = some ⟨default, 0, 0⟩ := by
    rw [get_alloc]; simp [Heap.newAddr]
  have hgp : h.alloc.get p = some ⟨xp, c, lastAddr 0 A0⟩ := by rw [get_alloc_le _ _ hple, hp]
  have hgc : h.alloc.get c = some ⟨xc, firstAddr 0 B, p⟩ := by rw [get_alloc_le _ _ hcle, hcg]
  have hget : ∀ a, (((((h.alloc.put h.newAddr (some ⟨default, c, 0⟩)).put h.newAddr
      (some ⟨default, c, p⟩)).put p (some ⟨xp, h.newAddr, lastAddr 0 A0⟩)).put c
      (some ⟨xc, firstAddr 0 B, h.newAddr⟩)).put h.newAddr (some ⟨v, c, p⟩)).get a =
      if a = h.newAddr then some ⟨v, c, p⟩
      else if a = c then some ⟨xc, firstAddr 0 B, h.newAddr⟩
      else if a = p then some ⟨xp, h.newAddr, lastAddr 0 A0⟩
      else h.alloc.get a := by
    intro a
    simp only [get_put _ _ _ _ hn0, get_put _ _ _ _ hp0, get_put _ _ _ _ hc0]
    split_ifs <;> rfl
  have hother : ∀ a, a ≤ h.top → a ≠ p → a ≠ c →
      (((((h.alloc.put h.newAddr (some ⟨default, c, 0⟩)).put h.newAddr
      (some ⟨default, c, p⟩)).put p (some ⟨xp, h.newAddr, lastAddr 0 A0⟩)).put c
      (some ⟨xc, firstAddr 0 B, h.newAddr⟩)).put h.newAddr (some ⟨v, c, p⟩)).get a = h.get a := by
    intro a hle hap hac
    have han : a ≠ h.newAddr := by simp only [Heap.newAddr]; omega
    rw [hget, if_neg han, if_neg hac, if_neg hap, get_alloc_le _ _ hle]
  refine ⟨((((h.alloc.put h.newAddr (some ⟨default, c, 0⟩)).put h.newAddr
      (some ⟨default, c, p⟩)).put p (some ⟨xp, h.newAddr, lastAddr 0 A0⟩)).put c
      (some ⟨xc, firstAddr 0 B, h.newAddr⟩)).put h.newAddr (some ⟨v, c, p⟩), ?_, ?_, rfl, ?_⟩
  · simp [splice, Heap.setNext, Heap.setPrev, Heap.setData, firstAddr, get_put, hn0, hp0, hc0,
      hgn, hgp, hgc, hnp, hnc, hpc, hpc.symm, hnp.symm, hnc.symm]
  · rw [chain_append] at hc'
    obtain ⟨hA0, -, -, hB⟩ := hc'
    have hA0' : Chain h 0 A0 p := hA0
    rw [List.append_assoc, chain_append]
    refine ⟨chain_frame (fun a ha => ?_) hA0', ?_, ?_, ?_, chain_frame (fun a ha => ?_) hB⟩
    · have hin : a ∈ addrs A0 ++ p :: c :: addrs B := List.mem_append_left _ ha
      refine hother a (htop a (by simpa [addrs] using hin)) ?_ ?_
      · rintro rfl; simp [List.nodup_append] at hnd'; exact hnd'.2.2.1 ha
      · rintro rfl; simp [List.nodup_append] at hnd'; exact hnd'.2.2.2.1 ha
    · show _ = some ⟨xp, h.newAddr, lastAddr 0 A0⟩
      rw [hget, if_neg hnp, if_neg hpc, if_pos rfl]
    · show _ = some ⟨v, c, p⟩
      rw [hget, if_pos rfl]
    · show _ = some ⟨xc, firstAddr 0 B, h.newAddr⟩
      rw [hget, if_neg hnc, if_pos rfl]
    · have hin : a ∈ addrs A0 ++ p :: c :: addrs B :=
        List.mem_append_right _ (List.mem_cons_of_mem _ (List.mem_cons_of_mem _ ha))
      refine hother a (htop a (by simpa [addrs] using hin)) ?_ ?_
      · rintro rfl; simp [List.nodup_append] at hnd'; tauto
      · rintro rfl; simp [List.nodup_append] at hnd'; tauto
  · intro a hle hna
    have hna' : a ∉ addrs A0 ++ p :: c :: addrs B := by simpa [addrs] using hna
    refine hother a hle ?_ ?_
    · rintro rfl; simp at hna'
    · rintro rfl; simp at hna'

theorem unsplice_chain {h : Heap T} {A B : List (Nat × T)} {c : Nat} {xc : T}
    (hc : Chain h 0 (A ++ (c, xc) :: B) 0) (hA : A ≠ []) (hB : B ≠ [])
    (hnd : (addrs (A ++ (c, xc) :: B)).Nodup) :
    ∃ h3, unsplice h c = some h3 ∧ Chain h3 0 (A ++ B) 0 ∧ h3.top = h.top ∧
      (∀ a, a ∉ addrs (A ++ (c, xc) :: B) → h3.get a = h.get a) ∧ h3.get c = none := by
  rcases List.eq_nil_or_concat A with rfl | ⟨A0, ⟨p, xp⟩, rfl⟩
  · exact absurd rfl hA
  cases B with
  | nil => exact absurd rfl hB
  | cons q B0 =>
  obtain ⟨q, xq⟩ := q
  simp only [List.concat_eq_append] at hc hnd ⊢
  have hcg := chain_get hc
  have hc1 : Chain h 0 (A0 ++ (p, xp) :: (c, xc) :: (q, xq) :: B0) 0 := by simpa using hc
  have hp := chain_get hc1
  have hc2 : Chain h 0 ((A0 ++ [(p, xp), (c, xc)]) ++ (q, xq) :: B0) 0 := by simpa using hc
  have hq := chain_get hc2
  rw [lastAddr_append] at hcg hq
  change h.get c = some ⟨xc, q, p⟩ at hcg
  change h.get p = some ⟨xp, c, lastAddr 0 A0⟩ at hp
  change h.get q = some ⟨xq, firstAddr 0 B0, c⟩ at hq
  have hp0 := get_ne_zero hp
  have hc0 := get_ne_zero hcg
  have hq0 := get_ne_zero hq
  have hnd' : (addrs A0 ++ p :: c :: q :: addrs B0).Nodup := by simpa [addrs] using hnd
  have hpc : p ≠ c := by rintro rfl; simp [List.nodup_append] at hnd'
  have hpq : p ≠ q := by rintro rfl; simp [List.nodup_append] at hnd'
  have hcq : c ≠ q := by rintro rfl; simp [List.nodup_append] at hnd'
  have hget : ∀ a, (((h.put p (some ⟨xp, q, lastAddr 0 A0⟩)).put q
      (some ⟨xq, firstAddr 0 B0, p⟩)).put c none).get a =
      if a = c then none
      else if a = q then some ⟨xq, firstAddr 0 B0, p⟩
      else if a = p then some ⟨xp, q, lastAddr 0 A0⟩
      else h.get a := by
    intro a
    simp only [get_put _ _ _ _ hq0, get_put _ _ _ _ hp0, get_put _ _ _ _ hc0]
  refine ⟨((h.put p (some ⟨xp, q, lastAddr 0 A0⟩)).put q
      (some ⟨xq, firstAddr 0 B0, p⟩)).put c none, ?_, ?_, rfl, ?_, ?_⟩
  · simp [unsplice, Heap.setNext, Heap.setPrev, Heap.free, get_put, hp0, hc0, hq0,
      hcg, hp, hq, hpc, hpq, hcq, hpc.symm, hpq.symm, hcq.symm]
  · rw [chain_append] at hc1
    obtain ⟨hA0, -, -, -, hB0⟩ := hc1
    have hA0' : Chain h 0 A0 p := hA0
    rw [List.append_assoc, chain_append]
    refine ⟨chain_frame (fun a ha => ?_) hA0', ?_, ?_, chain_frame (fun a ha => ?_) hB0⟩
    · have h1 : a ≠ c := by rintro rfl; simp [List.nodup_append] at hnd'; tauto
      have h2 : a ≠ q := by rintro rfl; simp [List.nodup_append] at hnd'; tauto
      have h3 : a ≠ p := by rintro rfl; simp [List.nodup_append] at hnd'; tauto
      rw [hget, if_neg h1, if_neg h2, if_neg h3]
    · show _ = some ⟨xp, q, lastAddr 0 A0⟩
      rw [hget, if_neg hpc, if_neg hpq, if_pos rfl]
    · show _ = some ⟨xq, firstAddr 0 B0, p⟩
      rw [hget, if_neg hcq.symm, if_pos rfl]
    · have h1 : a ≠ c := by rintro rfl; simp [List.nodup_append] at hnd'; tauto
      have h2 : a ≠ q := by rintro rfl; simp [List.nodup_append] at hnd'; tauto
      have h3 : a ≠ p := by rintro rfl; simp [List.nodup_append] at hnd'; tauto
      rw [hget, if_neg h1, if_neg h2, if_neg h3]
  · intro a hna
    have hna' : a ∉ addrs A0 ++ p :: c :: q :: addrs B0 := by simpa [addrs] using hna
    have h1 : a ≠ c := by rintro rfl; simp at hna'
    have h2 : a ≠ q := by rintro rfl; simp at hna'
    have h3 : a ≠ p := by rintro rfl; simp at hna'
    rw [hget, if_neg h1, if_neg h2, if_neg h3]
  · rw [hget, if_pos rfl]


theorem downLoop_eq (h : Heap T) (pos i cur : Nat) :
    downLoop h pos i cur = walkPrev h (i - pos) cur := by
  induction i generalizing cur with
  | zero => simp [downLoop, walkPrev]
  | succ i ih =>
    by_cases hgt : i + 1 > pos
    · have e : i + 1 - pos = (i - pos) + 1 := by omega
      rw [e]
      simp only [downLoop, if_pos hgt, walkPrev]
      cases h.get cur with
      | none => rfl
      | some c => exact ih c.prev
    · have e : i + 1 - pos = 0 := by omega
      rw [e]
      simp only [downLoop, if_neg hgt, walkPrev]

theorem fromHead_chain {h : Heap T} {hd nxt : Nat} {dh : T} {l : List (Nat × T)}
    (hc : Chain h 0 ((hd, dh) :: l) nxt) (k : Nat) (hk : k ≤ l.length) :
    fromHead h hd k = some (firstAddr nxt (l.drop k)) := by
  have h1 : h.get hd = some ⟨dh, firstAddr nxt l, 0⟩ := hc.1
  have h2 : Chain h hd (l.take k ++ l.drop k) nxt := by rw [List.take_append_drop]; exact hc.2
  have h3 := walkNext_chain _ _ h2
  rw [List.take_append_drop, List.length_take, Nat.min_eq_left hk] at h3
  simp only [fromHead, h1, h3]

theorem walkPrev_last {h : Heap T} {prv nxt : Nat} (l : List (Nat × T))
    (hc : Chain h prv l nxt) (k : Nat) (hk : k < l.length) :
    walkPrev h k (lastAddr prv l) = some (firstAddr nxt (l.drop (l.length - 1 - k))) := by
  have hlt : l.length - 1 - k < l.length := by omega
  have hd : l.drop (l.length - 1 - k) = l[l.length - 1 - k] :: l.drop (l.length - 1 - k + 1) :=
    List.drop_eq_getElem_cons hlt
  generalize l[l.length - 1 - k] = cx at hd
  obtain ⟨c, x⟩ := cx
  have hl : l = (l.take (l.length - 1 - k) ++ [(c, x)]) ++ l.drop (l.length - 1 - k + 1) := by
    rw [List.append_assoc, List.singleton_append, ← hd, List.take_append_drop]
  have hc' := hc
  rw [hl] at hc'
  have h3 := walkPrev_chain _ _ hc'
  rw [← hl, lastAddr_append] at h3
  have hlen : (l.drop (l.length - 1 - k + 1)).length = k := by
    rw [List.length_drop]; omega
  rw [hlen] at h3
  rw [h3, hd]
  rfl


theorem addrs_fullNodes (s : State T) (dh dt : T) (ns : List (Nat × T)) :
    addrs (fullNodes s dh dt ns) = nodeAddrs s ns := by
  simp [addrs, fullNodes, nodeAddrs]

theorem insertIndex_le {n pos : Nat} (h : pos ≤ n) : insertIndex n pos ≤ n := by
  unfold insertIndex; split_ifs <;> omega

theorem insertIndex_eq {n pos : Nat} (h : pos ≤ n) (hn : n < UINT_MOD) :
    insertIndex n pos = pos := by
  unfold insertIndex
  rw [Nat.mod_eq_of_lt hn]
  split_ifs <;> omega

theorem removeIndex_lt {n pos : Nat} (hn : 0 < n) (h : pos ≤ n) : removeIndex n pos < n := by
  unfold removeIndex; split_ifs <;> omega

theorem removeIndex_eq {n pos : Nat} (h : pos < n) (hn : n ≤ UINT_MOD) :
    removeIndex n pos = pos := by
  unfold removeIndex
  rw [Nat.mod_eq_of_lt (by omega)]
  split_ifs <;> omega

theorem removeIndex_size {n : Nat} (hn : 0 < n) (hu : n ≤ UINT_MOD) :
    removeIndex n n = n - 1 := by
  unfold removeIndex
  rw [Nat.mod_eq_of_lt (by omega)]
  split_ifs <;> omega

theorem lastAddr_fullNodes (s : State T) (dh dt : T) (ns : List (Nat × T)) :
    lastAddr 0 (fullNodes s dh dt ns) = s.obj.tail := by
  simp [fullNodes, lastAddr, lastAddr_append]

theorem insert_located [Inhabited T] {s : State T} {ns : List (Nat × T)} {dh dt : T}
    (h0 : Heap T) (hc : Chain h0 0 (fullNodes s dh dt ns) 0)
    (hm : s.obj.m_size = ns.length) (pos : Nat) (hp : pos ≤ ns.length) :
    (if startFromHead s pos then fromHead h0 s.obj.head pos
      else insertFromTail h0 s.obj.tail s.obj.m_size pos) =
    some (firstAddr 0 (ns.drop (insertIndex ns.length pos) ++ [(s.obj.tail, dt)])) := by
  unfold startFromHead insertIndex
  rw [hm]
  by_cases hlt : pos < ns.length / 2
  · simp only [hlt, decide_True, if_true]
    rw [fromHead_chain hc pos (by simp; omega), List.drop_append_of_le_length hp]
  · simp only [hlt, decide_False, if_false, Bool.false_eq_true]
    unfold insertFromTail
    rw [downLoop_eq]
    have hk : ns.length % UINT_MOD - pos < (fullNodes s dh dt ns).length := by
      have := Nat.mod_le ns.length UINT_MOD
      simp [fullNodes]; omega
    have h1 := walkPrev_last _ hc _ hk
    rw [lastAddr_fullNodes] at h1
    rw [h1]
    have := Nat.mod_le ns.length UINT_MOD
    have e : (fullNodes s dh dt ns).length - 1 - (ns.length % UINT_MOD - pos) =
        (ns.length - (ns.length % UINT_MOD - pos)) + 1 := by
      simp [fullNodes]; omega
    rw [e]
    simp only [fullNodes, List.drop_succ_cons]
    rw [List.drop_append_of_le_length (by omega)]

/-- What `insert` does to a well-formed list: it does not fail, the new node `newAddr`
is linked in at `insertIndex`, the other nodes stay where they are, and no cell
outside the list is touched. -/
theorem insert_shape [Inhabited T] {s : State T} {ns : List (Nat × T)} (v : T) (pos : Nat)
    (hs : Shape s ns) (hm : s.obj.m_size = ns.length) (hp : pos ≤ ns.length) :
    (insert v pos s).1 = .ok () ∧
    Shape (insert v pos s).2
      (ns.take (insertIndex ns.length pos) ++
        (s.heap.newAddr, v) :: ns.drop (insertIndex ns.length pos)) ∧
    (insert v pos s).2.obj.m_size = ns.length + 1 ∧
    (insert v pos s).2.obj.head = s.obj.head ∧
    (insert v pos s).2.obj.tail = s.obj.tail ∧
    (insert v pos s).2.heap.top = s.heap.top + 1 ∧
    ∀ a, a ≤ s.heap.top → a ∉ nodeAddrs s ns → (insert v pos s).2.heap.get a = s.heap.get a := by
  obtain ⟨⟨dh, dt, hc⟩, hnd, htop⟩ := hs
  set q := insertIndex ns.length pos with hq
  have hql : q ≤ ns.length := insertIndex_le hp
  have hc0 : Chain s.heap.alloc 0 (fullNodes s dh dt ns) 0 :=
    chain_frame (fun a ha => get_alloc_le _ _ (htop a (by rwa [← addrs_fullNodes s dh dt]))) hc
  have hloc := insert_located s.heap.alloc hc0 hm pos hp
  have hsplit : fullNodes s dh dt ns =
      ((s.obj.head, dh) :: ns.take q) ++ (ns.drop q ++ [(s.obj.tail, dt)]) := by
    rw [fullNodes, List.cons_append, ← List.append_assoc, List.take_append_drop]
  rw [← hq] at hloc
  have hc1 := hc
  rw [hsplit] at hc1
  have hnd1 : (addrs (((s.obj.head, dh) :: ns.take q) ++ (ns.drop q ++ [(s.obj.tail, dt)]))).Nodup := by
    rw [← hsplit, addrs_fullNodes]; exact hnd
  have htop1 : ∀ a ∈ addrs (((s.obj.head, dh) :: ns.take q) ++ (ns.drop q ++ [(s.obj.tail, dt)])),
      a ≤ s.heap.top := by
    rw [← hsplit, addrs_fullNodes]; exact htop
  obtain ⟨h5, hsp, hch, ht5, hfr⟩ := splice_chain v hc1 (by simp) (by simp) hnd1 htop1
  have hins : insert v pos s = (.ok (), { heap := h5, obj := { s.obj with
      current := firstAddr 0 (ns.drop q ++ [(s.obj.tail, dt)]), m_size := s.obj.m_size + 1 } }) := by
    unfold insert
    rw [if_neg (by rw [hm]; omega)]
    simp only [hloc, hsp]
  have hnew : s.heap.newAddr ∉ nodeAddrs s ns := by
    intro hmem
    have := htop _ hmem
    simp [Heap.newAddr] at this
  have hperm : (nodeAddrs (State.mk h5 { s.obj with
        current := firstAddr 0 (ns.drop q ++ [(s.obj.tail, dt)]), m_size := s.obj.m_size + 1 })
        (ns.take q ++ (s.heap.newAddr, v) :: ns.drop q)).Perm
      (s.heap.newAddr :: nodeAddrs s ns) := by
    have e : addrs ns = addrs (ns.take q) ++ addrs (ns.drop q) := by
      rw [addrs, addrs, addrs, ← List.map_append, List.take_append_drop]
    have e1 : nodeAddrs s ns =
        (s.obj.head :: addrs (ns.take q)) ++ (addrs (ns.drop q) ++ [s.obj.tail]) := by
      rw [nodeAddrs, e, List.cons_append, List.append_assoc]
    rw [e1]
    show (s.obj.head :: (addrs (ns.take q ++ (s.heap.newAddr, v) :: ns.drop q) ++
      [s.obj.tail])).Perm _
    have e2 : addrs (ns.take q ++ (s.heap.newAddr, v) :: ns.drop q) =
        addrs (ns.take q) ++ s.heap.newAddr :: addrs (ns.drop q) := by
      simp only [addrs, List.map_append, List.map_cons]
    rw [e2, List.append_assoc, List.cons_append, ← List.cons_append]
    exact List.perm_middle
  rw [hins]
  refine ⟨rfl, ⟨⟨dh, dt, ?_⟩, ?_, ?_⟩, by simp [hm], rfl, rfl, ht5, ?_⟩
  · simpa [fullNodes] using hch
  · exact (hperm.nodup_iff).2 (List.nodup_cons.2 ⟨hnew, hnd⟩)
  · intro a ha
    rw [ht5]
    rcases List.mem_cons.1 ((hperm.mem_iff).1 ha) with rfl | h1
    · simp [Heap.newAddr]
    · exact Nat.le_succ_of_le (htop a h1)
  · intro a hle hna
    exact hfr a hle (by rwa [← hsplit, addrs_fullNodes])


theorem remove_located {s : State T} {ns : List (Nat × T)} {dh dt : T}
    (hc : Chain s.heap 0 (fullNodes s dh dt ns) 0)
    (hm : s.obj.m_size = ns.length) (hn : 0 < ns.length) (pos : Nat) (hp : pos ≤ ns.length) :
    (if startFromHead s pos then fromHead s.heap s.obj.head pos
      else removeFromTail s.heap s.obj.tail s.obj.m_size pos) =
    some (firstAddr s.obj.tail (ns.drop (removeIndex ns.length pos))) := by
  unfold startFromHead removeIndex
  rw [hm]
  by_cases hlt : pos < ns.length / 2
  · simp only [hlt, decide_True, if_true]
    rw [fromHead_chain hc pos (by simp; omega), List.drop_append_of_le_length hp,
      firstAddr_append]
    rfl
  · simp only [hlt, decide_False, if_false, Bool.false_eq_true]
    unfold removeFromTail
    simp only [downLoop_eq]
    have hc1 : Chain s.heap 0 (((s.obj.head, dh) :: ns) ++ [(s.obj.tail, dt)]) 0 := hc
    have htl := chain_get hc1
    rw [chain_append] at hc1
    have hc2 : Chain s.heap 0 ((s.obj.head, dh) :: ns) s.obj.tail := hc1.1
    have hmod := Nat.mod_le (ns.length - 1) UINT_MOD
    have hk : (ns.length - 1) % UINT_MOD - pos < ((s.obj.head, dh) :: ns).length := by
      simp; omega
    have h1 := walkPrev_last _ hc2 _ hk
    simp only [htl, h1]
    have e : ((s.obj.head, dh) :: ns).length - 1 - ((ns.length - 1) % UINT_MOD - pos) =
        (ns.length - 1 - ((ns.length - 1) % UINT_MOD - pos)) + 1 := by
      simp; omega
    rw [e, List.drop_succ_cons]

/-- What `remove` does to a well-formed non-empty list: it does not fail, the node at
`removeIndex` is unlinked and freed, the other nodes stay where they are, and no cell
outside the list is touched. -/
theorem remove_shape {s : State T} {ns : List (Nat × T)} (pos : Nat)
    (hs : Shape s ns) (hm : s.obj.m_size = ns.length) (hn : 0 < ns.length)
    (hp : pos ≤ ns.length) :
    (remove pos s).1 = .ok () ∧
    Shape (remove pos s).2 (ns.eraseIdx (removeIndex ns.length pos)) ∧
    (remove pos s).2.obj.m_size = ns.length - 1 ∧
    (remove pos s).2.obj.head = s.obj.head ∧
    (remove pos s).2.obj.tail = s.obj.tail ∧
    (remove pos s).2.heap.top = s.heap.top ∧
    ∀ a, a ∉ nodeAddrs s ns → (remove pos s).2.heap.get a = s.heap.get a := by
  obtain ⟨⟨dh, dt, hc⟩, hnd, htop⟩ := hs
  have hloc := remove_located hc hm hn pos hp
  set r := removeIndex ns.length pos with hr
  have hrl : r < ns.length := removeIndex_lt hn hp
  have hd : ns.drop r = ns[r] :: ns.drop (r + 1) := List.drop_eq_getElem_cons hrl
  generalize ns[r] = cx at hd
  obtain ⟨c, xc⟩ := cx
  rw [hd] at hloc
  change _ = some c at hloc
  have hsplit : fullNodes s dh dt ns =
      ((s.obj.head, dh) :: ns.take r) ++ (c, xc) :: (ns.drop (r + 1) ++ [(s.obj.tail, dt)]) := by
    rw [fullNodes, List.cons_append, ← List.cons_append (c, xc), ← hd, ← List.append_assoc,
      List.take_append_drop]
  have hc1 := hc
  rw [hsplit] at hc1
  have hnd1 : (addrs (((s.obj.head, dh) :: ns.take r) ++
      (c, xc) :: (ns.drop (r + 1) ++ [(s.obj.tail, dt)]))).Nodup := by
    rw [← hsplit, addrs_fullNodes]; exact hnd
  obtain ⟨h3, hun, hch, ht3, hfr, -⟩ := unsplice_chain hc1 (by simp) (by simp) hnd1
  have hrem : remove pos s = (.ok (), { heap := h3, obj := { s.obj with
      current := c, m_size := s.obj.m_size - 1 } }) := by
    unfold remove
    rw [if_neg (by rw [hm]; omega), if_neg (by rw [hm]; omega)]
    simp only [hloc, hun]
  have hsub : (nodeAddrs (State.mk h3 { s.obj with current := c, m_size := s.obj.m_size - 1 })
      (ns.eraseIdx r)).Sublist (nodeAddrs s ns) := by
    show (s.obj.head :: (addrs (ns.eraseIdx r) ++ [s.obj.tail])).Sublist
      (s.obj.head :: (addrs ns ++ [s.obj.tail]))
    exact ((((List.eraseIdx_sublist ns r).map Prod.fst).append_right _).cons₂ _)
  rw [hrem]
  refine ⟨rfl, ⟨⟨dh, dt, ?_⟩, hsub.nodup hnd, ?_⟩, by simp [hm], rfl, rfl, ht3, ?_⟩
  · rw [List.eraseIdx_eq_take_drop_succ]
    simpa [fullNodes] using hch
  · intro a ha
    rw [ht3]
    exact htop a (hsub.subset ha)
  · intro a hna
    exact hfr a (by rwa [← hsplit, addrs_fullNodes])


theorem new_shape [Inhabited T] (h : Heap T) : Shape (new h) [] ∧ (new h).obj.m_size = 0 := by
  refine ⟨⟨⟨default, default, ?_⟩, ?_, ?_⟩, rfl⟩
  · simp [fullNodes, Chain, new, get_put, Heap.newAddr, top_alloc, firstAddr]
  · simp [nodeAddrs, new, addrs, Heap.newAddr, top_alloc]
  · simp [nodeAddrs, new, addrs, Heap.newAddr, top_alloc, top_put]

theorem getNodeLoop_chain {h : Heap T} {prv nxt : Nat} (A B : List (Nat × T))
    (hc : Chain h prv (A ++ B) nxt) :
    getNodeLoop h A.length (firstAddr nxt (A ++ B)) = some (firstAddr nxt B) := by
  induction A generalizing prv with
  | nil => rfl
  | cons a A ih =>
    obtain ⟨a, x⟩ := a
    simp only [List.cons_append, Chain] at hc
    simp only [List.cons_append, firstAddr, List.length_cons, getNodeLoop, hc.1,
      if_neg (get_ne_zero hc.1)]
    exact ih hc.2

theorem getNode_shape {s : State T} {ns : List (Nat × T)} (hs : Shape s ns)
    (hm : s.obj.m_size = ns.length) (pos : Nat) (hp : pos ≤ ns.length) :
    getNode s pos = .ok (firstAddr s.obj.tail (ns.drop pos)) := by
  obtain ⟨⟨dh, dt, hc⟩, -, -⟩ := hs
  have h1 : s.heap.get s.obj.head = some ⟨dh, firstAddr 0 (ns ++ [(s.obj.tail, dt)]), 0⟩ := hc.1
  have h2 : Chain s.heap s.obj.head (ns.take pos ++ (ns.drop pos ++ [(s.obj.tail, dt)])) 0 := by
    rw [← List.append_assoc, List.take_append_drop]; exact hc.2
  have h3 := getNodeLoop_chain _ _ h2
  rw [← List.append_assoc, List.take_append_drop, List.length_take, Nat.min_eq_left hp] at h3
  have e : firstAddr 0 (ns.drop pos ++ [(s.obj.tail, dt)]) = firstAddr s.obj.tail (ns.drop pos) :=
    firstAddr_append _ _ _
  rw [e] at h3
  unfold getNode
  rw [if_neg (by rw [hm]; omega)]
  simp only [h1, h3]

theorem chain_getElem {h : Heap T} {prv nxt : Nat} {l : List (Nat × T)}
    (hc : Chain h prv l nxt) (i : Nat) (hi : i < l.length) :
    ∃ nx pv, h.get l[i].1 = some ⟨l[i].2, nx, pv⟩ := by
  have hd : l.drop i = l[i] :: l.drop (i + 1) := List.drop_eq_getElem_cons hi
  have hl : l = l.take i ++ l[i] :: l.drop (i + 1) := by rw [← hd, List.take_append_drop]
  rw [hl] at hc
  exact ⟨_, _, chain_get hc⟩

theorem shape_getElem {s : State T} {ns : List (Nat × T)} (hs : Shape s ns)
    (i : Nat) (hi : i < ns.length) :
    ∃ nx pv, s.heap.get ns[i].1 = some ⟨ns[i].2, nx, pv⟩ := by
  obtain ⟨⟨dh, dt, hc⟩, -, -⟩ := hs
  have hc1 : Chain s.heap 0 (((s.obj.head, dh) :: ns) ++ [(s.obj.tail, dt)]) 0 := hc
  rw [chain_append] at hc1
  exact chain_getElem hc1.1.2 i hi

theorem shape_tail {s : State T} {ns : List (Nat × T)} (hs : Shape s ns) :
    ∃ dt, s.heap.get s.obj.tail = some ⟨dt, 0, lastAddr s.obj.head ns⟩ := by
  obtain ⟨⟨dh, dt, hc⟩, -, -⟩ := hs
  have hc1 : Chain s.heap 0 (((s.obj.head, dh) :: ns) ++ [(s.obj.tail, dt)]) 0 := hc
  exact ⟨dt, chain_get hc1⟩

theorem shape_head {s : State T} {ns : List (Nat × T)} (hs : Shape s ns) :
    ∃ dh, s.heap.get s.obj.head = some ⟨dh, firstAddr s.obj.tail ns, 0⟩ := by
  obtain ⟨⟨dh, dt, hc⟩, -, -⟩ := hs
  refine ⟨dh, ?_⟩
  have := hc.1
  rwa [firstAddr_append] at this

theorem firstAddr_drop (d : Nat) (l : List (Nat × T)) (i : Nat) (hi : i < l.length) :
    firstAddr d (l.drop i) = l[i].1 := by
  rw [List.drop_eq_getElem_cons hi]; rfl

theorem index_shape {s : State T} {ns : List (Nat × T)} (hs : Shape s ns)
    (hm : s.obj.m_size = ns.length) (pos : Nat) (hp : pos ≤ ns.length) :
    index s pos = (.ok (firstAddr s.obj.tail (ns.drop pos)), s) := by
  unfold index
  rw [getNode_shape hs hm pos hp]
  rcases Nat.lt_or_ge pos ns.length with hlt | hge
  · obtain ⟨nx, pv, hg⟩ := shape_getElem hs pos hlt
    simp only [firstAddr_drop _ _ _ hlt, hg]
  · obtain ⟨dt, hg⟩ := shape_tail hs
    rw [List.drop_eq_nil_of_le hge]
    simp only [firstAddr, hg]

theorem collect_chain {h : Heap T} {prv tl : Nat} (l : List (Nat × T))
    (hc : Chain h prv l tl) (hnt : tl ∉ addrs l) (fuel : Nat) (hf : l.length < fuel) :
    collect h tl fuel (firstAddr tl l) = some (l.map Prod.snd) := by
  induction l generalizing prv fuel with
  | nil =>
    cases fuel with
    | zero => omega
    | succ f => simp [collect, firstAddr]
  | cons a l ih =>
    obtain ⟨a, x⟩ := a
    cases fuel with
    | zero => omega
    | succ f =>
      have hne : a ≠ tl := by
        rintro rfl; simp [addrs] at hnt
      have hnt' : tl ∉ addrs l := by
        intro hmem; exact hnt (by simp only [addrs, List.map_cons]; exact List.mem_cons_of_mem _ hmem)
      rw [show firstAddr tl ((a, x) :: l) = a from rfl]
      simp only [collect, if_neg hne, hc.1]
      rw [ih hc.2 hnt' f (by simpa using hf)]
      rfl

theorem toList_shape {s : State T} {ns : List (Nat × T)} (hs : Shape s ns)
    (fuel : Nat) (hf : ns.length < fuel) :
    toList fuel s = some (ns.map Prod.snd) := by
  obtain ⟨dh, hh⟩ := shape_head hs
  obtain ⟨⟨dh', dt, hc⟩, hnd, -⟩ := hs
  have hc1 : Chain s.heap 0 (((s.obj.head, dh') :: ns) ++ [(s.obj.tail, dt)]) 0 := hc
  rw [chain_append] at hc1
  have hnt : s.obj.tail ∉ addrs ns := by
    intro hmem
    have : (addrs ns ++ [s.obj.tail]).Nodup := (List.nodup_cons.1 hnd).2
    rw [List.nodup_append] at this
    exact this.2.2 hmem (by simp)
  unfold toList
  simp only [hh]
  exact collect_chain ns hc1.1.2 hnt fuel hf


theorem map_eraseIdx {α β : Type} (f : α → β) (l : List α) (i : Nat) :
    (l.eraseIdx i).map f = (l.map f).eraseIdx i := by
  induction l generalizing i with
  | nil => rfl
  | cons a l ih =>
    cases i with
    | zero => rfl
    | succ i => simp [ih]

theorem repr_size {s : State T} {xs : List T} (hr : Repr s xs) : s.obj.m_size = xs.length := by
  obtain ⟨ns, -, hx, hm⟩ := hr
  rw [hm, ← hx, List.length_map]

theorem repr_toList {s : State T} {xs : List T} (hr : Repr s xs) (fuel : Nat)
    (hf : xs.length < fuel) : toList fuel s = some xs := by
  obtain ⟨ns, hs, hx, hm⟩ := hr
  rw [← hx]
  exact toList_shape hs fuel (by rw [← hx, List.length_map] at hf; exact hf)

theorem repr_unique {s : State T} {xs ys : List T} (hx : Repr s xs) (hy : Repr s ys) :
    xs = ys := by
  have h1 := repr_toList hx (xs.length + 1) (Nat.lt_succ_self _)
  have h2 := repr_toList hy (xs.length + 1)
    (by rw [← repr_size hx, repr_size hy]; exact Nat.lt_succ_self _)
  rw [h1] at h2
  exact Option.some.inj h2

theorem insert_repr [Inhabited T] {s : State T} {xs : List T} (v : T) (pos : Nat)
    (hr : Repr s xs) (hp : pos ≤ xs.length) :
    (insert v pos s).1 = .ok () ∧
    Repr (insert v pos s).2
      (xs.take (insertIndex xs.length pos) ++ v :: xs.drop (insertIndex xs.length pos)) := by
  obtain ⟨ns, hs, hx, hm⟩ := hr
  have hl : xs.length = ns.length := by rw [← hx, List.length_map]
  rw [hl] at hp ⊢
  obtain ⟨h1, h2, h3, -⟩ := insert_shape v pos hs hm hp
  refine ⟨h1, _, h2, ?_, ?_⟩
  · simp [← hx, List.map_take, List.map_drop]
  · rw [h3]
    have := insertIndex_le hp
    simp; omega

theorem remove_repr {s : State T} {xs : List T} (pos : Nat)
    (hr : Repr s xs) (hn : 0 < xs.length) (hp : pos ≤ xs.length) :
    (remove pos s).1 = .ok () ∧
    Repr (remove pos s).2 (xs.eraseIdx (removeIndex xs.length pos)) := by
  obtain ⟨ns, hs, hx, hm⟩ := hr
  have hl : xs.length = ns.length := by rw [← hx, List.length_map]
  rw [hl] at hp hn ⊢
  obtain ⟨h1, h2, h3, -⟩ := remove_shape pos hs hm hn hp
  refine ⟨h1, _, h2, ?_, ?_⟩
  · rw [← hx]
    exact map_eraseIdx _ _ _
  · rw [h3, List.length_eraseIdx]
    simp [removeIndex_lt hn hp]

theorem new_repr [Inhabited T] (h : Heap T) : Repr (new h) ([] : List T) :=
  ⟨[], (new_shape h).1, rfl, rfl⟩

theorem insertIndex_size (n : Nat) : insertIndex n n = n := by
  unfold insertIndex
  have := Nat.mod_le n UINT_MOD
  split_ifs <;> omega

theorem build_append [Inhabited T] (h : Heap T) (xs : List T) (x : T) :
    build h (xs ++ [x]) = (insert x (build h xs).obj.m_size (build h xs)).2 := by
  simp [build, List.foldl_append]

theorem build_repr [Inhabited T] (h : Heap T) (xs : List T) : Repr (build h xs) xs := by
  induction xs using List.reverseRecOn with
  | nil => exact new_repr h
  | append_singleton xs x ih =>
    rw [build_append, repr_size ih]
    have := (insert_repr x xs.length ih (le_refl _)).2
    rw [insertIndex_size] at this
    simpa using this


theorem insert_repr_exact [Inhabited T] {s : State T} {xs : List T} (v : T) (p : Nat)
    (hr : Repr s xs) (hp : p ≤ xs.length) (hu : xs.length < UINT_MOD) :
    (insert v p s).1 = .ok () ∧ Repr (insert v p s).2 (xs.take p ++ [v] ++ xs.drop p) := by
  have h := insert_repr v p hr hp
  rw [insertIndex_eq hp hu] at h
  simpa using h

theorem remove_repr_exact {s : State T} {xs : List T} (p : Nat)
    (hr : Repr s xs) (hp : p < xs.length) (hu : xs.length ≤ UINT_MOD) :
    (remove p s).1 = .ok () ∧ Repr (remove p s).2 (xs.eraseIdx p) := by
  have h := remove_repr p hr (by omega) (le_of_lt hp)
  rwa [removeIndex_eq hp hu] at h

theorem walkNext_head {s : State T} {ns : List (Nat × T)} (hs : Shape s ns)
    (p : Nat) (hp : p ≤ ns.length) :
    walkNext s.heap (p + 1) s.obj.head = some (firstAddr s.obj.tail (ns.drop p)) := by
  obtain ⟨⟨dh, dt, hc⟩, -, -⟩ := hs
  have h1 := fromHead_chain hc p (by simp; omega)
  rw [List.drop_append_of_le_length hp, firstAddr_append] at h1
  have h2 : s.heap.get s.obj.head = some ⟨dh, firstAddr 0 (ns ++ [(s.obj.tail, dt)]), 0⟩ := hc.1
  simp only [fromHead, h2] at h1
  simp only [walkNext, h2]
  exact h1

theorem index_repr {s : State T} {xs : List T} (p : Nat)
    (hr : Repr s xs) (hp : p < xs.length) :
    ∃ a, index s p = (.ok a, s) ∧ walkNext s.heap (p + 1) s.obj.head = some a ∧
      deref s.heap a = some xs[p] := by
  obtain ⟨ns, hs, hx, hm⟩ := hr
  have hl : xs.length = ns.length := by rw [← hx, List.length_map]
  have hp' : p < ns.length := by omega
  obtain ⟨nx, pv, hg⟩ := shape_getElem hs p hp'
  refine ⟨ns[p].1, ?_, ?_, ?_⟩
  · rw [index_shape hs hm p (le_of_lt hp'), firstAddr_drop _ _ _ hp']
  · rw [walkNext_head hs p (le_of_lt hp'), firstAddr_drop _ _ _ hp']
  · simp [deref, hg, ← hx]

theorem getElem_insert {α : Type} (xs : List α) (v : α) (p : Nat) (hp : p ≤ xs.length)
    (h : p < (xs.take p ++ [v] ++ xs.drop p).length) :
    (xs.take p ++ [v] ++ xs.drop p)[p] = v := by
  have h1 : (xs.take p ++ [v] ++ xs.drop p)[p]? = some v := by
    rw [List.append_assoc, List.getElem?_append_right (by simp [hp])]
    simp [hp]
  rw [List.getElem?_eq_getElem h] at h1
  exact Option.some.inj h1

theorem eraseIdx_insert {α : Type} (xs : List α) (v : α) (p : Nat) (hp : p ≤ xs.length) :
    (xs.take p ++ [v] ++ xs.drop p).eraseIdx p = xs := by
  rw [List.append_assoc, List.eraseIdx_append_of_length_le (by simp [hp])]
  simp [hp]


theorem insert_outOfRange [Inhabited T] (v : T) (p : Nat) (s : State T)
    (hp : s.obj.m_size < p) : insert v p s = (.outOfRange, s) := by
  unfold insert
  rw [if_pos (by omega)]

theorem remove_outOfRange (p : Nat) (s : State T) (hn : s.obj.m_size ≠ 0)
    (hp : s.obj.m_size < p) : remove p s = (.outOfRange, s) := by
  unfold remove
  rw [if_neg hn, if_pos hp]

theorem remove_empty (p : Nat) (s : State T) (hn : s.obj.m_size = 0) :
    remove p s = (.ok (), s) := by
  unfold remove
  rw [if_pos hn]

theorem isEmpty_shape {s : State T} {ns : List (Nat × T)} (hs : Shape s ns) :
    isEmpty s = some ns.isEmpty := by
  obtain ⟨dh, hh⟩ := shape_head hs
  obtain ⟨-, hnd, -⟩ := hs
  unfold isEmpty
  rw [hh]
  cases ns with
  | nil => simp [firstAddr]
  | cons a ns =>
    obtain ⟨a, x⟩ := a
    have : a ≠ s.obj.tail := by
      rintro rfl
      simp [nodeAddrs, addrs] at hnd
    simp [firstAddr, this]

theorem isEmpty_repr {s : State T} {xs : List T} (hr : Repr s xs) :
    isEmpty s = some xs.isEmpty := by
  obtain ⟨ns, hs, hx, -⟩ := hr
  rw [isEmpty_shape hs, ← hx]
  cases ns <;> rfl

theorem step_good [Inhabited T] (c : Call T) (t : Tally T) (hg : t.Good) : (t.step c).Good := by
  obtain ⟨xs, hr, hcount, hoth⟩ := hg
  have hm := repr_size hr
  have hemp := isEmpty_repr hr
  have hmod := Nat.mod_le xs.length UINT_MOD
  -- the two kinds of `insert`
  have hins : ∀ v p, c.run t.state = insert v p t.state → c.isInsert = true →
      (t.step c).Good := by
    intro v p hrun hisI
    by_cases hp : p ≤ xs.length
    · obtain ⟨h1, h2⟩ := insert_repr v p hr hp
      refine ⟨_, by rw [Tally.step, hrun]; exact h2, ?_, ?_⟩
      · have := insertIndex_le hp
        simp only [Tally.step, hrun, h1, hisI]
        simp; omega
      · simp only [Tally.step, hrun, h1]
        simpa using hoth
    · have h1 := insert_outOfRange v p t.state (by omega)
      refine ⟨xs, by rw [Tally.step, hrun, h1]; exact hr, ?_, ?_⟩
      · simp only [Tally.step, hrun, h1, hisI]
        simpa using hcount
      · simp only [Tally.step, hrun, h1]
        simpa using hoth
  -- the two kinds of `remove`
  have hrem : ∀ p, c.run t.state = remove p t.state → c.isInsert = false →
      (t.step c).Good := by
    intro p hrun hisI
    by_cases hn : xs.length = 0
    · have h1 := remove_empty p t.state (by omega)
      have hnil : xs = [] := List.length_eq_zero.1 hn
      refine ⟨xs, by rw [Tally.step, hrun, h1]; exact hr, ?_, ?_⟩
      · simp only [Tally.step, hrun, h1, hisI, hemp, hnil]
        simpa [hnil] using hcount
      · simp only [Tally.step, hrun, h1]
        simpa using hoth
    · have hne : xs ≠ [] := fun e => hn (by rw [e]; rfl)
      by_cases hp : p ≤ xs.length
      · obtain ⟨h1, h2⟩ := remove_repr p hr (by omega) hp
        refine ⟨_, by rw [Tally.step, hrun]; exact h2, ?_, ?_⟩
        · have := removeIndex_lt (Nat.pos_of_ne_zero hn) hp
          simp only [Tally.step, hrun, h1, hisI, hemp]
          rw [List.length_eraseIdx]
          simp [hne, this]; omega
        · simp only [Tally.step, hrun, h1]
          simpa using hoth
      · have h1 := remove_outOfRange p t.state (by omega) (by omega)
        refine ⟨xs, by rw [Tally.step, hrun, h1]; exact hr, ?_, ?_⟩
        · simp only [Tally.step, hrun, h1, hisI]
          simpa using hcount
        · simp only [Tally.step, hrun, h1]
          simpa using hoth
  cases c with
  | insertAt v p => exact hins v p rfl rfl
  | insertBack v => exact hins v _ rfl rfl
  | removeAt p => exact hrem p rfl rfl
  | removeBack => exact hrem _ rfl rfl

theorem runCalls_good [Inhabited T] (cs : List (Call T)) (t : Tally T) (hg : t.Good) :
    (runCalls cs t).Good := by
  induction cs generalizing t with
  | nil => exact hg
  | cons c cs ih => exact ih _ (step_good c t hg)

theorem dropWhile_indexOf [DecidableEq T] (l : List (Nat × T)) (v : T) :
    l.dropWhile (fun n => decide (n.2 ≠ v)) = l.drop ((l.map Prod.snd).indexOf v) := by
  induction l with
  | nil => rfl
  | cons a l ih =>
    obtain ⟨a, x⟩ := a
    by_cases hx : x = v
    · simp [List.dropWhile, hx]
    · simp only [List.dropWhile, hx, ne_eq, not_false_eq_true, decide_True, List.map_cons]
      rw [List.indexOf_cons_ne _ hx, List.drop_succ_cons]
      simpa using ih

theorem findLoop_chain [DecidableEq T] {h : Heap T} {tl : Nat} (el : T) (l : List (Nat × T))
    (c0 : Nat) (d0 : T) (p0 : Nat) (h0 : h.get c0 = some ⟨d0, firstAddr tl l, p0⟩)
    (hc : Chain h c0 l tl) (dt : Node T) (htl : h.get tl = some dt) (hnt : tl ∉ addrs l)
    (fuel : Nat) (hf : l.length < fuel) :
    findLoop h tl el fuel c0 =
      .ok (firstAddr tl (l.dropWhile (fun n => decide (n.2 ≠ el)))) := by
  induction l generalizing c0 d0 p0 fuel with
  | nil =>
    cases fuel with
    | zero => omega
    | succ f =>
      change h.get c0 = some ⟨d0, tl, p0⟩ at h0
      simp [findLoop, h0, htl, firstAddr]
  | cons a l ih =>
    obtain ⟨a, x⟩ := a
    cases fuel with
    | zero => omega
    | succ f =>
      change h.get c0 = some ⟨d0, a, p0⟩ at h0
      have hne : a ≠ tl := by
        rintro rfl; simp [addrs] at hnt
      have hnt' : tl ∉ addrs l := by
        intro hmem; exact hnt (by simp only [addrs, List.map_cons]; exact List.mem_cons_of_mem _ hmem)
      have ha : h.get a = some ⟨x, firstAddr tl l, c0⟩ := hc.1
      by_cases hx : x = el
      · simp [findLoop, h0, ha, hne, hx, List.dropWhile, firstAddr]
      · have := ih a x c0 ha hc.2 hnt' f (by simpa using hf)
        simp [findLoop, h0, ha, hne, hx, List.dropWhile, this]

theorem find_shape [DecidableEq T] {s : State T} {ns : List (Nat × T)} (hs : Shape s ns)
    (el : T) (fuel : Nat) (hf : ns.length < fuel) :
    find fuel el s = (.ok ⟨firstAddr s.obj.tail (ns.drop ((ns.map Prod.snd).indexOf el))⟩, s) := by
  obtain ⟨dh, hh⟩ := shape_head hs
  obtain ⟨dt, ht⟩ := shape_tail hs
  obtain ⟨⟨dh', dt', hc⟩, hnd, -⟩ := hs
  have hc1 : Chain s.heap 0 (((s.obj.head, dh') :: ns) ++ [(s.obj.tail, dt')]) 0 := hc
  rw [chain_append] at hc1
  have hnt : s.obj.tail ∉ addrs ns := by
    intro hmem
    have : (addrs ns ++ [s.obj.tail]).Nodup := (List.nodup_cons.1 hnd).2
    rw [List.nodup_append] at this
    exact this.2.2 hmem (by simp)
  have := findLoop_chain el ns s.obj.head dh 0 hh hc1.1.2 _ ht hnt fuel hf
  rw [dropWhile_indexOf] at this
  unfold find
  rw [this]
  simp only [end_]
  split_ifs with h1
  · rfl
  · rw [not_not] at h1; rw [h1]


theorem shape_tail_not_mem {s : State T} {ns : List (Nat × T)} (hs : Shape s ns) :
    s.obj.tail ∉ addrs ns := by
  obtain ⟨-, hnd, -⟩ := hs
  intro hmem
  have : (addrs ns ++ [s.obj.tail]).Nodup := (List.nodup_cons.1 hnd).2
  rw [List.nodup_append] at this
  exact this.2.2 hmem (by simp)

theorem shape_getElem_ne_tail {s : State T} {ns : List (Nat × T)} (hs : Shape s ns)
    (i : Nat) (hi : i < ns.length) : ns[i].1 ≠ s.obj.tail := by
  intro e
  apply shape_tail_not_mem hs
  rw [← e]
  exact List.mem_map_of_mem _ (List.getElem_mem hi)

theorem ne_of_lt_indexOf [DecidableEq T] (xs : List T) (v : T) (j : Nat)
    (hj : j < xs.indexOf v) : xs[j]? ≠ some v := by
  induction xs generalizing j with
  | nil => simp
  | cons x xs ih =>
    by_cases hx : x = v
    · subst hx; simp at hj
    · rw [List.indexOf_cons_ne _ hx] at hj
      cases j with
      | zero => simpa using hx
      | succ j => simpa using ih j (by omega)

theorem find_repr [DecidableEq T] {s : State T} {xs : List T} (v : T) (fuel : Nat)
    (hr : Repr s xs) (hf : xs.length < fuel) :
    (find fuel v s).2 = s ∧
    (v ∈ xs → ∃ it, (find fuel v s).1 = .ok it ∧ it ≠ end_ s ∧
      (index s (xs.indexOf v)).1 = .ok it.m_node ∧ deref s.heap it.m_node = some v) ∧
    (v ∉ xs → (find fuel v s).1 = .ok (end_ s)) := by
  obtain ⟨ns, hs, hx, hm⟩ := hr
  subst hx
  have hl : (ns.map Prod.snd).length = ns.length := List.length_map _ _
  have hfind := find_shape hs v fuel (by omega)
  rw [hfind]
  refine ⟨rfl, ?_, ?_⟩
  · intro hv
    have hi : (ns.map Prod.snd).indexOf v < ns.length := by
      rw [← hl]; exact List.indexOf_lt_length.2 hv
    obtain ⟨nx, pv, hg⟩ := shape_getElem hs _ hi
    have hi' : (ns.map Prod.snd).indexOf v < (ns.map Prod.snd).length := by omega
    have hd : (ns.map Prod.snd)[(ns.map Prod.snd).indexOf v] = v := List.indexOf_get hi'
    refine ⟨_, rfl, ?_, ?_, ?_⟩
    · intro e
      have := congrArg iterator.m_node e
      simp only [end_, firstAddr_drop _ _ _ hi] at this
      exact shape_getElem_ne_tail hs _ hi this
    · rw [index_shape hs hm _ (le_of_lt hi)]
    · simp only [firstAddr_drop _ _ _ hi, deref, hg, Option.map_some']
      rw [List.getElem_map] at hd
      rw [hd]
  · intro hv
    have hi : (ns.map Prod.snd).indexOf v = (ns.map Prod.snd).length :=
      List.indexOf_eq_length.2 hv
    rw [hi, hl, List.drop_length]
    rfl


theorem clearLoop_chain {hd tl : Nat} {dh : T} (hhd : hd ≠ 0) (l : List (Nat × T)) (h : Heap T)
    (pv : Nat) (h0 : h.get hd = some ⟨dh, firstAddr tl l, 0⟩) (hc : Chain h pv l tl)
    (hnh : hd ∉ addrs l) (hnt : tl ∉ addrs l) (hnd : (addrs l).Nodup)
    (fuel : Nat) (hf : l.length < fuel) :
    ∃ h', clearLoop hd tl fuel h (firstAddr tl l) = .ok (h', tl) ∧
      h'.get hd = some ⟨dh, tl, 0⟩ ∧ h'.top = h.top ∧
      ∀ a, a ≠ hd → a ∉ addrs l → h'.get a = h.get a := by
  induction l generalizing h pv fuel with
  | nil =>
    cases fuel with
    | zero => omega
    | succ f => exact ⟨h, by simp [clearLoop, firstAddr], h0, rfl, fun _ _ _ => rfl⟩
  | cons a l ih =>
    obtain ⟨a, x⟩ := a
    cases fuel with
    | zero => omega
    | succ f =>
      change h.get hd = some ⟨dh, a, 0⟩ at h0
      have ha : h.get a = some ⟨x, firstAddr tl l, pv⟩ := hc.1
      have ha0 := get_ne_zero ha
      have hat : a ≠ tl := by rintro rfl; simp [addrs] at hnt
      have hah : a ≠ hd := by rintro rfl; simp [addrs] at hnh
      have hnh' : hd ∉ addrs l := by
        intro hmem; exact hnh (by simp only [addrs, List.map_cons]; exact List.mem_cons_of_mem _ hmem)
      have hnt' : tl ∉ addrs l := by
        intro hmem; exact hnt (by simp only [addrs, List.map_cons]; exact List.mem_cons_of_mem _ hmem)
      have hnd' : (addrs l).Nodup ∧ a ∉ addrs l := by
        simp only [addrs, List.map_cons, List.nodup_cons] at hnd
        exact ⟨hnd.2, hnd.1⟩
      have hget : ∀ b, ((h.put hd (some ⟨dh, firstAddr tl l, 0⟩)).put a none).get b =
          if b = a then none else if b = hd then some ⟨dh, firstAddr tl l, 0⟩ else h.get b := by
        intro b
        simp only [get_put _ _ _ _ hhd, get_put _ _ _ _ ha0]
      have hc' : Chain ((h.put hd (some ⟨dh, firstAddr tl l, 0⟩)).put a none) a l tl := by
        refine chain_frame (fun b hb => ?_) hc.2
        have h1 : b ≠ a := by rintro rfl; exact hnd'.2 hb
        have h2 : b ≠ hd := by rintro rfl; exact hnh' hb
        rw [hget, if_neg h1, if_neg h2]
      have h0' : ((h.put hd (some ⟨dh, firstAddr tl l, 0⟩)).put a none).get hd =
          some ⟨dh, firstAddr tl l, 0⟩ := by
        rw [hget, if_neg hah.symm, if_pos rfl]
      obtain ⟨h', e1, e2, e3, e4⟩ := ih _ a h0' hc' hnh' hnt' hnd'.1 f (by simpa using hf)
      refine ⟨h', ?_, e2, e3, ?_⟩
      · rw [show firstAddr tl ((a, x) :: l) = a from rfl]
        simp only [clearLoop, if_neg hat, ha, Heap.setNext, h0, Heap.free,
          get_put_ne _ _ _ _ hah, h0']
        exact e1
      · intro b hb1 hb2
        have h1 : b ≠ a := by
          rintro rfl; simp [addrs] at hb2
        have h2 : b ∉ addrs l := by
          intro hmem
          exact hb2 (by simp only [addrs, List.map_cons]; exact List.mem_cons_of_mem _ hmem)
        rw [e4 b hb1 h2, hget, if_neg h1, if_neg hb1]

/-- What `clear` does to a well-formed list: with fuel for its real nodes it does not
fail, leaves the two sentinels linked to each other, and touches no cell outside the
list. -/
theorem clear_shape {s : State T} {ns : List (Nat × T)} (hs : Shape s ns)
    (fuel : Nat) (hf : ns.length < fuel) :
    (clear fuel s).1 = .ok () ∧
    Shape (clear fuel s).2 [] ∧
    (clear fuel s).2.obj.m_size = 0 ∧
    (clear fuel s).2.obj.head = s.obj.head ∧
    (clear fuel s).2.obj.tail = s.obj.tail ∧
    (clear fuel s).2.heap.top = s.heap.top ∧
    ∀ a, a ∉ nodeAddrs s ns → (clear fuel s).2.heap.get a = s.heap.get a := by
  obtain ⟨dh, hh⟩ := shape_head hs
  obtain ⟨dt, ht⟩ := shape_tail hs
  have hnt := shape_tail_not_mem hs
  obtain ⟨⟨dh', dt', hc⟩, hnd, htop⟩ := hs
  have hc1 : Chain s.heap 0 (((s.obj.head, dh') :: ns) ++ [(s.obj.tail, dt')]) 0 := hc
  rw [chain_append] at hc1
  have hh0 := get_ne_zero hh
  have ht0 := get_ne_zero ht
  have hnh : s.obj.head ∉ addrs ns := by
    intro hmem
    have := (List.nodup_cons.1 hnd).1
    exact this (List.mem_append_left _ hmem)
  have hht : s.obj.head ≠ s.obj.tail := by
    intro e
    have := (List.nodup_cons.1 hnd).1
    exact this (by rw [e]; simp)
  have hnd' : (addrs ns).Nodup := by
    have : (addrs ns ++ [s.obj.tail]).Nodup := (List.nodup_cons.1 hnd).2
    exact (List.nodup_append.1 this).1
  obtain ⟨h', e1, e2, e3, e4⟩ :=
    clearLoop_chain hh0 ns s.heap s.obj.head hh hc1.1.2 hnh hnt hnd' fuel hf
  have ht' : h'.get s.obj.tail = some ⟨dt, 0, lastAddr s.obj.head ns⟩ := by
    rw [e4 _ hht.symm hnt, ht]
  have hclear : clear fuel s = (.ok (), State.mk (h'.put s.obj.tail (some ⟨dt, 0, s.obj.head⟩))
      { s.obj with current := s.obj.tail, m_size := 0 }) := by
    unfold clear
    simp only [hh, e1, Heap.setPrev, ht']
  rw [hclear]
  refine ⟨rfl, ⟨⟨dh, dt, ?_⟩, ?_, ?_⟩, rfl, rfl, rfl, ?_, ?_⟩
  · refine ⟨?_, ?_, trivial⟩
    · show (h'.put s.obj.tail _).get s.obj.head = some ⟨dh, s.obj.tail, 0⟩
      rw [get_put_ne _ _ _ _ hht, e2]
    · show (h'.put s.obj.tail _).get s.obj.tail = some ⟨dt, 0, s.obj.head⟩
      rw [get_put_same _ _ _ ht0]
  · show [s.obj.head, s.obj.tail].Nodup
    simp [hht]
  · intro a ha
    have ha' : a ∈ [s.obj.head, s.obj.tail] := ha
    show a ≤ h'.top
    rw [e3]
    refine htop a ?_
    rcases List.mem_cons.1 ha' with rfl | h
    · simp [nodeAddrs]
    · have := List.mem_singleton.1 h
      subst this
      simp [nodeAddrs]
  · exact e3
  · intro a hna
    show (h'.put s.obj.tail _).get a = s.heap.get a
    have h1 : a ≠ s.obj.tail := by rintro rfl; simp [nodeAddrs] at hna
    have h2 : a ≠ s.obj.head := by rintro rfl; simp [nodeAddrs] at hna
    have h3 : a ∉ addrs ns := by
      intro hmem; exact hna (by simp [nodeAddrs, hmem])
    rw [get_put_ne _ _ _ _ h1, e4 a h2 h3]


theorem shape_frame {h h' : Heap T} {o : ListObj} {ns : List (Nat × T)}
    (hs : Shape ⟨h, o⟩ ns) (hf : ∀ a ∈ nodeAddrs ⟨h, o⟩ ns, h'.get a = h.get a)
    (ht : h.top ≤ h'.top) : Shape ⟨h', o⟩ ns := by
  obtain ⟨⟨dh, dt, hc⟩, hnd, htop⟩ := hs
  refine ⟨⟨dh, dt, chain_frame (fun a ha => hf a ?_) hc⟩, hnd, fun a ha => le_trans (htop a ha) ht⟩
  rw [← addrs_fullNodes (State.mk h o) dh dt]
  exact ha

theorem take_succ_map {α β : Type} (f : α → β) (l : List α) (i : Nat) (hi : i < l.length) :
    (l.map f).take (i + 1) = (l.map f).take i ++ [f l[i]] := by
  rw [List.take_succ]
  simp [List.getElem?_eq_getElem hi]

theorem assignLoop_shape [Inhabited T] (b : ListObj) (nb : List (Nat × T))
    (hbm : b.m_size = nb.length) (hu : nb.length < UINT_MOD) :
    ∀ (k : Nat) (s : State T) (na : List (Nat × T)) (fuel : Nat),
      Shape s na → s.obj.m_size = na.length → Shape ⟨s.heap, b⟩ nb →
      (∀ x ∈ nodeAddrs s na, x ∉ nodeAddrs ⟨s.heap, b⟩ nb) →
      na.length + k = nb.length → na.map Prod.snd = (nb.map Prod.snd).take na.length →
      k < fuel →
      ∃ s' na', assignLoop (.distinct b) fuel na.length s = (.ok (), s') ∧
        Shape s' na' ∧ na'.map Prod.snd = nb.map Prod.snd ∧ s'.obj.m_size = na'.length ∧
        Shape ⟨s'.heap, b⟩ nb ∧ (∀ x ∈ nodeAddrs s' na', x ∉ nodeAddrs ⟨s'.heap, b⟩ nb) := by
  intro k
  induction k with
  | zero =>
    intro s na fuel hs hm hsb hdisj hlen hdata hf
    cases fuel with
    | zero => omega
    | succ f =>
      refine ⟨s, na, ?_, hs, ?_, hm, hsb, hdisj⟩
      · simp only [assignLoop, Other.view, hbm]
        rw [if_neg (by omega)]
      · rw [hdata, List.take_of_length_le (by simp; omega)]
  | succ k ih =>
    intro s na fuel hs hm hsb hdisj hlen hdata hf
    cases fuel with
    | zero => omega
    | succ f =>
      have hi : na.length < nb.length := by omega
      have hnode := getNode_shape hsb hbm na.length (le_of_lt hi)
      rw [firstAddr_drop _ _ _ hi] at hnode
      obtain ⟨nx, pv, hg⟩ := shape_getElem hsb na.length hi
      obtain ⟨h1, h2, h3, h4, h5, h6, h7⟩ := insert_shape (nb[na.length]).2 na.length hs hm (le_refl _)
      rw [insertIndex_size, List.take_length, List.drop_length] at h2
      have hbtop : ∀ x ∈ nodeAddrs (State.mk s.heap b) nb, x ≤ s.heap.top := hsb.2.2
      rcases hI : insert (nb[na.length]).2 na.length s with ⟨r, s1⟩
      rw [hI] at h1 h2 h3 h4 h5 h6 h7
      simp only at h1 h2 h3 h4 h5 h6 h7
      subst h1
      have hsb1 : Shape ⟨s1.heap, b⟩ nb := by
        refine shape_frame hsb (fun x hx => ?_) (by rw [h6]; omega)
        exact h7 x (hbtop x hx) (fun hxa => hdisj x hxa hx)
      have hdisj1 : ∀ x ∈ nodeAddrs s1 (na ++ [(s.heap.newAddr, (nb[na.length]).2)]),
          x ∉ nodeAddrs ⟨s1.heap, b⟩ nb := by
        intro x hx hxb
        have hxb' : x ∈ nodeAddrs (State.mk s.heap b) nb := hxb
        have hx' : x ∈ nodeAddrs s na ∨ x = s.heap.newAddr := by
          simp only [nodeAddrs, h4, h5, addrs, List.map_append, List.map_cons, List.map_nil,
            List.mem_cons, List.mem_append, List.mem_singleton, List.not_mem_nil, or_false] at hx ⊢
          tauto
        rcases hx' with hx' | rfl
        · exact hdisj x hx' hxb'
        · have := hbtop _ hxb'
          simp [Heap.newAddr] at this
      have hmod : (na.length + 1) % UINT_MOD = na.length + 1 := Nat.mod_eq_of_lt (by omega)
      obtain ⟨s', na', e1, e2, e3, e4, e5, e6⟩ := ih s1 (na ++ [(s.heap.newAddr, (nb[na.length]).2)]) f
        h2 (by rw [h3]; simp) hsb1 hdisj1 (by simp; omega)
        (by
          rw [List.length_append, List.length_singleton, take_succ_map _ _ _ hi, ← hdata]
          simp)
        (by omega)
      refine ⟨s', na', ?_, e2, e3, e4, e5, e6⟩
      rw [List.length_append, List.length_singleton] at e1
      simp only [assignLoop, Other.view, hbm, if_pos hi, hnode, hg, hI, hmod]
      exact e1


theorem assign_apart [Inhabited T] {h : Heap T} {a b : ListObj} {xs ys : List T} (fuel : Nat)
    (hab : Apart h a b xs ys) (hu : ys.length < UINT_MOD)
    (hfa : xs.length < fuel) (hfb : ys.length < fuel) :
    ∃ s', assign fuel (.distinct b) ⟨h, a⟩ = (.ok (), s') ∧ Apart s'.heap s'.obj b ys ys := by
  obtain ⟨na, nb, hsa, hsb, hxa, hxb, hma, hmb, hdisj⟩ := hab
  have hla : xs.length = na.length := by rw [← hxa, List.length_map]
  have hlb : ys.length = nb.length := by rw [← hxb, List.length_map]
  obtain ⟨c1, c2, c3, c4, c5, c6, c7⟩ := clear_shape hsa fuel (by omega)
  rcases hC : clear fuel (State.mk h a) with ⟨r, s1⟩
  rw [hC] at c1 c2 c3 c4 c5 c6 c7
  simp only at c1 c2 c3 c4 c5 c6 c7
  subst c1
  have hsb1 : Shape ⟨s1.heap, b⟩ nb :=
    shape_frame hsb (fun x hx => c7 x (fun hxa => hdisj x hxa hx)) (by rw [c6])
  have hdisj1 : ∀ x ∈ nodeAddrs s1 [], x ∉ nodeAddrs ⟨s1.heap, b⟩ nb := by
    intro x hx hxb'
    refine hdisj x ?_ hxb'
    simp only [nodeAddrs, c4, c5, addrs, List.map_nil, List.nil_append, List.mem_cons,
      List.mem_singleton, List.not_mem_nil, or_false, List.mem_append] at hx ⊢
    tauto
  obtain ⟨s', na', e1, e2, e3, e4, e5, e6⟩ := assignLoop_shape b nb hmb (by omega) nb.length s1 []
    fuel c2 c3 hsb1 hdisj1 (by simp) (by simp) (by omega)
  refine ⟨s', ?_, na', nb, e2, e5, by rw [e3, hxb], hxb, e4, hmb, e6⟩
  simp only [assign, hC]
  exact e1

theorem insert_apart [Inhabited T] {h : Heap T} {a b : ListObj} {xs ys : List T}
    (hab : Apart h a b xs ys) (v : T) (p : Nat) :
    Repr ⟨(insert v p ⟨h, a⟩).2.heap, b⟩ ys := by
  obtain ⟨na, nb, hsa, hsb, hxa, hxb, hma, hmb, hdisj⟩ := hab
  refine ⟨nb, ?_, hxb, hmb⟩
  by_cases hp : p ≤ na.length
  · obtain ⟨-, -, -, -, -, h6, h7⟩ := insert_shape v p hsa hma hp
    exact shape_frame hsb (fun x hx => h7 x (hsb.2.2 x hx) (fun hxa => hdisj x hxa hx))
      (by rw [h6]; exact Nat.le_succ _)
  · have hm : (State.mk h a).obj.m_size < p := by show a.m_size < p; omega
    rw [insert_outOfRange v p _ hm]
    exact hsb

theorem remove_apart {h : Heap T} {a b : ListObj} {xs ys : List T}
    (hab : Apart h a b xs ys) (p : Nat) :
    Repr ⟨(remove p ⟨h, a⟩).2.heap, b⟩ ys := by
  obtain ⟨na, nb, hsa, hsb, hxa, hxb, hma, hmb, hdisj⟩ := hab
  refine ⟨nb, ?_, hxb, hmb⟩
  by_cases hn : na.length = 0
  · have hm : (State.mk h a).obj.m_size = 0 := by show a.m_size = 0; omega
    rw [remove_empty p _ hm]
    exact hsb
  by_cases hp : p ≤ na.length
  · obtain ⟨-, -, -, -, -, h6, h7⟩ := remove_shape p hsa hma (Nat.pos_of_ne_zero hn) hp
    exact shape_frame hsb (fun x hx => h7 x (fun hxa => hdisj x hxa hx)) (by rw [h6])
  · have hm : (State.mk h a).obj.m_size < p := by show a.m_size < p; omega
    have hm0 : (State.mk h a).obj.m_size ≠ 0 := by show a.m_size ≠ 0; omega
    rw [remove_outOfRange p _ hm0 hm]
    exact hsb

theorem index_outOfRange (s : State T) (p : Nat) (hp : s.obj.m_size < p) :
    index s p = (.outOfRange, s) := by
  unfold index getNode
  rw [if_pos hp]

theorem firstAddr_drop_mem (s : State T) (ns : List (Nat × T)) (p : Nat) :
    firstAddr s.obj.tail (ns.drop p) ∈ nodeAddrs s ns := by
  rcases Nat.lt_or_ge p ns.length with hlt | hge
  · rw [firstAddr_drop _ _ _ hlt]
    have : ns[p].1 ∈ addrs ns := List.mem_map_of_mem _ (List.getElem_mem hlt)
    simp [nodeAddrs, this]
  · rw [List.drop_eq_nil_of_le hge]
    simp [nodeAddrs, firstAddr]

theorem writeAt_apart {h : Heap T} {a b : ListObj} {xs ys : List T}
    (hab : Apart h a b xs ys) (v : T) (p : Nat) :
    Repr ⟨(writeAt v p ⟨h, a⟩).2.heap, b⟩ ys := by
  obtain ⟨na, nb, hsa, hsb, hxa, hxb, hma, hmb, hdisj⟩ := hab
  refine ⟨nb, ?_, hxb, hmb⟩
  by_cases hp : p ≤ na.length
  · have hidx := index_shape hsa hma p hp
    have hmem := firstAddr_drop_mem (State.mk h a) na p
    unfold writeAt
    rw [hidx]
    simp only [Heap.setData]
    cases hg : h.get (firstAddr a.tail (na.drop p)) with
    | none => exact hsb
    | some n =>
      simp only
      refine shape_frame hsb (fun x hx => ?_) (le_refl _)
      have hne : x ≠ firstAddr a.tail (na.drop p) := by
        rintro rfl; exact hdisj _ hmem hx
      exact get_put_ne _ _ _ _ hne
  · have hm : (State.mk h a).obj.m_size < p := by show a.m_size < p; omega
    unfold writeAt
    rw [index_outOfRange _ p hm]
    exact hsb


theorem apart_left {h : Heap T} {a b : ListObj} {xs ys : List T} (hab : Apart h a b xs ys) :
    Repr ⟨h, a⟩ xs := by
  obtain ⟨na, nb, hsa, -, hxa, -, hma, -, -⟩ := hab
  exact ⟨na, hsa, hxa, hma⟩

theorem apart_right {h : Heap T} {a b : ListObj} {xs ys : List T} (hab : Apart h a b xs ys) :
    Repr ⟨h, b⟩ ys := by
  obtain ⟨na, nb, -, hsb, -, hxb, -, hmb, -⟩ := hab
  exact ⟨nb, hsb, hxb, hmb⟩

theorem index_ok_mem {s : State T} {ns : List (Nat × T)} (hs : Shape s ns)
    (hm : s.obj.m_size = ns.length) (i p : Nat) (hi : (index s i).1 = .ok p) :
    p ∈ nodeAddrs s ns := by
  by_cases hle : i ≤ ns.length
  · rw [index_shape hs hm i hle] at hi
    have := Outcome.ok.inj hi
    rw [← this]
    exact firstAddr_drop_mem s ns i
  · rw [index_outOfRange s i (by omega)] at hi
    cases hi

theorem apart_index_ne {h : Heap T} {a b : ListObj} {xs ys : List T} (hab : Apart h a b xs ys)
    (i j p q : Nat) (hp : (index ⟨h, a⟩ i).1 = .ok p) (hq : (index ⟨h, b⟩ j).1 = .ok q) :
    p ≠ q := by
  obtain ⟨na, nb, hsa, hsb, -, -, hma, hmb, hdisj⟩ := hab
  rintro rfl
  exact hdisj p (index_ok_mem hsa hma i p hp) (index_ok_mem hsb hmb j p hq)

theorem apart_example :
    Apart (build (build (Heap.empty : Heap Nat) [7, 8]).heap [3, 1, 4]).heap
      (build (Heap.empty : Heap Nat) [7, 8]).obj
      (build (build (Heap.empty : Heap Nat) [7, 8]).heap [3, 1, 4]).obj [7, 8] [3, 1, 4] :=
  ⟨[(3, 7), (4, 8)], [(7, 3), (8, 1), (9, 4)],
    ⟨⟨0, 0, rfl, rfl, rfl, rfl, trivial⟩, by decide, by decide⟩,
    ⟨⟨0, 0, rfl, rfl, rfl, rfl, rfl, trivial⟩, by decide, by decide⟩,
    rfl, rfl, rfl, rfl, by decide⟩

/-! ## Beyond `2 ^ 32` elements

What the 32-bit counters do once `m_size` no longer fits an `unsigned int`. -/


theorem removeIndex_succ_eq_insertIndex {n p : Nat} (hp : p ≤ n) (hn : n ≤ UINT_MOD) :
    removeIndex (n + 1) p = insertIndex n p := by
  unfold removeIndex insertIndex
  rw [Nat.add_sub_cancel]
  rcases Nat.lt_or_eq_of_le hn with hlt | heq
  · rw [Nat.mod_eq_of_lt hlt]
    split_ifs <;> omega
  · have hm : n % UINT_MOD = 0 := by rw [heq]; exact Nat.mod_self _
    rw [hm]
    unfold UINT_MOD at heq
    split_ifs <;> omega

theorem eraseIdx_insert_at {α : Type} (xs : List α) (v : α) (q : Nat) (hq : q ≤ xs.length) :
    (xs.take q ++ v :: xs.drop q).eraseIdx q = xs := by
  rw [List.eraseIdx_append_of_length_le (by simp [hq])]
  simp [hq]

theorem insert_remove_repr [Inhabited T] {s : State T} {xs : List T} (v : T) (p : Nat)
    (hr : Repr s xs) (hp : p ≤ xs.length) (hu : xs.length ≤ UINT_MOD) :
    (insert v p s).1 = .ok () ∧ (remove p (insert v p s).2).1 = .ok () ∧
    Repr (remove p (insert v p s).2).2 xs := by
  obtain ⟨h1, h2⟩ := insert_repr v p hr hp
  have hq := insertIndex_le hp
  have hlen : (xs.take (insertIndex xs.length p) ++ v :: xs.drop (insertIndex xs.length p)).length
      = xs.length + 1 := by
    simp; omega
  obtain ⟨h3, h4⟩ := remove_repr p h2 (by omega) (by omega)
  rw [hlen, removeIndex_succ_eq_insertIndex hp hu, eraseIdx_insert_at xs v _ hq] at h4
  exact ⟨h1, h3, h4⟩


theorem insert_beyond (N p : Nat) (hp : p < N) (hq : insertIndex N p = N) :
    Repr (insert 1 p (build Heap.empty (List.replicate N 0))).2 (List.replicate N 0 ++ [1]) ∧
    ¬ Repr (insert 1 p (build Heap.empty (List.replicate N 0))).2
      ((List.replicate N 0).take p ++ [1] ++ (List.replicate N 0).drop p) := by
  have hr : Repr (build Heap.empty (List.replicate N 0)) (List.replicate N 0) := build_repr _ _
  have h := (insert_repr 1 p hr (by rw [List.length_replicate]; omega)).2
  rw [List.length_replicate, hq, List.take_of_length_le (by rw [List.length_replicate]),
    List.drop_of_length_le (by rw [List.length_replicate])] at h
  refine ⟨h, fun h' => ?_⟩
  have e := repr_unique h h'
  have e1 : (List.replicate N 0 ++ [1])[p]? = some 0 := by
    rw [List.getElem?_append_left (by rw [List.length_replicate]; exact hp)]
    rw [List.getElem?_replicate, if_pos hp]
  have e2 : ((List.replicate N 0).take p ++ [1] ++ (List.replicate N 0).drop p)[p]? = some 1 := by
    have hl : ((List.replicate N 0).take p).length = p := by
      rw [List.length_take, List.length_replicate]; omega
    rw [List.append_assoc, List.getElem?_append_right (by rw [hl]), hl]
    simp
  rw [e, e2] at e1
  cases e1

theorem remove_beyond (N p : Nat) (hp : p < N) (hq : removeIndex (N + 1) p = N) :
    Repr (remove p (build Heap.empty (List.replicate N 0 ++ [1]))).2 (List.replicate N 0) ∧
    ¬ Repr (remove p (build Heap.empty (List.replicate N 0 ++ [1]))).2
      ((List.replicate N 0 ++ [1]).eraseIdx p) := by
  have hr : Repr (build Heap.empty (List.replicate N 0 ++ [1])) (List.replicate N 0 ++ [1]) :=
    build_repr _ _
  have hlen : (List.replicate N 0 ++ [1]).length = N + 1 := by
    rw [List.length_append, List.length_replicate]; rfl
  have h := (remove_repr p hr (by rw [hlen]; omega) (by rw [hlen]; omega)).2
  rw [hlen, hq, List.eraseIdx_append_of_length_le (by rw [List.length_replicate]),
    List.length_replicate, Nat.sub_self] at h
  have h0 : Repr (remove p (build Heap.empty (List.replicate N 0 ++ [1]))).2
      (List.replicate N 0) := by simpa using h
  refine ⟨h0, fun h' => ?_⟩
  have e := repr_unique h0 h'
  rw [List.eraseIdx_append_of_lt_length (by rw [List.length_replicate]; exact hp),
    List.eraseIdx_replicate, if_pos hp] at e
  have e1 : (List.replicate N 0)[N - 1]? = some 0 := by
    rw [List.getElem?_replicate, if_pos (by omega)]
  have e2 : (List.replicate (N - 1) 0 ++ [1])[N - 1]? = some 1 := by
    rw [List.getElem?_append_right (by rw [List.length_replicate]), List.length_replicate]
    simp
  rw [e, e2] at e1
  cases e1

theorem index_after_insert_beyond (N p : Nat) (hp : p < N) (hq : insertIndex N p = N) :
    (∃ a, (index (insert 1 p (build Heap.empty (List.replicate N 0))).2 p).1 = .ok a ∧
      deref (insert 1 p (build Heap.empty (List.replicate N 0))).2.heap a = some 0) ∧
    ¬ ∃ a, (index (insert 1 p (build Heap.empty (List.replicate N 0))).2 p).1 = .ok a ∧
      deref (insert 1 p (build Heap.empty (List.replicate N 0))).2.heap a = some 1 := by
  have h := (insert_beyond N p hp hq).1
  have hlt : p < (List.replicate N 0 ++ [1]).length := by
    rw [List.length_append, List.length_replicate]; omega
  obtain ⟨a, h1, -, h2⟩ := index_repr p h hlt
  have e1 : (List.replicate N 0 ++ [1])[p]? = some 0 := by
    rw [List.getElem?_append_left (by rw [List.length_replicate]; exact hp)]
    rw [List.getElem?_replicate, if_pos hp]
  rw [List.getElem?_eq_getElem hlt] at e1
  rw [e1] at h2
  refine ⟨⟨a, by rw [h1], h2⟩, ?_⟩
  rintro ⟨a', h3, h4⟩
  rw [h1] at h3
  have := Outcome.ok.inj h3
  subst this
  rw [h2] at h4
  cases h4

theorem insert_remove_beyond (N M p : Nat) (hNM : N = M + 1) (hp : p < N)
    (hq : insertIndex N p = N) (hq' : removeIndex (N + 1) p = p) :
    Repr (remove p (insert 1 p (build Heap.empty (List.replicate N 0))).2).2
      (List.replicate M 0 ++ [1]) ∧
    ¬ Repr (remove p (insert 1 p (build Heap.empty (List.replicate N 0))).2).2
      (List.replicate N 0) := by
  have h := (insert_beyond N p hp hq).1
  have hlen : (List.replicate N 0 ++ [1]).length = N + 1 := by
    rw [List.length_append, List.length_replicate]; rfl
  have h1 := (remove_repr p h (by rw [hlen]; omega) (by rw [hlen]; omega)).2
  rw [hlen, hq', List.eraseIdx_append_of_lt_length (by rw [List.length_replicate]; exact hp),
    List.eraseIdx_replicate, if_pos hp] at h1
  have hM : N - 1 = M := by omega
  rw [hM] at h1
  refine ⟨h1, fun h' => ?_⟩
  have e := repr_unique h1 h'
  have e1 : (List.replicate N 0)[M]? = some 0 := by
    rw [List.getElem?_replicate, if_pos (by omega)]
  have e2 : (List.replicate M 0 ++ [1])[M]? = some 1 := by
    rw [List.getElem?_append_right (by rw [List.length_replicate]), List.length_replicate]
    simp
  rw [← e, e2] at e1
  cases e1


theorem assignLoop_not_ok [Inhabited T] (b : ListObj) (hb : UINT_MOD ≤ b.m_size) :
    ∀ (fuel i : Nat) (s : State T), i < UINT_MOD →
      (assignLoop (.distinct b) fuel i s).1 ≠ .ok () := by
  intro fuel
  induction fuel with
  | zero => intro i s _ h; simp [assignLoop] at h
  | succ f ih =>
    intro i s hi
    have hlt : i < b.m_size := by omega
    simp only [assignLoop, Other.view, if_pos hlt]
    cases getNode (State.mk s.heap b) i with
    | ok p =>
      simp only
      cases s.heap.get p with
      | none => simp
      | some nd =>
        simp only
        rcases hI : insert nd.data i s with ⟨r, s1⟩
        cases r with
        | ok u => exact ih _ s1 (Nat.mod_lt _ (by unfold UINT_MOD; omega))
        | outOfRange => simp
        | fault => simp
        | outOfFuel => simp
    | outOfRange => simp
    | fault => simp
    | outOfFuel => simp

theorem assign_not_ok [Inhabited T] (b : ListObj) (hb : UINT_MOD ≤ b.m_size)
    (fuel : Nat) (s : State T) : (assign fuel (.distinct b) s).1 ≠ .ok () := by
  unfold assign
  rcases hC : clear fuel s with ⟨r, s1⟩
  cases r with
  | ok u => exact assignLoop_not_ok b hb fuel 0 s1 (by unfold UINT_MOD; omega)
  | outOfRange => simp
  | fault => simp
  | outOfFuel => simp

theorem new_apart [Inhabited T] {s : State T} {ys : List T}
    (hr : Repr s ys) : Apart (new s.heap).heap (new s.heap).obj s.obj [] ys := by
  obtain ⟨nb, hsb, hxb, hmb⟩ := hr
  have htop : ∀ x ∈ nodeAddrs s nb, x ≤ s.heap.top := hsb.2.2
  have hsb' : Shape (State.mk s.heap s.obj) nb := hsb
  refine ⟨[], nb, (new_shape s.heap).1, ?_, rfl, hxb, rfl, hmb, ?_⟩
  · refine shape_frame hsb' (fun x hx => ?_) ?_
    · have hle := htop x hx
      have h1 : x ≠ s.heap.top + 1 := by omega
      have h2 : x ≠ s.heap.top + 1 + 1 := by omega
      simp only [new, Heap.newAddr, top_alloc]
      rw [get_put_ne _ _ _ _ h2, get_put_ne _ _ _ _ h1, get_alloc_le _ _ (by rw [top_alloc]; omega),
        get_alloc_le _ _ hle]
    · simp only [new, top_put, top_alloc]
      omega
  · intro x hx hxb'
    have hle := htop x hxb'
    simp [nodeAddrs, new, addrs, Heap.newAddr, top_alloc] at hx
    omega

theorem build_size [Inhabited T] (h : Heap T) (xs : List T) :
    (build h xs).obj.m_size = xs.length := repr_size (build_repr h xs)

theorem big_size : UINT_MOD ≤
    (build (Heap.empty : Heap Nat) (List.replicate 4294967296 0)).obj.m_size := by
  rw [build_size, List.length_replicate]
  exact le_refl _

/-! ## `peek` -/

theorem lastAddr_eq (d : Nat) (l : List (Nat × T)) (hl : 0 < l.length) :
    lastAddr d l = (l[l.length - 1]).1 := by
  induction l generalizing d with
  | nil => simp at hl
  | cons a r ih =>
    obtain ⟨a, x⟩ := a
    cases r with
    | nil => rfl
    | cons b r' =>
      have := ih a (by simp)
      show lastAddr a (b :: r') = _
      rw [this]
      simp

theorem firstAddr_zero (d : Nat) (l : List (Nat × T)) (h : 0 < l.length) :
    firstAddr d l = (l[0]).1 := by
  cases l with
  | nil => simp at h
  | cons a r => rfl

theorem peek_shape {s : State T} {ns : List (Nat × T)} (out : T) (hs : Shape s ns) :
    peek out s = (.ok (match ns.getLast? with
      | none => (0, out)
      | some n => (1, n.2)), s) := by
  obtain ⟨dh, hh⟩ := shape_head hs
  obtain ⟨dt, ht⟩ := shape_tail hs
  rcases Nat.eq_zero_or_pos ns.length with h0 | hpos
  · have : ns = [] := List.length_eq_zero.1 h0
    subst this
    simp [peek, hh, firstAddr]
  · have hne : firstAddr s.obj.tail ns ≠ s.obj.tail := by
      rw [firstAddr_zero _ _ hpos]
      exact shape_getElem_ne_tail hs 0 hpos
    obtain ⟨nx, pv, hg⟩ := shape_getElem hs (ns.length - 1) (by omega)
    rw [← lastAddr_eq s.obj.head ns hpos] at hg
    have hl : ns.getLast? = some ns[ns.length - 1] := by
      rw [List.getLast?_eq_getElem?, List.getElem?_eq_getElem]
    simp only [peek, hh, if_neg hne, ht, hg, hl]

/-! ## `clear` and `operator=` at any fuel and size -/

theorem clearLoop_mono (hd tl : Nat) (r : Heap T × Nat) :
    ∀ (f : Nat) (h : Heap T) (cur : Nat),
      clearLoop hd tl f h cur = .ok r → clearLoop hd tl (f + 1) h cur = .ok r := by
  intro f
  induction f with
  | zero => intro h cur hr; simp [clearLoop] at hr
  | succ f ih =>
    intro h cur hr
    rw [clearLoop] at hr ⊢
    by_cases hc : cur = tl
    · rw [if_pos hc] at hr ⊢; exact hr
    · rw [if_neg hc] at hr ⊢
      cases h1 : h.get cur with
      | none => rw [h1] at hr; simp at hr
      | some c =>
        rw [h1] at hr
        simp only at hr ⊢
        cases h2 : h.setNext hd c.next with
        | none => rw [h2] at hr; simp at hr
        | some g1 =>
          rw [h2] at hr
          simp only at hr ⊢
          cases h3 : g1.free cur with
          | none => rw [h3] at hr; simp at hr
          | some g2 =>
            rw [h3] at hr
            simp only at hr ⊢
            cases h4 : g2.get hd with
            | none => rw [h4] at hr; simp at hr
            | some n =>
              rw [h4] at hr
              simp only at hr ⊢
              exact ih _ _ hr

theorem clearLoop_mono_add (hd tl : Nat) (r : Heap T × Nat) (f : Nat) (h : Heap T) (cur : Nat)
    (hr : clearLoop hd tl f h cur = .ok r) (k : Nat) :
    clearLoop hd tl (f + k) h cur = .ok r := by
  induction k with
  | zero => exact hr
  | succ k ih => exact clearLoop_mono hd tl r _ h cur ih

theorem clear_any (s : State T) (fuel k : Nat) :
    clear fuel s = clear (fuel + k) s ∨ (clear fuel s).2 = s := by
  unfold clear
  cases hh : s.heap.get s.obj.head with
  | none => right; rfl
  | some hd =>
    simp only
    cases hc : clearLoop s.obj.head s.obj.tail fuel s.heap hd.next with
    | ok r =>
      left
      rw [clearLoop_mono_add _ _ r fuel _ _ hc k]
    | outOfRange => right; rfl
    | fault => right; rfl
    | outOfFuel => right; rfl

theorem clear_ok_size (s : State T) (fuel : Nat) (h : (clear fuel s).1 = .ok ()) :
    (clear fuel s).2.obj.m_size = 0 := by
  unfold clear at h ⊢
  cases hh : s.heap.get s.obj.head with
  | none => rw [hh] at h; simp at h
  | some hd =>
    rw [hh] at h
    simp only at h ⊢
    cases hc : clearLoop s.obj.head s.obj.tail fuel s.heap hd.next with
    | ok r =>
      rw [hc] at h
      simp only at h ⊢
      cases hp : r.1.setPrev s.obj.tail s.obj.head with
      | none => rw [hp] at h; simp at h
      | some g => rfl
    | outOfRange => rw [hc] at h; simp at h
    | fault => rw [hc] at h; simp at h
    | outOfFuel => rw [hc] at h; simp at h

theorem assign_self_state [Inhabited T] (s : State T) (fuel : Nat) :
    (assign fuel .self s).2 = (clear fuel s).2 := by
  have hsz := clear_ok_size s fuel
  unfold assign
  rcases hC : clear fuel s with ⟨r, s1⟩
  rw [hC] at hsz
  cases r with
  | ok u =>
    have h0 : s1.obj.m_size = 0 := hsz rfl
    cases fuel with
    | zero => rfl
    | succ f => simp [assignLoop, Other.view, h0]
  | outOfRange => rfl
  | fault => rfl
  | outOfFuel => rfl

theorem clear_repr_any {s : State T} {xs : List T} (hr : Repr s xs) (fuel : Nat) :
    (clear fuel s).2 = s ∨ Repr (clear fuel s).2 [] := by
  obtain ⟨ns, hs, hx, hm⟩ := hr
  rcases clear_any s fuel (ns.length + 1) with h | h
  · right
    rw [h]
    obtain ⟨c1, c2, c3, _⟩ := clear_shape hs (fuel + (ns.length + 1)) (by omega)
    exact ⟨[], c2, rfl, c3⟩
  · left; exact h

theorem mem_addrs_insert (na : List (Nat × T)) (q c : Nat) (v : T) (x : Nat)
    (hx : x ∈ addrs (na.take q ++ (c, v) :: na.drop q)) : x ∈ addrs na ∨ x = c := by
  simp only [addrs, List.map_append, List.map_cons, List.mem_append, List.mem_cons,
    List.mem_map] at hx ⊢
  rcases hx with ⟨y, hy, rfl⟩ | rfl | ⟨y, hy, rfl⟩
  · exact Or.inl ⟨y, List.mem_of_mem_take hy, rfl⟩
  · exact Or.inr rfl
  · exact Or.inl ⟨y, List.mem_of_mem_drop hy, rfl⟩

theorem assignLoop_any [Inhabited T] (b : ListObj) (nb : List (Nat × T))
    (hbm : b.m_size = nb.length) :
    ∀ (fuel i : Nat) (s : State T) (na : List (Nat × T)),
      Shape s na → s.obj.m_size = na.length → Shape ⟨s.heap, b⟩ nb →
      (∀ x ∈ nodeAddrs s na, x ∉ nodeAddrs ⟨s.heap, b⟩ nb) → i ≤ na.length →
      ∃ na', Shape (assignLoop (.distinct b) fuel i s).2 na' ∧
        (assignLoop (.distinct b) fuel i s).2.obj.m_size = na'.length ∧
        Shape ⟨(assignLoop (.distinct b) fuel i s).2.heap, b⟩ nb ∧
        (∀ x ∈ nodeAddrs (assignLoop (.distinct b) fuel i s).2 na',
          x ∉ nodeAddrs ⟨(assignLoop (.distinct b) fuel i s).2.heap, b⟩ nb) := by
  intro fuel
  induction fuel with
  | zero =>
    intro i s na hs hm hsb hdisj hi
    exact ⟨na, hs, hm, hsb, hdisj⟩
  | succ f ih =>
    intro i s na hs hm hsb hdisj hi
    by_cases hlt : i < nb.length
    · have hnode := getNode_shape hsb hbm i (le_of_lt hlt)
      rw [firstAddr_drop _ _ _ hlt] at hnode
      obtain ⟨nx, pv, hg⟩ := shape_getElem hsb i hlt
      obtain ⟨h1, h2, h3, h4, h5, h6, h7⟩ := insert_shape (nb[i]).2 i hs hm hi
      have hbtop : ∀ x ∈ nodeAddrs (State.mk s.heap b) nb, x ≤ s.heap.top := hsb.2.2
      rcases hI : insert (nb[i]).2 i s with ⟨r, s1⟩
      rw [hI] at h1 h2 h3 h4 h5 h6 h7
      simp only at h1 h2 h3 h4 h5 h6 h7
      subst h1
      have hsb1 : Shape ⟨s1.heap, b⟩ nb := by
        refine shape_frame hsb (fun x hx => ?_) (by rw [h6]; omega)
        exact h7 x (hbtop x hx) (fun hxa => hdisj x hxa hx)
      have hdisj1 : ∀ x ∈ nodeAddrs s1 (na.take (insertIndex na.length i) ++
          (s.heap.newAddr, (nb[i]).2) :: na.drop (insertIndex na.length i)),
          x ∉ nodeAddrs ⟨s1.heap, b⟩ nb := by
        intro x hx hxb
        have hxb' : x ∈ nodeAddrs (State.mk s.heap b) nb := hxb
        have hx' : x ∈ nodeAddrs s na ∨ x = s.heap.newAddr := by
          simp only [nodeAddrs, h4, h5, List.mem_cons, List.mem_append, List.mem_singleton,
            List.not_mem_nil, or_false] at hx ⊢
          rcases hx with hx | hx | hx
          · exact Or.inl (Or.inl hx)
          · rcases mem_addrs_insert _ _ _ _ _ hx with hx | hx
            · exact Or.inl (Or.inr (Or.inl hx))
            · exact Or.inr hx
          · exact Or.inl (Or.inr (Or.inr hx))
        rcases hx' with hx' | rfl
        · exact hdisj x hx' hxb'
        · have := hbtop _ hxb'
          simp [Heap.newAddr] at this
      have hlen : (na.take (insertIndex na.length i) ++
          (s.heap.newAddr, (nb[i]).2) :: na.drop (insertIndex na.length i)).length
          = na.length + 1 := by
        have := (insertIndex_le hi : insertIndex na.length i ≤ na.length)
        simp only [List.length_append, List.length_take, List.length_cons, List.length_drop]
        omega
      have hmod : (i + 1) % UINT_MOD ≤ na.length + 1 :=
        le_trans (Nat.mod_le _ _) (by omega)
      obtain ⟨na', e1, e2, e3, e4⟩ := ih ((i + 1) % UINT_MOD) s1 _ h2 (by rw [h3, hlen]) hsb1 hdisj1
        (by rw [hlen]; exact hmod)
      refine ⟨na', ?_⟩
      simp only [assignLoop, Other.view, hbm, if_pos hlt, hnode, hg, hI]
      exact ⟨e1, e2, e3, e4⟩
    · refine ⟨na, ?_⟩
      simp only [assignLoop, Other.view, hbm, if_neg hlt]
      exact ⟨hs, hm, hsb, hdisj⟩

theorem clear_apart_any {h : Heap T} {a b : ListObj} {xs ys : List T} (fuel : Nat)
    (hab : Apart h a b xs ys) :
    ∃ zs, Apart (clear fuel ⟨h, a⟩).2.heap (clear fuel ⟨h, a⟩).2.obj b zs ys := by
  rcases clear_any (State.mk h a) fuel (xs.length + 1) with e | e
  · rw [e]
    obtain ⟨na, nb, hsa, hsb, hxa, hxb, hma, hmb, hdisj⟩ := hab
    have hla : xs.length = na.length := by rw [← hxa, List.length_map]
    obtain ⟨c1, c2, c3, c4, c5, c6, c7⟩ := clear_shape hsa (fuel + (xs.length + 1)) (by omega)
    refine ⟨[], [], nb, c2, ?_, rfl, hxb, c3, hmb, ?_⟩
    · exact shape_frame hsb (fun x hx => c7 x (fun hxa => hdisj x hxa hx)) (by rw [c6])
    · intro x hx hxb'
      refine hdisj x ?_ hxb'
      simp only [nodeAddrs, c4, c5, addrs, List.map_nil, List.nil_append, List.mem_cons,
        List.mem_singleton, List.not_mem_nil, or_false, List.mem_append] at hx ⊢
      tauto
  · rw [e]
    exact ⟨xs, hab⟩

theorem assign_any [Inhabited T] {h : Heap T} {a b : ListObj} {xs ys : List T} (fuel : Nat)
    (hab : Apart h a b xs ys) :
    ∃ zs, Apart (assign fuel (.distinct b) ⟨h, a⟩).2.heap
      (assign fuel (.distinct b) ⟨h, a⟩).2.obj b zs ys := by
  obtain ⟨zs, hz⟩ := clear_apart_any fuel hab
  have hsz := clear_ok_size (State.mk h a) fuel
  unfold assign
  rcases hC : clear fuel (State.mk h a) with ⟨r, s1⟩
  rw [hC] at hz hsz
  cases r with
  | ok u =>
    obtain ⟨na, nb, hsa, hsb, hxa, hxb, hma, hmb, hdisj⟩ := hz
    simp only at hsa hsb hma hdisj ⊢
    obtain ⟨na', e1, e2, e3, e4⟩ := assignLoop_any b nb hmb fuel 0 s1 na hsa hma hsb hdisj
      (Nat.zero_le _)
    exact ⟨na'.map Prod.snd, na', nb, e1, e3, rfl, hxb, e2, hmb, e4⟩
  | outOfRange => exact ⟨zs, hz⟩
  | fault => exact ⟨zs, hz⟩
  | outOfFuel => exact ⟨zs, hz⟩

/-! ## Reachable states -/

theorem reachable_repr [Inhabited T] {h0 : Heap T} {s : State T} (hr : Reachable h0 s) :
    ∃ xs, Repr s xs := by
  induction hr with
  | construct => exact ⟨[], new_repr h0⟩
  | insertAt s v p _ ih =>
    obtain ⟨xs, hx⟩ := ih
    by_cases hp : p ≤ xs.length
    · exact ⟨_, (insert_repr v p hx hp).2⟩
    · rw [insert_outOfRange v p s (by rw [repr_size hx]; omega)]
      exact ⟨xs, hx⟩
  | insertLast s v _ ih =>
    obtain ⟨xs, hx⟩ := ih
    refine ⟨_, (insert_repr v (s.obj.m_size % UINT_MOD) hx ?_).2⟩
    rw [← repr_size hx]
    exact Nat.mod_le _ _
  | removeAt s p _ ih =>
    obtain ⟨xs, hx⟩ := ih
    by_cases hn : s.obj.m_size = 0
    · rw [remove_empty p s hn]; exact ⟨xs, hx⟩
    · by_cases hp : p ≤ xs.length
      · exact ⟨_, (remove_repr p hx (by rw [← repr_size hx]; omega) hp).2⟩
      · rw [remove_outOfRange p s hn (by rw [repr_size hx]; omega)]
        exact ⟨xs, hx⟩
  | removeLast s _ ih =>
    obtain ⟨xs, hx⟩ := ih
    by_cases hn : s.obj.m_size = 0
    · rw [removeBack, remove_empty _ s hn]; exact ⟨xs, hx⟩
    · refine ⟨_, (remove_repr (s.obj.m_size % UINT_MOD) hx (by rw [← repr_size hx]; omega) ?_).2⟩
      rw [← repr_size hx]
      exact Nat.mod_le _ _
  | cleared s fuel _ ih =>
    obtain ⟨xs, hx⟩ := ih
    rcases clear_repr_any hx fuel with e | e
    · rw [e]; exact ⟨xs, hx⟩
    · exact ⟨[], e⟩
  | assigned s fuel b xs ys _ hab _ =>
    obtain ⟨zs, hz⟩ := assign_any fuel hab
    exact ⟨zs, apart_left hz⟩
  | selfAssigned s fuel _ ih =>
    obtain ⟨xs, hx⟩ := ih
    rw [assign_self_state]
    rcases clear_repr_any hx fuel with e | e
    · rw [e]; exact ⟨xs, hx⟩
    · exact ⟨[], e⟩
  | others s h1 _ hf ht ih =>
    obtain ⟨xs, ns, hs, hx, hm⟩ := ih
    exact ⟨xs, ns, shape_frame hs (hf ns hs) ht, hx, hm⟩

theorem insert_sentinels [Inhabited T] (v : T) (p : Nat) (s : State T) :
    (insert v p s).2.obj.head = s.obj.head ∧ (insert v p s).2.obj.tail = s.obj.tail := by
  unfold insert
  dsimp only
  generalize (if startFromHead s p = true then fromHead s.heap.alloc s.obj.head p
    else insertFromTail s.heap.alloc s.obj.tail s.obj.m_size p) = located
  split
  · exact ⟨rfl, rfl⟩
  · split
    · exact ⟨rfl, rfl⟩
    · split <;> exact ⟨rfl, rfl⟩

theorem remove_sentinels (p : Nat) (s : State T) :
    (remove p s).2.obj.head = s.obj.head ∧ (remove p s).2.obj.tail = s.obj.tail := by
  unfold remove
  dsimp only
  generalize (if startFromHead s p = true then fromHead s.heap s.obj.head p
    else removeFromTail s.heap s.obj.tail s.obj.m_size p) = located
  split
  · exact ⟨rfl, rfl⟩
  · split
    · exact ⟨rfl, rfl⟩
    · split
      · exact ⟨rfl, rfl⟩
      · split <;> exact ⟨rfl, rfl⟩

theorem clear_sentinels (fuel : Nat) (s : State T) :
    (clear fuel s).2.obj.head = s.obj.head ∧ (clear fuel s).2.obj.tail = s.obj.tail := by
  unfold clear
  split
  · exact ⟨rfl, rfl⟩
  · split
    · split <;> exact ⟨rfl, rfl⟩
    all_goals exact ⟨rfl, rfl⟩

theorem assignLoop_sentinels [Inhabited T] (other : Other) :
    ∀ (fuel i : Nat) (s : State T),
      (assignLoop other fuel i s).2.obj.head = s.obj.head ∧
      (assignLoop other fuel i s).2.obj.tail = s.obj.tail := by
  intro fuel
  induction fuel with
  | zero => intro i s; exact ⟨rfl, rfl⟩
  | succ f ih =>
    intro i s
    unfold assignLoop
    split_ifs
    · split
      · split
        · exact ⟨rfl, rfl⟩
        · rename_i nd _
          have hi := insert_sentinels nd.data i s
          rcases hI : insert nd.data i s with ⟨r, s1⟩
          rw [hI] at hi
          cases r with
          | ok u =>
            have := ih ((i + 1) % UINT_MOD) s1
            exact ⟨this.1.trans hi.1, this.2.trans hi.2⟩
          | outOfRange => exact hi
          | fault => exact hi
          | outOfFuel => exact hi
      all_goals exact ⟨rfl, rfl⟩
    · exact ⟨rfl, rfl⟩

theorem assign_sentinels [Inhabited T] (fuel : Nat) (other : Other) (s : State T) :
    (assign fuel other s).2.obj.head = s.obj.head ∧
    (assign fuel other s).2.obj.tail = s.obj.tail := by
  have hc := clear_sentinels fuel s
  unfold assign
  rcases hC : clear fuel s with ⟨r, s1⟩
  rw [hC] at hc
  cases r with
  | ok u =>
    have := assignLoop_sentinels other fuel 0 s1
    exact ⟨this.1.trans hc.1, this.2.trans hc.2⟩
  | outOfRange => exact hc
  | fault => exact hc
  | outOfFuel => exact hc

theorem reachable_sentinels [Inhabited T] {h0 : Heap T} {s : State T} (hr : Reachable h0 s) :
    s.obj.head = (new h0).obj.head ∧ s.obj.tail = (new h0).obj.tail := by
  induction hr with
  | construct => exact ⟨rfl, rfl⟩
  | insertAt s v p _ ih =>
    have := insert_sentinels v p s
    exact ⟨this.1.trans ih.1, this.2.trans ih.2⟩
  | insertLast s v _ ih =>
    have := insert_sentinels v (s.obj.m_size % UINT_MOD) s
    exact ⟨this.1.trans ih.1, this.2.trans ih.2⟩
  | removeAt s p _ ih =>
    have := remove_sentinels p s
    exact ⟨this.1.trans ih.1, this.2.trans ih.2⟩
  | removeLast s _ ih =>
    have := remove_sentinels (s.obj.m_size % UINT_MOD) s
    exact ⟨this.1.trans ih.1, this.2.trans ih.2⟩
  | cleared s fuel _ ih =>
    have := clear_sentinels fuel s
    exact ⟨this.1.trans ih.1, this.2.trans ih.2⟩
  | assigned s fuel b xs ys _ _ ih =>
    have := assign_sentinels fuel (.distinct b) s
    exact ⟨this.1.trans ih.1, this.2.trans ih.2⟩
  | selfAssigned s fuel _ ih =>
    have := assign_sentinels fuel .self s
    exact ⟨this.1.trans ih.1, this.2.trans ih.2⟩
  | others s h1 _ _ _ ih => exact ih

/-! ## The links of a well-formed list -/

theorem walkNext_getElem {h : Heap T} {nxt : Nat} :
    ∀ (l : List (Nat × T)) (prv k : Nat) (a : Nat) (x : T), Chain h prv l nxt →
      l[k]? = some (a, x) → walkNext h k (firstAddr nxt l) = some a := by
  intro l
  induction l with
  | nil => intro prv k a x _ hk; simp at hk
  | cons c r ih =>
    intro prv k a x hc hk
    obtain ⟨c, y⟩ := c
    cases k with
    | zero =>
      simp only [List.getElem?_cons_zero, Option.some.injEq, Prod.mk.injEq] at hk
      rw [← hk.1]
      rfl
    | succ k =>
      rw [List.getElem?_cons_succ] at hk
      have hg : h.get c = some ⟨y, firstAddr nxt r, prv⟩ := hc.1
      show walkNext h (k + 1) c = some a
      simp only [walkNext, hg]
      exact ih c k a x hc.2 hk

theorem walkPrev_getElem {h : Heap T} {prv nxt : Nat} (l : List (Nat × T))
    (hc : Chain h prv l nxt) (k : Nat) (hk : k < l.length) (a : Nat) (x : T)
    (hg : l[l.length - 1 - k]? = some (a, x)) :
    walkPrev h k (lastAddr prv l) = some a := by
  rw [walkPrev_last l hc k hk]
  have hi : l.length - 1 - k < l.length := by omega
  rw [firstAddr_drop _ _ _ hi]
  rw [List.getElem?_eq_getElem hi] at hg
  simp only [Option.some.injEq] at hg
  rw [hg]

theorem chain_links {h : Heap T} {nxt : Nat} :
    ∀ (l : List (Nat × T)) (prv k : Nat) (a b : Nat) (x y : T), Chain h prv l nxt →
      l[k]? = some (a, x) → l[k + 1]? = some (b, y) →
      ∃ n1 n2, h.get a = some n1 ∧ n1.next = b ∧ h.get b = some n2 ∧ n2.prev = a := by
  intro l
  induction l with
  | nil => intro prv k a b x y _ hk; simp at hk
  | cons c r ih =>
    intro prv k a b x y hc hk hk1
    obtain ⟨c, z⟩ := c
    rw [List.getElem?_cons_succ] at hk1
    cases k with
    | zero =>
      simp only [List.getElem?_cons_zero, Option.some.injEq, Prod.mk.injEq] at hk
      obtain ⟨rfl, rfl⟩ := hk
      cases r with
      | nil => simp at hk1
      | cons d r' =>
        simp only [List.getElem?_cons_zero, Option.some.injEq] at hk1
        subst hk1
        exact ⟨_, _, hc.1, rfl, hc.2.1, rfl⟩
    | succ k =>
      rw [List.getElem?_cons_succ] at hk
      exact ih c k a b x y hc.2 hk hk1

theorem getElem?_fullNodes (s : State T) (dh dt : T) (ns : List (Nat × T)) (k : Nat) :
    ((fullNodes s dh dt ns)[k]?).map Prod.fst = (nodeAddrs s ns)[k]? := by
  rw [← addrs_fullNodes s dh dt ns, addrs, List.getElem?_map]

/-- The `k`-th node of a well-formed list, counted from `head`, is reached by `k` steps of
`next` from `head` and by `n + 1 - k` steps of `prev` from `tail`. -/
theorem shape_walks {s : State T} {ns : List (Nat × T)} (hs : Shape s ns)
    (k : Nat) (hk : k ≤ ns.length + 1) :
    ∃ a, (nodeAddrs s ns)[k]? = some a ∧ walkNext s.heap k s.obj.head = some a ∧
      walkPrev s.heap (ns.length + 1 - k) s.obj.tail = some a := by
  obtain ⟨⟨dh, dt, hc⟩, hnd, htop⟩ := hs
  have hlen : (fullNodes s dh dt ns).length = ns.length + 2 := by simp [fullNodes]
  have hk' : k < (fullNodes s dh dt ns).length := by omega
  have hg : (fullNodes s dh dt ns)[k]? = some (fullNodes s dh dt ns)[k] :=
    List.getElem?_eq_getElem hk'
  generalize (fullNodes s dh dt ns)[k] = ax at hg
  obtain ⟨a, x⟩ := ax
  refine ⟨a, ?_, ?_, ?_⟩
  · rw [← getElem?_fullNodes s dh dt ns, hg]; rfl
  · exact walkNext_getElem _ 0 k a x hc hg
  · have := walkPrev_getElem _ hc (ns.length + 1 - k) (by omega) a x
      (by rw [hlen, show ns.length + 2 - 1 - (ns.length + 1 - k) = k by omega]; exact hg)
    rwa [lastAddr_fullNodes] at this

theorem nodeAddrs_zero (s : State T) (ns : List (Nat × T)) :
    (nodeAddrs s ns)[0]? = some s.obj.head := by
  unfold nodeAddrs
  rw [List.getElem?_cons_zero]

theorem nodeAddrs_last (s : State T) (ns : List (Nat × T)) :
    (nodeAddrs s ns)[ns.length + 1]? = some s.obj.tail := by
  unfold nodeAddrs
  rw [List.getElem?_cons_succ, List.getElem?_append_right (by simp [addrs])]
  simp [addrs]

theorem nodup_getElem?_inj {l : List Nat} (hnd : l.Nodup) {i j : Nat} {a : Nat}
    (hi : l[i]? = some a) (hj : l[j]? = some a) : i = j := by
  obtain ⟨hi', e1⟩ := List.getElem?_eq_some.1 hi
  obtain ⟨hj', e2⟩ := List.getElem?_eq_some.1 hj
  exact (List.Nodup.getElem_inj_iff hnd).1 (e1.trans e2.symm)

/-- The links of a well-formed list, read off the heap. -/
theorem shape_wellFormed {s : State T} {ns : List (Nat × T)} (hs : Shape s ns) :
    walkNext s.heap (ns.length + 1) s.obj.head = some s.obj.tail ∧
    (∀ k, k ≤ ns.length → walkNext s.heap k s.obj.head ≠ some s.obj.tail) ∧
    walkPrev s.heap (ns.length + 1) s.obj.tail = some s.obj.head ∧
    (∀ k, k ≤ ns.length → walkPrev s.heap k s.obj.tail ≠ some s.obj.head) ∧
    (∀ k, k ≤ ns.length + 1 →
      walkPrev s.heap (ns.length + 1 - k) s.obj.tail = walkNext s.heap k s.obj.head) ∧
    (∀ k x, k ≤ ns.length → walkNext s.heap k s.obj.head = some x →
      ∃ n1 n2, s.heap.get x = some n1 ∧ s.heap.get n1.next = some n2 ∧ n2.prev = x) ∧
    (∀ k x, 1 ≤ k → k ≤ ns.length + 1 → walkNext s.heap k s.obj.head = some x →
      ∃ n1 n2, s.heap.get x = some n1 ∧ s.heap.get n1.prev = some n2 ∧ n2.next = x) ∧
    (∃ hd tl, s.heap.get s.obj.head = some hd ∧ hd.prev = 0 ∧
      s.heap.get s.obj.tail = some tl ∧ tl.next = 0) := by
  have hnd : (nodeAddrs s ns).Nodup := hs.2.1
  refine ⟨?_, ?_, ?_, ?_, ?_, ?_, ?_, ?_⟩
  · obtain ⟨a, h1, h2, -⟩ := shape_walks hs (ns.length + 1) (le_refl _)
    rw [nodeAddrs_last] at h1
    rw [h2, h1]
  · intro k hk hw
    obtain ⟨a, h1, h2, -⟩ := shape_walks hs k (by omega)
    rw [h2] at hw
    rw [hw] at h1
    have := nodup_getElem?_inj hnd h1 (nodeAddrs_last s ns)
    omega
  · obtain ⟨a, h1, -, h3⟩ := shape_walks hs 0 (by omega)
    rw [nodeAddrs_zero] at h1
    rw [Nat.sub_zero] at h3
    rw [h3, h1]
  · intro k hk hw
    obtain ⟨a, h1, -, h3⟩ := shape_walks hs (ns.length + 1 - k) (by omega)
    rw [show ns.length + 1 - (ns.length + 1 - k) = k by omega, hw] at h3
    rw [← h3] at h1
    have := nodup_getElem?_inj hnd h1 (nodeAddrs_zero s ns)
    omega
  · intro k hk
    obtain ⟨a, -, h2, h3⟩ := shape_walks hs k hk
    rw [h2, h3]
  · intro k x hk hw
    obtain ⟨⟨dh, dt, hc⟩, -, -⟩ := hs
    have hlen : (fullNodes s dh dt ns).length = ns.length + 2 := by simp [fullNodes]
    have hg : (fullNodes s dh dt ns)[k]? = some (fullNodes s dh dt ns)[k] :=
      List.getElem?_eq_getElem (by omega)
    have hg1 : (fullNodes s dh dt ns)[k + 1]? = some (fullNodes s dh dt ns)[k + 1] :=
      List.getElem?_eq_getElem (by omega)
    generalize (fullNodes s dh dt ns)[k] = ax at hg
    generalize (fullNodes s dh dt ns)[k + 1] = bx at hg1
    obtain ⟨a, xa⟩ := ax
    obtain ⟨b, xb⟩ := bx
    have hwa := walkNext_getElem _ 0 k a xa hc hg
    have hf : firstAddr 0 (fullNodes s dh dt ns) = s.obj.head := rfl
    rw [hf, hw] at hwa
    simp only [Option.some.injEq] at hwa
    subst hwa
    obtain ⟨n1, n2, e1, e2, e3, e4⟩ := chain_links _ 0 k x b xa xb hc hg hg1
    exact ⟨n1, n2, e1, by rw [e2]; exact e3, e4⟩
  · intro k x hk1 hk hw
    obtain ⟨⟨dh, dt, hc⟩, -, -⟩ := hs
    have hlen : (fullNodes s dh dt ns).length = ns.length + 2 := by simp [fullNodes]
    obtain ⟨j, rfl⟩ : ∃ j, k = j + 1 := ⟨k - 1, by omega⟩
    have hg : (fullNodes s dh dt ns)[j]? = some (fullNodes s dh dt ns)[j] :=
      List.getElem?_eq_getElem (by omega)
    have hg1 : (fullNodes s dh dt ns)[j + 1]? = some (fullNodes s dh dt ns)[j + 1] :=
      List.getElem?_eq_getElem (by omega)
    generalize (fullNodes s dh dt ns)[j] = ax at hg
    generalize (fullNodes s dh dt ns)[j + 1] = bx at hg1
    obtain ⟨a, xa⟩ := ax
    obtain ⟨b, xb⟩ := bx
    have hwb := walkNext_getElem _ 0 (j + 1) b xb hc hg1
    have hf : firstAddr 0 (fullNodes s dh dt ns) = s.obj.head := rfl
    rw [hf, hw] at hwb
    simp only [Option.some.injEq] at hwb
    subst hwb
    obtain ⟨n1, n2, e1, e2, e3, e4⟩ := chain_links _ 0 j a x xa xb hc hg hg1
    exact ⟨n2, n1, e3, by rw [e4]; exact e1, e2⟩
  · obtain ⟨dh, hh⟩ := shape_head hs
    obtain ⟨dt, ht⟩ := shape_tail hs
    exact ⟨_, _, hh, rfl, ht, rfl⟩

/-! ## Emptiness and iteration -/

theorem shape_head_not_mem {s : State T} {ns : List (Nat × T)} (hs : Shape s ns) :
    s.obj.head ∉ addrs ns := by
  intro hmem
  have := (List.nodup_cons.1 hs.2.1).1
  exact this (List.mem_append_left _ hmem)

theorem shape_ends {s : State T} {ns : List (Nat × T)} (hs : Shape s ns) :
    (firstAddr s.obj.tail ns = s.obj.tail ↔ ns = []) ∧
    (lastAddr s.obj.head ns = s.obj.head ↔ ns = []) := by
  rcases Nat.eq_zero_or_pos ns.length with h0 | hpos
  · have : ns = [] := List.length_eq_zero.1 h0
    subst this
    exact ⟨⟨fun _ => rfl, fun _ => rfl⟩, ⟨fun _ => rfl, fun _ => rfl⟩⟩
  · have hne : ns ≠ [] := by
      intro e; rw [e] at hpos; simp at hpos
    refine ⟨⟨fun e => ?_, fun e => absurd e hne⟩, ⟨fun e => ?_, fun e => absurd e hne⟩⟩
    · rw [firstAddr_zero _ _ hpos] at e
      exact absurd e (shape_getElem_ne_tail hs 0 hpos)
    · rw [lastAddr_eq _ _ hpos] at e
      exfalso
      apply shape_head_not_mem hs
      rw [← e, addrs]
      exact List.mem_map.2 ⟨_, List.getElem_mem _, rfl⟩

/-- `isEmpty()`, `size() == 0`, `begin() == end()`, `head->next == tail` and
`tail->prev == head` agree on a well-formed list. -/
theorem repr_isEmpty {s : State T} {xs : List T} (hr : Repr s xs) :
    isEmpty s = some (decide (size s = 0)) ∧
    (∃ b, begin_ s = some b ∧ isEmpty s = some (b.eq (end_ s))) ∧
    (∃ hd tl, s.heap.get s.obj.head = some hd ∧ s.heap.get s.obj.tail = some tl ∧
      isEmpty s = some (decide (hd.next = s.obj.tail)) ∧
      (hd.next = s.obj.tail ↔ tl.prev = s.obj.head)) := by
  obtain ⟨ns, hs, hx, hm⟩ := hr
  obtain ⟨dh, hh⟩ := shape_head hs
  obtain ⟨dt, ht⟩ := shape_tail hs
  obtain ⟨e1, e2⟩ := shape_ends hs
  have hemp : isEmpty s = some (decide (firstAddr s.obj.tail ns = s.obj.tail)) := by
    simp only [isEmpty, hh, Option.map_some']
  refine ⟨?_, ⟨⟨firstAddr s.obj.tail ns⟩, ?_, ?_⟩, ⟨_, _, hh, ht, hemp, ?_⟩⟩
  · rw [hemp, size, hm]
    congr 1
    rw [decide_eq_decide, e1]
    exact List.length_eq_zero.symm
  · simp only [begin_, hh, Option.map_some']
  · rw [hemp]
    congr 1
    simp only [iterator.eq, end_]
    rw [decide_eq_decide]
    exact eq_comm
  · show firstAddr s.obj.tail ns = s.obj.tail ↔ lastAddr s.obj.head ns = s.obj.head
    rw [e1, e2]

theorem advance_eq (h : Heap T) :
    ∀ (k a : Nat), advance h k ⟨a⟩ = (walkNext h k a).map iterator.mk := by
  intro k
  induction k with
  | zero => intro a; rfl
  | succ k ih =>
    intro a
    simp only [advance, iterator.incr, walkNext]
    cases h.get a with
    | none => rfl
    | some n => exact ih n.next

/-- Iteration over a well-formed list: `k` increments of `begin()` lead to the node
`operator[](k)` refers to, and `n` increments to `end()`. -/
theorem repr_iteration {s : State T} {xs : List T} (hr : Repr s xs) :
    ∃ b, begin_ s = some b ∧
      (∀ k (hk : k < xs.length), ∃ it, advance s.heap k b = some it ∧
        it.deref s.heap = some xs[k] ∧ index s k = (.ok it.m_node, s) ∧
        it.ne (end_ s) = true ∧ it.eq (end_ s) = false) ∧
      ∃ it, advance s.heap xs.length b = some it ∧ it.eq (end_ s) = true ∧
        it.ne (end_ s) = false := by
  obtain ⟨ns, hs, hx, hm⟩ := hr
  have hl : xs.length = ns.length := by rw [← hx, List.length_map]
  obtain ⟨dh, hh⟩ := shape_head hs
  have hadv : ∀ k, k ≤ ns.length → advance s.heap k ⟨firstAddr s.obj.tail ns⟩ =
      some ⟨firstAddr s.obj.tail (ns.drop k)⟩ := by
    intro k hk
    have := walkNext_head hs k hk
    simp only [walkNext, hh] at this
    rw [advance_eq, this]
    rfl
  refine ⟨⟨firstAddr s.obj.tail ns⟩, by simp only [begin_, hh, Option.map_some'], ?_, ?_⟩
  · intro k hk
    have hk' : k < ns.length := by omega
    obtain ⟨nx, pv, hg⟩ := shape_getElem hs k hk'
    have hne := shape_getElem_ne_tail hs k hk'
    refine ⟨⟨ns[k].1⟩, ?_, ?_, ?_, ?_, ?_⟩
    · rw [hadv k (le_of_lt hk'), firstAddr_drop _ _ _ hk']
    · simp only [iterator.deref, hg, Option.map_some', Option.some.injEq]
      subst hx
      rw [List.getElem_map]
    · rw [index_shape hs hm k (le_of_lt hk'), firstAddr_drop _ _ _ hk']
    · simp only [iterator.ne, iterator.eq, end_, Bool.not_eq_true', decide_eq_false_iff_not]
      exact fun e => hne e.symm
    · simp only [iterator.eq, end_, decide_eq_false_iff_not]
      exact fun e => hne e.symm
  · refine ⟨⟨s.obj.tail⟩, ?_, ?_, ?_⟩
    · rw [hl, hadv _ (le_refl _), List.drop_length]
      rfl
    · simp [iterator.eq, end_]
    · simp [iterator.ne, iterator.eq, end_]

/-! ## The two traversals -/

theorem insertFromTail_chain {s : State T} {ns : List (Nat × T)} {dh dt : T}
    (h0 : Heap T) (hc : Chain h0 0 (fullNodes s dh dt ns) 0) (pos : Nat) :
    insertFromTail h0 s.obj.tail ns.length pos =
      some (firstAddr s.obj.tail (ns.drop (ns.length - (ns.length % UINT_MOD - pos)))) := by
  unfold insertFromTail
  rw [downLoop_eq]
  have hk : ns.length % UINT_MOD - pos < (fullNodes s dh dt ns).length := by
    have := Nat.mod_le ns.length UINT_MOD
    simp [fullNodes]; omega
  have h1 := walkPrev_last _ hc _ hk
  rw [lastAddr_fullNodes] at h1
  rw [h1]
  have := Nat.mod_le ns.length UINT_MOD
  have e : (fullNodes s dh dt ns).length - 1 - (ns.length % UINT_MOD - pos) =
      (ns.length - (ns.length % UINT_MOD - pos)) + 1 := by
    simp [fullNodes]; omega
  rw [e]
  simp only [fullNodes, List.drop_succ_cons]
  rw [List.drop_append_of_le_length (by omega), firstAddr_append]
  rfl

theorem removeFromTail_chain {s : State T} {ns : List (Nat × T)} {dh dt : T}
    (hc : Chain s.heap 0 (fullNodes s dh dt ns) 0) (hn : 0 < ns.length) (pos : Nat) :
    removeFromTail s.heap s.obj.tail ns.length pos =
      some (firstAddr s.obj.tail
        (ns.drop (ns.length - 1 - ((ns.length - 1) % UINT_MOD - pos)))) := by
  unfold removeFromTail
  simp only [downLoop_eq]
  have hc1 : Chain s.heap 0 (((s.obj.head, dh) :: ns) ++ [(s.obj.tail, dt)]) 0 := hc
  have htl := chain_get hc1
  rw [chain_append] at hc1
  have hc2 : Chain s.heap 0 ((s.obj.head, dh) :: ns) s.obj.tail := hc1.1
  have hmod := Nat.mod_le (ns.length - 1) UINT_MOD
  have hk : (ns.length - 1) % UINT_MOD - pos < ((s.obj.head, dh) :: ns).length := by
    simp; omega
  have h1 := walkPrev_last _ hc2 _ hk
  simp only [htl, h1]
  have e : ((s.obj.head, dh) :: ns).length - 1 - ((ns.length - 1) % UINT_MOD - pos) =
      (ns.length - 1 - ((ns.length - 1) % UINT_MOD - pos)) + 1 := by
    simp; omega
  rw [e, List.drop_succ_cons]

theorem fromHead_shape {s : State T} {ns : List (Nat × T)} {dh dt : T}
    (h0 : Heap T) (hc : Chain h0 0 (fullNodes s dh dt ns) 0) (pos : Nat)
    (hp : pos ≤ ns.length) :
    fromHead h0 s.obj.head pos = some (firstAddr s.obj.tail (ns.drop pos)) := by
  rw [fromHead_chain hc pos (by simp; omega), List.drop_append_of_le_length hp,
    firstAddr_append]
  rfl

/-- On a well-formed list of fewer than `2 ^ 32` nodes the two traversals of `insert`
locate the same node, which is also the node `n - p` steps of `prev` before `tail`. -/
theorem insert_traversals {s : State T} {ns : List (Nat × T)} (hs : Shape s ns)
    (p : Nat) (hp : p ≤ ns.length) (hu : ns.length < UINT_MOD) :
    fromHead s.heap s.obj.head p = some (firstAddr s.obj.tail (ns.drop p)) ∧
    insertFromTail s.heap s.obj.tail ns.length p = some (firstAddr s.obj.tail (ns.drop p)) ∧
    walkPrev s.heap (ns.length - p) s.obj.tail = some (firstAddr s.obj.tail (ns.drop p)) := by
  obtain ⟨⟨dh, dt, hc⟩, -, -⟩ := hs
  have h2 := insertFromTail_chain s.heap hc p
  rw [Nat.mod_eq_of_lt hu, show ns.length - (ns.length - p) = p by omega] at h2
  refine ⟨fromHead_shape s.heap hc p hp, h2, ?_⟩
  rw [← h2, insertFromTail, downLoop_eq, Nat.mod_eq_of_lt hu]

/-- On a well-formed list of at most `2 ^ 32` nodes the two traversals of `remove`
locate the same node. -/
theorem remove_traversals {s : State T} {ns : List (Nat × T)} (hs : Shape s ns)
    (p : Nat) (hp : p < ns.length) (hu : ns.length ≤ UINT_MOD) :
    fromHead s.heap s.obj.head p = some (firstAddr s.obj.tail (ns.drop p)) ∧
    removeFromTail s.heap s.obj.tail ns.length p =
      some (firstAddr s.obj.tail (ns.drop p)) := by
  obtain ⟨⟨dh, dt, hc⟩, -, -⟩ := hs
  have h2 := removeFromTail_chain hc (by omega) p
  rw [Nat.mod_eq_of_lt (by omega), show ns.length - 1 - (ns.length - 1 - p) = p by omega] at h2
  exact ⟨fromHead_shape s.heap hc p (le_of_lt hp), h2⟩

theorem insert_eq_insertBy [Inhabited T] (v : T) (p : Nat) (s : State T) :
    insert v p s = insertBy (startFromHead s p) v p s := rfl

theorem remove_eq_removeBy (p : Nat) (s : State T) :
    remove p s = removeBy (startFromHead s p) p s := rfl

theorem insertBy_branches [Inhabited T] {s : State T} {ns : List (Nat × T)} (hs : Shape s ns)
    (hm : s.obj.m_size = ns.length) (v : T) (p : Nat) (hp : p ≤ ns.length)
    (hu : ns.length < UINT_MOD) : insertBy true v p s = insertBy false v p s := by
  obtain ⟨⟨dh, dt, hc⟩, hnd, htop⟩ := hs
  have hc0 : Chain s.heap.alloc 0 (fullNodes s dh dt ns) 0 :=
    chain_frame (fun a ha => get_alloc_le _ _ (htop a (by rwa [← addrs_fullNodes s dh dt]))) hc
  have h1 := fromHead_shape s.heap.alloc hc0 p hp
  have h2 := insertFromTail_chain s.heap.alloc hc0 p
  rw [Nat.mod_eq_of_lt hu, show ns.length - (ns.length - p) = p by omega] at h2
  unfold insertBy
  simp only [if_true, Bool.false_eq_true, if_false, h1, hm, h2]

theorem removeBy_branches {s : State T} {ns : List (Nat × T)} (hs : Shape s ns)
    (hm : s.obj.m_size = ns.length) (p : Nat) (hp : p < ns.length)
    (hu : ns.length ≤ UINT_MOD) : removeBy true p s = removeBy false p s := by
  obtain ⟨h1, h2⟩ := remove_traversals hs p hp hu
  unfold removeBy
  simp only [if_true, Bool.false_eq_true, if_false, h1, hm, h2]

/-- At `2 ^ 32` nodes and more the tail traversal of `insert` stops short: where the
32-bit counter starts at or below `p` it makes no step and locates `tail`, while the
head traversal locates the node at index `p`. -/
theorem traversal_beyond (N p : Nat) (hp : p < N) (hq : N % UINT_MOD ≤ p) :
    ∃ a, fromHead (build Heap.empty (List.replicate N 0)).heap
        (build Heap.empty (List.replicate N 0)).obj.head p = some a ∧
      a ≠ (build Heap.empty (List.replicate N 0)).obj.tail ∧
      insertFromTail (build Heap.empty (List.replicate N 0)).heap
        (build Heap.empty (List.replicate N 0)).obj.tail
        (build Heap.empty (List.replicate N 0)).obj.m_size p =
        some (build Heap.empty (List.replicate N 0)).obj.tail := by
  obtain ⟨ns, hs, hx, hm⟩ := build_repr (Heap.empty : Heap Nat) (List.replicate N 0)
  generalize build Heap.empty (List.replicate N 0) = s at hs hm
  have hl : ns.length = N := by
    have := congrArg List.length hx
    simpa using this
  have hne := shape_getElem_ne_tail hs p (by omega)
  obtain ⟨⟨dh, dt, hc⟩, -, -⟩ := hs
  refine ⟨ns[p].1, ?_, hne, ?_⟩
  · rw [fromHead_shape s.heap hc p (by omega), firstAddr_drop _ _ _ (by omega)]
  · rw [hm, insertFromTail_chain s.heap hc p, hl,
      show N % UINT_MOD - p = 0 by omega, Nat.sub_zero, ← hl, List.drop_length]
    rfl

/-! ## `remove()` and `insert(v)` -/

/-- On a non-empty list `remove(n)` and `remove(n - 1)` are the same call: both take the
tail traversal and neither makes a step. -/
theorem remove_size_eq (s : State T) (hn : 0 < s.obj.m_size) :
    remove s.obj.m_size s = remove (s.obj.m_size - 1) s := by
  have h1 : ¬ (s.obj.m_size < s.obj.m_size / 2) := by omega
  have h2 : ¬ (s.obj.m_size - 1 < s.obj.m_size / 2) := by omega
  have h3 : (s.obj.m_size - 1) % UINT_MOD - s.obj.m_size = 0 := by
    have := Nat.mod_le (s.obj.m_size - 1) UINT_MOD
    omega
  have h4 : (s.obj.m_size - 1) % UINT_MOD - (s.obj.m_size - 1) = 0 := by
    have := Nat.mod_le (s.obj.m_size - 1) UINT_MOD
    omega
  have h5 : ¬ s.obj.m_size = 0 := by omega
  have h6 : ¬ s.obj.m_size > s.obj.m_size := by omega
  have h7 : ¬ s.obj.m_size - 1 > s.obj.m_size := by omega
  simp only [remove, if_neg h5, if_neg h6, if_neg h7, startFromHead, h1, h2, decide_False,
    Bool.false_eq_true, if_false, removeFromTail, downLoop_eq, h3, h4]

theorem eraseIdx_last (xs : List T) : xs.eraseIdx (xs.length - 1) = xs.take (xs.length - 1) := by
  rcases Nat.eq_zero_or_pos xs.length with h0 | hpos
  · have : xs = [] := List.length_eq_zero.1 h0
    subst this
    rfl
  · rw [List.eraseIdx_eq_take_drop_succ, show xs.length - 1 + 1 = xs.length by omega,
      List.drop_length, List.append_nil]

/-- Below `2 ^ 32` elements `remove()` is `remove(n)` and unlinks the last real node. -/
theorem removeBack_repr {s : State T} {xs : List T} (hr : Repr s xs)
    (hn : 0 < xs.length) (hu : xs.length < UINT_MOD) :
    removeBack s = remove xs.length s ∧
    (removeBack s).1 = .ok () ∧
    Repr (removeBack s).2 (xs.take (xs.length - 1)) := by
  have hm := repr_size hr
  have e : removeBack s = remove xs.length s := by
    rw [removeBack, hm, Nat.mod_eq_of_lt hu]
  obtain ⟨h1, h2⟩ := remove_repr xs.length hr hn (le_refl _)
  rw [removeIndex_size hn (le_of_lt hu), eraseIdx_last] at h2
  rw [e]
  exact ⟨rfl, h1, h2⟩

/-- Below `2 ^ 32` elements `insert(v)` is `insert(v, n)` and appends. -/
theorem insertBack_repr [Inhabited T] {s : State T} {xs : List T} (v : T) (hr : Repr s xs)
    (hu : xs.length < UINT_MOD) :
    insertBack v s = insert v xs.length s ∧
    (insertBack v s).1 = .ok () ∧
    Repr (insertBack v s).2 (xs ++ [v]) := by
  have hm := repr_size hr
  have e : insertBack v s = insert v xs.length s := by
    rw [insertBack, hm, Nat.mod_eq_of_lt hu]
  obtain ⟨h1, h2⟩ := insert_repr v xs.length hr (le_refl _)
  rw [insertIndex_size, List.take_length, List.drop_length] at h2
  rw [e]
  exact ⟨rfl, h1, h2⟩

/-- At a size that is a multiple of `2 ^ 32`, `remove()` passes position `0` and the head
traversal unlinks the first element. -/
theorem removeBack_beyond (M : Nat) (hM : 0 < M) (h1 : (M + 1) % UINT_MOD = 0) :
    removeBack (build Heap.empty (1 :: List.replicate M 0)) =
      remove 0 (build Heap.empty (1 :: List.replicate M 0)) ∧
    Repr (removeBack (build Heap.empty (1 :: List.replicate M 0))).2 (List.replicate M 0) ∧
    ¬ Repr (removeBack (build Heap.empty (1 :: List.replicate M 0))).2
      ((1 :: List.replicate M 0).take M) := by
  have hr : Repr (build Heap.empty (1 :: List.replicate M 0)) (1 :: List.replicate M 0) :=
    build_repr _ _
  have hlen : (1 :: List.replicate M 0).length = M + 1 := by simp
  have e : removeBack (build Heap.empty (1 :: List.replicate M 0)) =
      remove 0 (build Heap.empty (1 :: List.replicate M 0)) := by
    rw [removeBack, repr_size hr, hlen, h1]
  have h := (remove_repr 0 hr (by rw [hlen]; omega) (Nat.zero_le _)).2
  have hi : removeIndex (M + 1) 0 = 0 := by
    unfold removeIndex
    rw [if_pos (by omega)]
  rw [hlen, hi] at h
  have h0 : Repr (remove 0 (build Heap.empty (1 :: List.replicate M 0))).2
      (List.replicate M 0) := h
  rw [e]
  refine ⟨rfl, h0, fun h' => ?_⟩
  have e1 := repr_unique h0 h'
  obtain ⟨K, rfl⟩ : ∃ K, M = K + 1 := ⟨M - 1, by omega⟩
  rw [List.take_succ_cons, List.replicate_succ] at e1
  simp at e1

/-- At a size that is a multiple of `2 ^ 32`, `insert(v)` passes position `0` and the
head traversal links the new node in first. -/
theorem insertBack_beyond (N : Nat) (hN : 1 < N) (h1 : N % UINT_MOD = 0) :
    insertBack 1 (build Heap.empty (List.replicate N 0)) =
      insert 1 0 (build Heap.empty (List.replicate N 0)) ∧
    Repr (insertBack 1 (build Heap.empty (List.replicate N 0))).2 (1 :: List.replicate N 0) ∧
    ¬ Repr (insertBack 1 (build Heap.empty (List.replicate N 0))).2
      (List.replicate N 0 ++ [1]) := by
  have hr : Repr (build Heap.empty (List.replicate N 0)) (List.replicate N 0) :=
    build_repr _ _
  have e : insertBack 1 (build Heap.empty (List.replicate N 0)) =
      insert 1 0 (build Heap.empty (List.replicate N 0)) := by
    rw [insertBack, repr_size hr, List.length_replicate, h1]
  have h := (insert_repr 1 0 hr (Nat.zero_le _)).2
  have hi : insertIndex N 0 = 0 := by
    unfold insertIndex
    rw [if_pos (by omega)]
  rw [List.length_replicate, hi] at h
  have h0 : Repr (insert 1 0 (build Heap.empty (List.replicate N 0))).2
      (1 :: List.replicate N 0) := by simpa using h
  rw [e]
  refine ⟨rfl, h0, fun h' => ?_⟩
  have e1 := repr_unique h0 h'
  obtain ⟨K, rfl⟩ : ∃ K, N = K + 1 := ⟨N - 1, by omega⟩
  rw [List.replicate_succ] at e1
  simp at e1

/-! ## `clear` twice and self-assignment -/

theorem put_self (h : Heap T) (p : Nat) (n : Node T) (hg : h.get p = some n) :
    h.put p (some n) = h := by
  have hp : p ≠ 0 := get_ne_zero hg
  have hc : h.cell p = some n := by
    unfold Heap.get at hg
    rwa [if_neg hp] at hg
  cases h with
  | mk cell top =>
    simp only [Heap.put, Heap.mk.injEq, and_true]
    funext a
    by_cases e : a = p
    · rw [if_pos e, e]; exact hc.symm
    · rw [if_neg e]

theorem clear_current {s : State T} {ns : List (Nat × T)} (hs : Shape s ns)
    (fuel : Nat) (hf : ns.length < fuel) :
    (clear fuel s).2.obj.current = s.obj.tail := by
  obtain ⟨dh, hh⟩ := shape_head hs
  obtain ⟨dt, ht⟩ := shape_tail hs
  have hnt := shape_tail_not_mem hs
  obtain ⟨⟨dh', dt', hc⟩, hnd, htop⟩ := hs
  have hc1 : Chain s.heap 0 (((s.obj.head, dh') :: ns) ++ [(s.obj.tail, dt')]) 0 := hc
  rw [chain_append] at hc1
  have hh0 := get_ne_zero hh
  have hnh : s.obj.head ∉ addrs ns := by
    intro hmem
    have := (List.nodup_cons.1 hnd).1
    exact this (List.mem_append_left _ hmem)
  have hht : s.obj.head ≠ s.obj.tail := by
    intro e
    have := (List.nodup_cons.1 hnd).1
    exact this (by rw [e]; simp)
  have hnd' : (addrs ns).Nodup := by
    have : (addrs ns ++ [s.obj.tail]).Nodup := (List.nodup_cons.1 hnd).2
    exact (List.nodup_append.1 this).1
  obtain ⟨h', e1, e2, e3, e4⟩ :=
    clearLoop_chain hh0 ns s.heap s.obj.head hh hc1.1.2 hnh hnt hnd' fuel hf
  have ht' : h'.get s.obj.tail = some ⟨dt, 0, lastAddr s.obj.head ns⟩ := by
    rw [e4 _ hht.symm hnt, ht]
  unfold clear
  simp only [hh, e1, Heap.setPrev, ht']

theorem clear_again {s : State T} (hs : Shape s []) (hm : s.obj.m_size = 0)
    (hcur : s.obj.current = s.obj.tail) (fuel : Nat) (hf : 0 < fuel) :
    clear fuel s = (.ok (), s) := by
  obtain ⟨dh, hh⟩ := shape_head hs
  obtain ⟨dt, ht⟩ := shape_tail hs
  obtain ⟨f, rfl⟩ : ∃ f, fuel = f + 1 := ⟨fuel - 1, by omega⟩
  have hh' : s.heap.get s.obj.head = some ⟨dh, s.obj.tail, 0⟩ := hh
  have ht' : s.heap.get s.obj.tail = some ⟨dt, 0, s.obj.head⟩ := ht
  have hp := put_self s.heap s.obj.tail _ ht'
  unfold clear
  simp only [hh', clearLoop, if_true, Heap.setPrev, ht', hp]
  cases s with
  | mk heap obj =>
    cases obj with
    | mk head tail current m_size =>
      simp only at hm hcur
      subst hm hcur
      rfl

theorem shape_nil_links {s : State T} (hs : Shape s []) :
    ∃ dh dt, s.heap.get s.obj.head = some ⟨dh, s.obj.tail, 0⟩ ∧
      s.heap.get s.obj.tail = some ⟨dt, 0, s.obj.head⟩ := by
  obtain ⟨dh, hh⟩ := shape_head hs
  obtain ⟨dt, ht⟩ := shape_tail hs
  exact ⟨dh, dt, hh, ht⟩

theorem repr_nil_shape {s : State T} (hr : Repr s []) : Shape s [] ∧ s.obj.m_size = 0 := by
  obtain ⟨ns, hs, hx, hm⟩ := hr
  have : ns = [] := by simpa using hx
  subst this
  exact ⟨hs, hm⟩

/-- What `clear()` leaves behind: an empty well-formed list with the sentinels it had,
linked to each other, on which a further `clear()` changes nothing. -/
theorem clear_repr {s : State T} {xs : List T} (fuel : Nat)
    (hr : Repr s xs) (hf : xs.length < fuel) :
    (clear fuel s).1 = .ok () ∧
    Repr (clear fuel s).2 [] ∧
    size (clear fuel s).2 = 0 ∧
    isEmpty (clear fuel s).2 = some true ∧
    (clear fuel s).2.obj.head = s.obj.head ∧
    (clear fuel s).2.obj.tail = s.obj.tail ∧
    (∃ dh dt, (clear fuel s).2.heap.get s.obj.head = some ⟨dh, s.obj.tail, 0⟩ ∧
      (clear fuel s).2.heap.get s.obj.tail = some ⟨dt, 0, s.obj.head⟩) ∧
    ∀ fuel2, 0 < fuel2 → clear fuel2 (clear fuel s).2 = (.ok (), (clear fuel s).2) := by
  obtain ⟨ns, hs, hx, hm⟩ := hr
  have hl : xs.length = ns.length := by rw [← hx, List.length_map]
  obtain ⟨c1, c2, c3, c4, c5, c6, c7⟩ := clear_shape hs fuel (by omega)
  have hcur := clear_current hs fuel (by omega)
  have hlinks := shape_nil_links c2
  rw [c4, c5] at hlinks
  refine ⟨c1, ⟨[], c2, rfl, c3⟩, c3, ?_, c4, c5, hlinks, ?_⟩
  · rw [isEmpty_shape c2]; rfl
  · intro fuel2 h2
    exact clear_again c2 c3 (by rw [hcur, c5]) fuel2 h2

/-- Self-assignment is `clear()`: the copy loop reads the size `clear()` has just set to
`0`. -/
theorem assign_self_clear [Inhabited T] {s : State T} {xs : List T} (fuel : Nat)
    (hr : Repr s xs) (hf : xs.length < fuel) : assign fuel .self s = clear fuel s := by
  obtain ⟨c1, -, c3, -⟩ := clear_repr fuel hr hf
  obtain ⟨f, rfl⟩ : ∃ f, fuel = f + 1 := ⟨fuel - 1, by omega⟩
  rcases hC : clear (f + 1) s with ⟨r, s1⟩
  rw [hC] at c1 c3
  simp only at c1 c3
  subst c1
  have c3' : s1.obj.m_size = 0 := c3
  simp only [assign, hC, assignLoop, Other.view, c3', lt_irrefl, if_false]

theorem new_links [Inhabited T] (h : Heap T) :
    isEmpty (new h) = some true ∧ size (new h) = 0 ∧ begin_ (new h) = some (end_ (new h)) := by
  obtain ⟨hs, hm⟩ := new_shape h
  obtain ⟨dh, hh⟩ := shape_head hs
  refine ⟨by rw [isEmpty_shape hs]; rfl, hm, ?_⟩
  simp only [begin_, hh, Option.map_some']
  rfl

/-! ## The claims -/

/-- C1, for sizes below `2 ^ 32`: on a list with element sequence `xs` whose size `n`
is an `unsigned int`, `insert(v, p)` with `p ≤ n` does not raise and leaves the element
sequence `take p xs ++ [v] ++ drop p xs` and `size() = n + 1`; `p` ranges over the
positions of both traversal directions. -/
theorem insert_spec [Inhabited T] (s : State T) (xs : List T) (v : T) (p : Nat)
    (hr : Repr s xs) (hp : p ≤ xs.length) (hu : xs.length < UINT_MOD) :
    (insert v p s).1 = .ok () ∧
    Repr (insert v p s).2 (xs.take p ++ [v] ++ xs.drop p) ∧
    size (insert v p s).2 = xs.length + 1 ∧
    toList (xs.length + 2) (insert v p s).2 = some (xs.take p ++ [v] ++ xs.drop p) := by
  obtain ⟨h1, h2⟩ := insert_repr_exact v p hr hp hu
  refine ⟨h1, h2, ?_, repr_toList h2 _ ?_⟩
  · rw [size, repr_size h2]; simp [hp]; omega
  · simp [hp]; omega

/-- C1 at `[3, 1, 4, 1, 5]`: `insert(9, 1)` walks from the head and `insert(9, 4)` from
the tail. -/
theorem insert_spec_witness :
    (Repr (build Heap.empty [3, 1, 4, 1, 5]) [3, 1, 4, 1, 5] ∧ 1 ≤ 5 ∧ 5 < UINT_MOD) ∧
    startFromHead (build Heap.empty [3, 1, 4, 1, 5]) 1 = true ∧
    startFromHead (build Heap.empty [3, 1, 4, 1, 5]) 4 = false ∧
    toList 7 (insert 9 1 (build Heap.empty [3, 1, 4, 1, 5])).2 = some [3, 9, 1, 4, 1, 5] ∧
    toList 7 (insert 9 4 (build Heap.empty [3, 1, 4, 1, 5])).2 = some [3, 1, 4, 1, 9, 5] :=
  ⟨⟨build_repr _ _, by decide, by decide⟩, by decide, by decide,
    (insert_spec (build Heap.empty [3, 1, 4, 1, 5]) [3, 1, 4, 1, 5] 9 1 (build_repr _ _)
      (by decide) (by decide)).2.2.2,
    (insert_spec (build Heap.empty [3, 1, 4, 1, 5]) [3, 1, 4, 1, 5] 9 4 (build_repr _ _)
      (by decide) (by decide)).2.2.2⟩

/-- C1 as stated fails at the list of `2 ^ 32` zeros: `insert(1, 2 ^ 31)` takes the tail
traversal, whose counter `unsigned int i = m_size` starts at `0`, so no step is made and
the new node is linked in before `tail`: the list becomes `xs ++ [1]`, not
`take p xs ++ [1] ++ drop p xs`. -/
theorem insert_spec_counterexample :
    Repr (build Heap.empty (List.replicate 4294967296 0)) (List.replicate 4294967296 0) ∧
    2147483648 ≤ (List.replicate 4294967296 0).length ∧
    Repr (insert 1 2147483648 (build Heap.empty (List.replicate 4294967296 0))).2
      (List.replicate 4294967296 0 ++ [1]) ∧
    ¬ Repr (insert 1 2147483648 (build Heap.empty (List.replicate 4294967296 0))).2
      ((List.replicate 4294967296 0).take 2147483648 ++ [1] ++
        (List.replicate 4294967296 0).drop 2147483648) :=
  ⟨build_repr _ _, by rw [List.length_replicate]; decide,
    insert_beyond 4294967296 2147483648 (by decide) (by decide)⟩

/-- C2, for sizes up to `2 ^ 32`: on a list with element sequence `xs` of size `n`
(every position below `n` an `unsigned int`), `remove(p)` with `p < n` does not raise
and leaves `xs` without its element at index `p`, the others in their order, and
`size() = n - 1`; `p` ranges over the positions of both traversal directions. -/
theorem remove_spec (s : State T) (xs : List T) (p : Nat)
    (hr : Repr s xs) (hp : p < xs.length) (hu : xs.length ≤ UINT_MOD) :
    (remove p s).1 = .ok () ∧
    Repr (remove p s).2 (xs.eraseIdx p) ∧
    size (remove p s).2 = xs.length - 1 ∧
    toList xs.length (remove p s).2 = some (xs.eraseIdx p) := by
  obtain ⟨h1, h2⟩ := remove_repr_exact p hr hp hu
  refine ⟨h1, h2, ?_, repr_toList h2 _ ?_⟩
  · rw [size, repr_size h2, List.length_eraseIdx]; simp [hp]
  · rw [List.length_eraseIdx]; simp [hp]; omega

/-- C2 at `[3, 1, 4, 1, 5]`: `remove(1)` walks from the head and `remove(3)` from the
tail. -/
theorem remove_spec_witness :
    (Repr (build Heap.empty [3, 1, 4, 1, 5]) [3, 1, 4, 1, 5] ∧ 1 < 5 ∧ 5 ≤ UINT_MOD) ∧
    startFromHead (build Heap.empty [3, 1, 4, 1, 5]) 1 = true ∧
    startFromHead (build Heap.empty [3, 1, 4, 1, 5]) 3 = false ∧
    toList 5 (remove 1 (build Heap.empty [3, 1, 4, 1, 5])).2 = some [3, 4, 1, 5] ∧
    toList 5 (remove 3 (build Heap.empty [3, 1, 4, 1, 5])).2 = some [3, 1, 4, 5] :=
  ⟨⟨build_repr _ _, by decide, by decide⟩, by decide, by decide,
    (remove_spec (build Heap.empty [3, 1, 4, 1, 5]) [3, 1, 4, 1, 5] 1 (build_repr _ _)
      (by decide) (by decide)).2.2.2,
    (remove_spec (build Heap.empty [3, 1, 4, 1, 5]) [3, 1, 4, 1, 5] 3 (build_repr _ _)
      (by decide) (by decide)).2.2.2⟩


/-- C2 as stated fails at the list of `2 ^ 32` zeros followed by a `1`: `remove(2 ^ 31)`
takes the tail traversal, whose counter `unsigned int i = m_size - 1` starts at `0`, so
no step is made and the last node is unlinked: the `1` goes, not the zero at index
`2 ^ 31`. -/
theorem remove_spec_counterexample :
    Repr (build Heap.empty (List.replicate 4294967296 0 ++ [1]))
      (List.replicate 4294967296 0 ++ [1]) ∧
    2147483648 < (List.replicate 4294967296 0 ++ [1]).length ∧
    Repr (remove 2147483648 (build Heap.empty (List.replicate 4294967296 0 ++ [1]))).2
      (List.replicate 4294967296 0) ∧
    ¬ Repr (remove 2147483648 (build Heap.empty (List.replicate 4294967296 0 ++ [1]))).2
      ((List.replicate 4294967296 0 ++ [1]).eraseIdx 2147483648) :=
  ⟨build_repr _ _, by rw [List.length_append, List.length_replicate]; decide,
    remove_beyond 4294967296 2147483648 (by decide) (by decide)⟩

/-- C3: on a list with element sequence `xs` of size `n`, `operator[](p)` with `p < n`
returns a reference to the node reached from `head` by `p + 1` forward steps, that
node holds `xs[p]`, and the list is left as it was. -/
theorem index_spec (s : State T) (xs : List T) (p : Nat)
    (hr : Repr s xs) (hp : p < xs.length) :
    ∃ a, (index s p).1 = .ok a ∧ walkNext s.heap (p + 1) s.obj.head = some a ∧
      deref s.heap a = some xs[p] ∧ (index s p).2 = s := by
  obtain ⟨a, h1, h2, h3⟩ := index_repr p hr hp
  exact ⟨a, by rw [h1], h2, h3, by rw [h1]⟩

/-- C3 at `[3, 1, 4, 1, 5]`: `operator[](2)` refers to the node holding `4`. -/
theorem index_spec_witness :
    (Repr (build Heap.empty [3, 1, 4, 1, 5]) [3, 1, 4, 1, 5] ∧ 2 < 5) ∧
    ∃ a, (index (build Heap.empty [3, 1, 4, 1, 5]) 2).1 = .ok a ∧
      walkNext (build Heap.empty [3, 1, 4, 1, 5]).heap (2 + 1)
        (build Heap.empty [3, 1, 4, 1, 5]).obj.head = some a ∧
      deref (build Heap.empty [3, 1, 4, 1, 5]).heap a = some 4 ∧
      (index (build Heap.empty [3, 1, 4, 1, 5]) 2).2 = build Heap.empty [3, 1, 4, 1, 5] :=
  ⟨⟨build_repr _ _, by decide⟩,
    index_spec (build Heap.empty [3, 1, 4, 1, 5]) [3, 1, 4, 1, 5] 2 (build_repr _ _) (by decide)⟩

/-- C4, for sizes below `2 ^ 32`: on a list of size `n` (an `unsigned int`), after
`insert(v, p)` with `p ≤ n` an immediately following `operator[](p)` returns a
reference to an element equal to `v`. -/
theorem insert_then_index [Inhabited T] (s : State T) (xs : List T) (v : T) (p : Nat)
    (hr : Repr s xs) (hp : p ≤ xs.length) (hu : xs.length < UINT_MOD) :
    (insert v p s).1 = .ok () ∧
    ∃ a, (index (insert v p s).2 p).1 = .ok a ∧ deref (insert v p s).2.heap a = some v := by
  obtain ⟨h1, h2⟩ := insert_repr_exact v p hr hp hu
  have hlt : p < (xs.take p ++ [v] ++ xs.drop p).length := by simp [hp]
  obtain ⟨a, h3, -, h4⟩ := index_repr p h2 hlt
  rw [getElem_insert xs v p hp hlt] at h4
  exact ⟨h1, a, by rw [h3], h4⟩

/-- C4 at `[3, 1, 4, 1, 5]`, for `insert(9, 1)` (from the head) and `insert(9, 5)` (at
the tail). -/
theorem insert_then_index_witness :
    (Repr (build Heap.empty [3, 1, 4, 1, 5]) [3, 1, 4, 1, 5] ∧ 1 ≤ 5 ∧ 5 ≤ 5 ∧ 5 < UINT_MOD) ∧
    (∃ a, (index (insert 9 1 (build Heap.empty [3, 1, 4, 1, 5])).2 1).1 = .ok a ∧
      deref (insert 9 1 (build Heap.empty [3, 1, 4, 1, 5])).2.heap a = some 9) ∧
    (∃ a, (index (insert 9 5 (build Heap.empty [3, 1, 4, 1, 5])).2 5).1 = .ok a ∧
      deref (insert 9 5 (build Heap.empty [3, 1, 4, 1, 5])).2.heap a = some 9) :=
  ⟨⟨build_repr _ _, by decide, by decide, by decide⟩,
    (insert_then_index (build Heap.empty [3, 1, 4, 1, 5]) [3, 1, 4, 1, 5] 9 1 (build_repr _ _)
      (by decide) (by decide)).2,
    (insert_then_index (build Heap.empty [3, 1, 4, 1, 5]) [3, 1, 4, 1, 5] 9 5 (build_repr _ _)
      (by decide) (by decide)).2⟩

/-- C4 as stated fails at the list of `2 ^ 32` zeros: after `insert(1, 2 ^ 31)`, which
links the new node in before `tail`, `operator[](2 ^ 31)` refers to a node holding
`0`. -/
theorem insert_then_index_counterexample :
    Repr (build Heap.empty (List.replicate 4294967296 0)) (List.replicate 4294967296 0) ∧
    2147483648 ≤ (List.replicate 4294967296 0).length ∧
    (∃ a, (index (insert 1 2147483648
        (build Heap.empty (List.replicate 4294967296 0))).2 2147483648).1 = .ok a ∧
      deref (insert 1 2147483648
        (build Heap.empty (List.replicate 4294967296 0))).2.heap a = some 0) ∧
    ¬ ∃ a, (index (insert 1 2147483648
        (build Heap.empty (List.replicate 4294967296 0))).2 2147483648).1 = .ok a ∧
      deref (insert 1 2147483648
        (build Heap.empty (List.replicate 4294967296 0))).2.heap a = some 1 :=
  ⟨build_repr _ _, by rw [List.length_replicate]; decide,
    index_after_insert_beyond 4294967296 2147483648 (by decide) (by decide)⟩

/-- C5, for sizes up to `2 ^ 32`: on a list with element sequence `xs` of size `n`,
`insert(v, p)` with `p ≤ n` followed by `remove(p)` gives back the element sequence
`xs` and `size() = n`; neither call raises. -/
theorem insert_then_remove [Inhabited T] (s : State T) (xs : List T) (v : T) (p : Nat)
    (hr : Repr s xs) (hp : p ≤ xs.length) (hu : xs.length ≤ UINT_MOD) :
    (insert v p s).1 = .ok () ∧
    (remove p (insert v p s).2).1 = .ok () ∧
    Repr (remove p (insert v p s).2).2 xs ∧
    size (remove p (insert v p s).2).2 = xs.length ∧
    toList (xs.length + 1) (remove p (insert v p s).2).2 = some xs := by
  obtain ⟨h1, h3, h4⟩ := insert_remove_repr v p hr hp hu
  exact ⟨h1, h3, h4, by rw [size, repr_size h4], repr_toList h4 _ (Nat.lt_succ_self _)⟩

/-- C5 at `[3, 1, 4, 1, 5]`, for position `1` (from the head) and position `5` (at the
tail). -/
theorem insert_then_remove_witness :
    (Repr (build Heap.empty [3, 1, 4, 1, 5]) [3, 1, 4, 1, 5] ∧ 1 ≤ 5 ∧ 5 ≤ 5 ∧ 5 ≤ UINT_MOD) ∧
    toList 6 (remove 1 (insert 9 1 (build Heap.empty [3, 1, 4, 1, 5])).2).2 =
      some [3, 1, 4, 1, 5] ∧
    toList 6 (remove 5 (insert 9 5 (build Heap.empty [3, 1, 4, 1, 5])).2).2 =
      some [3, 1, 4, 1, 5] :=
  ⟨⟨build_repr _ _, by decide, by decide, by decide⟩,
    (insert_then_remove (build Heap.empty [3, 1, 4, 1, 5]) [3, 1, 4, 1, 5] 9 1 (build_repr _ _)
      (by decide) (by decide)).2.2.2.2,
    (insert_then_remove (build Heap.empty [3, 1, 4, 1, 5]) [3, 1, 4, 1, 5] 9 5 (build_repr _ _)
      (by decide) (by decide)).2.2.2.2⟩


/-- C5 as stated fails at the list of `2 ^ 32 + 1` zeros: `insert(1, 2 ^ 31)` takes the
tail traversal, whose counter starts at `1`, and links the new node in before `tail`; on
the list of `2 ^ 32 + 2` elements `remove(2 ^ 31)` takes the head traversal and unlinks
the zero at index `2 ^ 31`: the final sequence ends in `1`. -/
theorem insert_then_remove_counterexample :
    Repr (build Heap.empty (List.replicate 4294967297 0)) (List.replicate 4294967297 0) ∧
    2147483648 ≤ (List.replicate 4294967297 0).length ∧
    Repr (remove 2147483648 (insert 1 2147483648
      (build Heap.empty (List.replicate 4294967297 0))).2).2
      (List.replicate 4294967296 0 ++ [1]) ∧
    ¬ Repr (remove 2147483648 (insert 1 2147483648
      (build Heap.empty (List.replicate 4294967297 0))).2).2
      (List.replicate 4294967297 0) :=
  ⟨build_repr _ _, by rw [List.length_replicate]; decide,
    insert_remove_beyond 4294967297 4294967296 2147483648 (by decide) (by decide) (by decide)
      (by decide)⟩

/-- C6: after any sequence of `insert(v, p)`, `insert(v)`, `remove(p)` and `remove()`
calls on a freshly constructed list, `size()` is the number of `insert` calls that did
not raise `OutOfRange` less the number of `remove` calls that did not raise and met a
non-empty list, and it is the number of real nodes between the sentinels; no call ends
other than normally or with `OutOfRange`. -/
theorem size_counts [Inhabited T] (h : Heap T) (cs : List (Call T)) :
    size (runCalls cs ⟨new h, 0, 0, 0⟩).state =
      (runCalls cs ⟨new h, 0, 0, 0⟩).inserts - (runCalls cs ⟨new h, 0, 0, 0⟩).removes ∧
    (runCalls cs ⟨new h, 0, 0, 0⟩).removes ≤ (runCalls cs ⟨new h, 0, 0, 0⟩).inserts ∧
    (∃ ns, Shape (runCalls cs ⟨new h, 0, 0, 0⟩).state ns ∧
      size (runCalls cs ⟨new h, 0, 0, 0⟩).state = ns.length) ∧
    (runCalls cs ⟨new h, 0, 0, 0⟩).others = 0 := by
  have hg : (runCalls cs ⟨new h, 0, 0, 0⟩).Good :=
    runCalls_good cs _ ⟨[], new_repr h, rfl, rfl⟩
  obtain ⟨xs, hr, hcount, hoth⟩ := hg
  have hm := repr_size hr
  obtain ⟨ns, hs, -, hn⟩ := hr
  refine ⟨?_, ?_, ⟨ns, hs, hn⟩, hoth⟩
  · rw [size, hm]; omega
  · omega


/-- C7: on a list with element sequence `xs`, `find(v)` returns (given fuel for more
than `n` steps) and leaves the list as it was; when `v` occurs in `xs` the iterator is
not `end()`, sits on the node `operator[]` refers to at the first index of `v`, and
dereferences to `v`; when `v` does not occur the iterator is `end()`, whatever the
sentinels hold. -/
theorem find_spec [DecidableEq T] (s : State T) (xs : List T) (v : T) (fuel : Nat)
    (hr : Repr s xs) (hf : xs.length < fuel) :
    (find fuel v s).2 = s ∧
    (v ∈ xs → ∃ it, (find fuel v s).1 = .ok it ∧ it ≠ end_ s ∧
      (index s (xs.indexOf v)).1 = .ok it.m_node ∧ deref s.heap it.m_node = some v ∧
      ∀ j, j < xs.indexOf v → xs[j]? ≠ some v) ∧
    (v ∉ xs → (find fuel v s).1 = .ok (end_ s)) := by
  obtain ⟨h1, h2, h3⟩ := find_repr v fuel hr hf
  refine ⟨h1, fun hv => ?_, h3⟩
  obtain ⟨it, h4, h5, h6, h7⟩ := h2 hv
  exact ⟨it, h4, h5, h6, h7, fun j hj => ne_of_lt_indexOf xs v j hj⟩

/-- C7 at `[3, 1, 4, 1, 5]`: `find(1)` is at position 1, `find(9)` is `end()`, and so is
`find(0)` although both sentinels hold `0`. -/
theorem find_spec_witness :
    (Repr (build Heap.empty [3, 1, 4, 1, 5]) [3, 1, 4, 1, 5] ∧ 5 < 6) ∧
    (∃ it, (find 6 1 (build Heap.empty [3, 1, 4, 1, 5])).1 = .ok it ∧
      it ≠ end_ (build Heap.empty [3, 1, 4, 1, 5]) ∧
      (index (build Heap.empty [3, 1, 4, 1, 5]) 1).1 = .ok it.m_node ∧
      deref (build Heap.empty [3, 1, 4, 1, 5]).heap it.m_node = some 1 ∧
      ∀ j, j < 1 → [3, 1, 4, 1, 5][j]? ≠ some 1) ∧
    (find 6 9 (build Heap.empty [3, 1, 4, 1, 5])).1 =
      .ok (end_ (build Heap.empty [3, 1, 4, 1, 5])) ∧
    deref (build Heap.empty [3, 1, 4, 1, 5]).heap
      (end_ (build Heap.empty [3, 1, 4, 1, 5])).m_node = some 0 ∧
    (find 6 0 (build Heap.empty [3, 1, 4, 1, 5])).1 =
      .ok (end_ (build Heap.empty [3, 1, 4, 1, 5])) :=
  ⟨⟨build_repr _ _, by decide⟩,
    (find_spec (build Heap.empty [3, 1, 4, 1, 5]) [3, 1, 4, 1, 5] 1 6 (build_repr _ _)
      (by decide)).2.1 (by decide),
    (find_spec (build Heap.empty [3, 1, 4, 1, 5]) [3, 1, 4, 1, 5] 9 6 (build_repr _ _)
      (by decide)).2.2 (by decide),
    by decide,
    (find_spec (build Heap.empty [3, 1, 4, 1, 5]) [3, 1, 4, 1, 5] 0 6 (build_repr _ _)
      (by decide)).2.2 (by decide)⟩

/-- C8, for a source below `2 ^ 32` elements: for two list objects `a` and `b` sharing
no node, `b` holding `ys` (a size that is an `unsigned int`), `a = b` returns (given fuel for both lists) and leaves `a` with
`b`'s size and, at every index, an element equal to `b`'s held in another node; `b`
still holds `ys`, also after a later `insert`, `remove` or element write on `a`. -/
theorem assign_spec [Inhabited T] (h : Heap T) (a b : ListObj) (xs ys : List T) (fuel : Nat)
    (hab : Apart h a b xs ys) (hu : ys.length < UINT_MOD)
    (hfa : xs.length < fuel) (hfb : ys.length < fuel) :
    ∃ s', assign fuel (.distinct b) ⟨h, a⟩ = (.ok (), s') ∧
      Repr s' ys ∧ Repr ⟨s'.heap, b⟩ ys ∧
      size s' = size ⟨s'.heap, b⟩ ∧
      (∀ i (hi : i < ys.length), ∃ p q, (index s' i).1 = .ok p ∧
        (index ⟨s'.heap, b⟩ i).1 = .ok q ∧ p ≠ q ∧
        deref s'.heap p = some ys[i] ∧ deref s'.heap q = some ys[i]) ∧
      (∀ v p, Repr ⟨(insert v p s').2.heap, b⟩ ys) ∧
      (∀ p, Repr ⟨(remove p s').2.heap, b⟩ ys) ∧
      (∀ v p, Repr ⟨(writeAt v p s').2.heap, b⟩ ys) := by
  obtain ⟨s', h1, h2⟩ := assign_apart fuel hab hu hfa hfb
  have ha' : Repr s' ys := apart_left h2
  have hb' := apart_right h2
  refine ⟨s', h1, ha', hb', ?_, ?_, insert_apart h2, remove_apart h2, writeAt_apart h2⟩
  · rw [size, size, repr_size ha', repr_size hb']
  · intro i hi
    obtain ⟨p, hp1, -, hp2⟩ := index_repr i ha' hi
    obtain ⟨q, hq1, -, hq2⟩ := index_repr i hb' hi
    exact ⟨p, q, by rw [hp1], by rw [hq1],
      apart_index_ne h2 i i p q (by rw [hp1]) (by rw [hq1]), hp2, hq2⟩

/-- C8 at `a = [7, 8]` and `b = [3, 1, 4]`, built one after the other in one heap. -/
theorem assign_spec_witness :
    (Apart (build (build (Heap.empty : Heap Nat) [7, 8]).heap [3, 1, 4]).heap
      (build (Heap.empty : Heap Nat) [7, 8]).obj
      (build (build (Heap.empty : Heap Nat) [7, 8]).heap [3, 1, 4]).obj [7, 8] [3, 1, 4] ∧
      3 < UINT_MOD ∧ 2 < 4 ∧ 3 < 4) ∧
    ∃ s', assign 4 (.distinct (build (build (Heap.empty : Heap Nat) [7, 8]).heap [3, 1, 4]).obj)
        ⟨(build (build (Heap.empty : Heap Nat) [7, 8]).heap [3, 1, 4]).heap,
          (build (Heap.empty : Heap Nat) [7, 8]).obj⟩ = (.ok (), s') ∧
      Repr s' [3, 1, 4] ∧
      Repr ⟨s'.heap, (build (build (Heap.empty : Heap Nat) [7, 8]).heap [3, 1, 4]).obj⟩ [3, 1, 4] ∧
      size s' = size ⟨s'.heap, (build (build (Heap.empty : Heap Nat) [7, 8]).heap [3, 1, 4]).obj⟩ ∧
      (∀ i (hi : i < 3), ∃ p q, (index s' i).1 = .ok p ∧
        (index ⟨s'.heap, (build (build (Heap.empty : Heap Nat) [7, 8]).heap [3, 1, 4]).obj⟩ i).1
          = .ok q ∧ p ≠ q ∧
        deref s'.heap p = some [3, 1, 4][i] ∧ deref s'.heap q = some [3, 1, 4][i]) ∧
      (∀ v p, Repr ⟨(insert v p s').2.heap,
        (build (build (Heap.empty : Heap Nat) [7, 8]).heap [3, 1, 4]).obj⟩ [3, 1, 4]) ∧
      (∀ p, Repr ⟨(remove p s').2.heap,
        (build (build (Heap.empty : Heap Nat) [7, 8]).heap [3, 1, 4]).obj⟩ [3, 1, 4]) ∧
      (∀ v p, Repr ⟨(writeAt v p s').2.heap,
        (build (build (Heap.empty : Heap Nat) [7, 8]).heap [3, 1, 4]).obj⟩ [3, 1, 4]) :=
  ⟨⟨apart_example, by decide, by decide, by decide⟩,
    assign_spec _ _ _ [7, 8] [3, 1, 4] 4 apart_example (by decide) (by decide) (by decide)⟩


/-- C8 as stated fails for a source of `2 ^ 32` zeros and a fresh destination: the
counter `unsigned int i` of the copy loop wraps to `0` before it reaches `other.m_size`,
so `i < other.m_size` holds at every test and `a = b` does not return, whatever the
fuel. -/
theorem assign_spec_counterexample :
    Apart (new (build (Heap.empty : Heap Nat) (List.replicate 4294967296 0)).heap).heap
      (new (build (Heap.empty : Heap Nat) (List.replicate 4294967296 0)).heap).obj
      (build (Heap.empty : Heap Nat) (List.replicate 4294967296 0)).obj
      [] (List.replicate 4294967296 0) ∧
    ∀ fuel, (assign fuel
      (.distinct (build (Heap.empty : Heap Nat) (List.replicate 4294967296 0)).obj)
      (new (build (Heap.empty : Heap Nat) (List.replicate 4294967296 0)).heap)).1 ≠ .ok () :=
  ⟨new_apart (build_repr _ _), fun fuel => assign_not_ok _ big_size fuel _⟩

/-- C9: on a list of size `n`, `insert(v, p)` raises `OutOfRange` exactly when `p > n`,
`remove(p)` on a non-empty list raises exactly when `p > n`, a call that raises leaves
the heap and the fields of the list as they were, and a call that does not raise
completes with a well-formed list of size `n + 1` (for `insert`) or `n - 1` (for
`remove`). -/
theorem raise_before_mutating [Inhabited T] (s : State T) (xs : List T) (v : T) (p : Nat)
    (hr : Repr s xs) :
    ((insert v p s).1 = .outOfRange ↔ xs.length < p) ∧
    (xs.length < p → (insert v p s).2 = s) ∧
    (p ≤ xs.length → (insert v p s).1 = .ok () ∧
      ∃ ys, Repr (insert v p s).2 ys ∧ ys.length = xs.length + 1) ∧
    (xs ≠ [] →
      ((remove p s).1 = .outOfRange ↔ xs.length < p) ∧
      (xs.length < p → (remove p s).2 = s) ∧
      (p ≤ xs.length → (remove p s).1 = .ok () ∧
        ∃ ys, Repr (remove p s).2 ys ∧ ys.length = xs.length - 1)) := by
  have hm := repr_size hr
  have hinsOk : p ≤ xs.length → (insert v p s).1 = .ok () ∧
      ∃ ys, Repr (insert v p s).2 ys ∧ ys.length = xs.length + 1 := by
    intro hp
    obtain ⟨h1, h2⟩ := insert_repr v p hr hp
    have := insertIndex_le hp
    exact ⟨h1, _, h2, by simp; omega⟩
  refine ⟨⟨fun h => ?_, fun h => ?_⟩, fun h => ?_, hinsOk, fun hne => ?_⟩
  · by_contra hcon
    rw [(hinsOk (by omega)).1] at h
    cases h
  · rw [insert_outOfRange v p s (by omega)]
  · rw [insert_outOfRange v p s (by omega)]
  · have hpos : 0 < xs.length := List.length_pos.2 hne
    have hremOk : p ≤ xs.length → (remove p s).1 = .ok () ∧
        ∃ ys, Repr (remove p s).2 ys ∧ ys.length = xs.length - 1 := by
      intro hp
      obtain ⟨h1, h2⟩ := remove_repr p hr hpos hp
      have := removeIndex_lt hpos hp
      exact ⟨h1, _, h2, by rw [List.length_eraseIdx]; simp [this]⟩
    refine ⟨⟨fun h => ?_, fun h => ?_⟩, fun h => ?_, hremOk⟩
    · by_contra hcon
      rw [(hremOk (by omega)).1] at h
      cases h
    · rw [remove_outOfRange p s (by omega) (by omega)]
    · rw [remove_outOfRange p s (by omega) (by omega)]

/-- C9 at `[3, 1, 4, 1, 5]` and position `6`: both calls raise and change nothing. -/
theorem raise_before_mutating_witness :
    Repr (build Heap.empty [3, 1, 4, 1, 5]) [3, 1, 4, 1, 5] ∧
    (insert 9 6 (build Heap.empty [3, 1, 4, 1, 5])).1 = .outOfRange ∧
    (insert 9 6 (build Heap.empty [3, 1, 4, 1, 5])).2 = build Heap.empty [3, 1, 4, 1, 5] ∧
    (remove 6 (build Heap.empty [3, 1, 4, 1, 5])).1 = .outOfRange ∧
    (remove 6 (build Heap.empty [3, 1, 4, 1, 5])).2 = build Heap.empty [3, 1, 4, 1, 5] :=
  ⟨build_repr _ _,
    (raise_before_mutating (build Heap.empty [3, 1, 4, 1, 5]) [3, 1, 4, 1, 5] 9 6
      (build_repr _ _)).1.2 (by decide),
    (raise_before_mutating (build Heap.empty [3, 1, 4, 1, 5]) [3, 1, 4, 1, 5] 9 6
      (build_repr _ _)).2.1 (by decide),
    ((raise_before_mutating (build Heap.empty [3, 1, 4, 1, 5]) [3, 1, 4, 1, 5] 9 6
      (build_repr _ _)).2.2.2 (by decide)).1.2 (by decide),
    ((raise_before_mutating (build Heap.empty [3, 1, 4, 1, 5]) [3, 1, 4, 1, 5] 9 6
      (build_repr _ _)).2.2.2 (by decide)).2.1 (by decide)⟩

/-- C10: on a list of size `n`, `operator[](p)` raises `OutOfRange` exactly when
`p > n`; at `p = n` it does not raise and refers to the tail sentinel, the node of
`end()`, which no index below `n` refers to. -/
theorem index_bound (s : State T) (xs : List T) (p : Nat) (hr : Repr s xs) :
    ((index s p).1 = .outOfRange ↔ xs.length < p) ∧
    (index s xs.length).1 = .ok s.obj.tail ∧
    (end_ s).m_node = s.obj.tail ∧
    ∀ i, i < xs.length → (index s i).1 ≠ .ok s.obj.tail := by
  have hm' := repr_size hr
  obtain ⟨ns, hs, hx, hm⟩ := hr
  have hl : xs.length = ns.length := by rw [← hx, List.length_map]
  refine ⟨⟨fun h => ?_, fun h => ?_⟩, ?_, rfl, fun i hi => ?_⟩
  · by_contra hcon
    rw [index_shape hs hm p (by omega)] at h
    cases h
  · rw [index_outOfRange s p (by omega)]
  · rw [index_shape hs hm _ (by omega), hl, List.drop_length]
    rfl
  · rw [index_shape hs hm i (by omega), firstAddr_drop _ _ _ (by omega)]
    intro e
    exact shape_getElem_ne_tail hs i (by omega) (Outcome.ok.inj e)

/-- C10 at `[3, 1, 4, 1, 5]` (index `5` is the tail sentinel, index `6` raises) and at
the empty list (index `0` is the tail sentinel). -/
theorem index_bound_witness :
    (Repr (build Heap.empty [3, 1, 4, 1, 5]) [3, 1, 4, 1, 5] ∧
      Repr (new (Heap.empty : Heap Nat)) []) ∧
    (index (build Heap.empty [3, 1, 4, 1, 5]) 5).1 =
      .ok (build Heap.empty [3, 1, 4, 1, 5]).obj.tail ∧
    (index (build Heap.empty [3, 1, 4, 1, 5]) 6).1 = .outOfRange ∧
    (index (new (Heap.empty : Heap Nat)) 0).1 = .ok (new (Heap.empty : Heap Nat)).obj.tail :=
  ⟨⟨build_repr _ _, new_repr _⟩,
    (index_bound (build Heap.empty [3, 1, 4, 1, 5]) [3, 1, 4, 1, 5] 5 (build_repr _ _)).2.1,
    (index_bound (build Heap.empty [3, 1, 4, 1, 5]) [3, 1, 4, 1, 5] 6 (build_repr _ _)).1.2
      (by decide),
    (index_bound (new (Heap.empty : Heap Nat)) [] 0 (new_repr _)).2.1⟩

/-- C11, for sizes below `2 ^ 32`: on a non-empty list with element sequence `xs` of size
`n` (an `unsigned int`), `remove()` is `remove(n)`; it does not raise and removes the last
real element, never a sentinel: afterwards the element sequence is the first `n - 1`
elements of `xs`, `size() = n - 1`, and `head` and `tail` are the sentinels they were;
`remove(n)` and `remove(n - 1)` are the same call. -/
theorem removeBack_spec (s : State T) (xs : List T)
    (hr : Repr s xs) (hn : 0 < xs.length) (hu : xs.length < UINT_MOD) :
    removeBack s = remove xs.length s ∧
    (removeBack s).1 = .ok () ∧
    Repr (removeBack s).2 (xs.take (xs.length - 1)) ∧
    size (removeBack s).2 = xs.length - 1 ∧
    (removeBack s).2.obj.head = s.obj.head ∧
    (removeBack s).2.obj.tail = s.obj.tail ∧
    remove xs.length s = remove (xs.length - 1) s := by
  obtain ⟨h1, h2, h3⟩ := removeBack_repr hr hn hu
  have hm := repr_size hr
  refine ⟨h1, h2, h3, ?_, (remove_sentinels _ s).1, (remove_sentinels _ s).2, ?_⟩
  · rw [size, repr_size h3, List.length_take]
    omega
  · rw [← hm]
    exact remove_size_eq s (by omega)

/-- C11 at `[3, 1, 4, 1, 5]`: `remove()` leaves `[3, 1, 4, 1]`. -/
theorem removeBack_spec_witness :
    (Repr (build Heap.empty [3, 1, 4, 1, 5]) [3, 1, 4, 1, 5] ∧ 0 < 5 ∧ 5 < UINT_MOD) ∧
    Repr (removeBack (build Heap.empty [3, 1, 4, 1, 5])).2 [3, 1, 4, 1] ∧
    size (removeBack (build Heap.empty [3, 1, 4, 1, 5])).2 = 4 :=
  ⟨⟨build_repr _ _, by decide, by decide⟩,
    (removeBack_spec (build Heap.empty [3, 1, 4, 1, 5]) [3, 1, 4, 1, 5] (build_repr _ _)
      (by decide) (by decide)).2.2.1,
    (removeBack_spec (build Heap.empty [3, 1, 4, 1, 5]) [3, 1, 4, 1, 5] (build_repr _ _)
      (by decide) (by decide)).2.2.2.1⟩

/-- C11 as stated fails at the list of a `1` followed by `2 ^ 32 - 1` zeros: its size
`2 ^ 32` is passed to `remove(const unsigned int&)` as `0`, the head traversal locates the
first real node, and the `1` goes: the list is not the first `n - 1` elements of `xs`. -/
theorem removeBack_spec_counterexample :
    Repr (build Heap.empty (1 :: List.replicate 4294967295 0))
      (1 :: List.replicate 4294967295 0) ∧
    removeBack (build Heap.empty (1 :: List.replicate 4294967295 0)) =
      remove 0 (build Heap.empty (1 :: List.replicate 4294967295 0)) ∧
    Repr (removeBack (build Heap.empty (1 :: List.replicate 4294967295 0))).2
      (List.replicate 4294967295 0) ∧
    ¬ Repr (removeBack (build Heap.empty (1 :: List.replicate 4294967295 0))).2
      ((1 :: List.replicate 4294967295 0).take 4294967295) :=
  ⟨build_repr _ _, removeBack_beyond 4294967295 (by decide) (by decide)⟩

/-- C12, for sizes below `2 ^ 32`: on a list with element sequence `xs` of size `n` (an
`unsigned int`), `insert(v)` is `insert(v, n)`; it does not raise and leaves the element
sequence `xs ++ [v]` and `size() = n + 1`. -/
theorem insertBack_spec [Inhabited T] (s : State T) (xs : List T) (v : T)
    (hr : Repr s xs) (hu : xs.length < UINT_MOD) :
    insertBack v s = insert v xs.length s ∧
    (insertBack v s).1 = .ok () ∧
    Repr (insertBack v s).2 (xs ++ [v]) ∧
    size (insertBack v s).2 = xs.length + 1 := by
  obtain ⟨h1, h2, h3⟩ := insertBack_repr v hr hu
  refine ⟨h1, h2, h3, ?_⟩
  rw [size, repr_size h3, List.length_append, List.length_singleton]

/-- C12 at `[3, 1, 4, 1, 5]`: `insert(9)` leaves `[3, 1, 4, 1, 5, 9]`. -/
theorem insertBack_spec_witness :
    (Repr (build Heap.empty [3, 1, 4, 1, 5]) [3, 1, 4, 1, 5] ∧ 5 < UINT_MOD) ∧
    Repr (insertBack 9 (build Heap.empty [3, 1, 4, 1, 5])).2 [3, 1, 4, 1, 5, 9] ∧
    size (insertBack 9 (build Heap.empty [3, 1, 4, 1, 5])).2 = 6 :=
  ⟨⟨build_repr _ _, by decide⟩,
    (insertBack_spec (build Heap.empty [3, 1, 4, 1, 5]) [3, 1, 4, 1, 5] 9 (build_repr _ _)
      (by decide)).2.2.1,
    (insertBack_spec (build Heap.empty [3, 1, 4, 1, 5]) [3, 1, 4, 1, 5] 9 (build_repr _ _)
      (by decide)).2.2.2⟩

/-- C12 as stated fails at the list of `2 ^ 32` zeros: its size is passed to
`insert(const T&, const unsigned int&)` as `0`, the head traversal locates the first real
node, and the new element is linked in before it: the list becomes `1 :: xs`, not
`xs ++ [1]`. -/
theorem insertBack_spec_counterexample :
    Repr (build Heap.empty (List.replicate 4294967296 0)) (List.replicate 4294967296 0) ∧
    insertBack 1 (build Heap.empty (List.replicate 4294967296 0)) =
      insert 1 0 (build Heap.empty (List.replicate 4294967296 0)) ∧
    Repr (insertBack 1 (build Heap.empty (List.replicate 4294967296 0))).2
      (1 :: List.replicate 4294967296 0) ∧
    ¬ Repr (insertBack 1 (build Heap.empty (List.replicate 4294967296 0))).2
      (List.replicate 4294967296 0 ++ [1]) :=
  ⟨build_repr _ _, insertBack_beyond 4294967296 (by decide) (by decide)⟩

/-- C13: for every list and every initial value `out` of the output argument, on an empty
list `peek` returns `0` and leaves the output argument as it was, on a non-empty list it
returns `1` and sets the output argument to the last element; the list, so its element
sequence and size, is unchanged. -/
theorem peek_spec (s : State T) (xs : List T) (out : T) (hr : Repr s xs) :
    (xs = [] → (peek out s).1 = .ok (0, out)) ∧
    (∀ x, xs.getLast? = some x → (peek out s).1 = .ok (1, x)) ∧
    (peek out s).2 = s ∧
    Repr (peek out s).2 xs ∧
    size (peek out s).2 = xs.length := by
  obtain ⟨ns, hs, hx, hm⟩ := hr
  have hp := peek_shape out hs
  have hl : xs.getLast? = ns.getLast?.map Prod.snd := by
    rw [← hx, List.getLast?_map]
  rw [hp]
  refine ⟨?_, ?_, rfl, ⟨ns, hs, hx, hm⟩, ?_⟩
  · intro e
    rw [e] at hx
    have : ns = [] := by simpa using hx
    subst this
    rfl
  · intro x hxl
    rw [hl] at hxl
    cases hn : ns.getLast? with
    | none => rw [hn] at hxl; simp at hxl
    | some n =>
      rw [hn] at hxl
      simp only [Option.map_some', Option.some.injEq] at hxl
      rw [← hxl]
  · show s.obj.m_size = xs.length
    rw [hm, ← hx, List.length_map]

/-- C13 at `[7, 8, 9]` with the output argument `0` before the call: `peek` returns `1`
and sets the output argument to `9`. -/
theorem peek_spec_witness :
    Repr (build Heap.empty [7, 8, 9]) [7, 8, 9] ∧
    (peek 0 (build Heap.empty [7, 8, 9])).1 = .ok (1, 9) ∧
    (peek 0 (build Heap.empty [7, 8, 9])).2 = build Heap.empty [7, 8, 9] :=
  ⟨build_repr _ _,
    (peek_spec (build Heap.empty [7, 8, 9]) [7, 8, 9] 0 (build_repr _ _)).2.1 9 rfl,
    (peek_spec (build Heap.empty [7, 8, 9]) [7, 8, 9] 0 (build_repr _ _)).2.2.1⟩

/-- C14: in every state reachable from construction by `insert`, `remove`, `clear` and
copy-assignment, `isEmpty()` is true exactly when `size() == 0`, and exactly when
`begin() == end()`, that is `head->next == tail`, which holds exactly when
`tail->prev == head`; a freshly constructed list satisfies all three. -/
theorem isEmpty_spec [Inhabited T] (h0 : Heap T) (s : State T) (hr : Reachable h0 s) :
    isEmpty s = some (decide (size s = 0)) ∧
    (∃ b, begin_ s = some b ∧ isEmpty s = some (b.eq (end_ s))) ∧
    (∃ hd tl, s.heap.get s.obj.head = some hd ∧ s.heap.get s.obj.tail = some tl ∧
      isEmpty s = some (decide (hd.next = s.obj.tail)) ∧
      (hd.next = s.obj.tail ↔ tl.prev = s.obj.head)) ∧
    isEmpty (new h0) = some true ∧ size (new h0) = 0 ∧
    begin_ (new h0) = some (end_ (new h0)) := by
  obtain ⟨xs, hx⟩ := reachable_repr hr
  obtain ⟨h1, h2, h3⟩ := repr_isEmpty hx
  exact ⟨h1, h2, h3, new_links h0⟩

/-- C14 at the list reached by `insert(5, 0)`, and at the list reached from it by
`remove(0)`. -/
theorem isEmpty_spec_witness :
    (Reachable Heap.empty (insert 5 0 (new (Heap.empty : Heap Nat))).2 ∧
      Reachable Heap.empty (remove 0 (insert 5 0 (new (Heap.empty : Heap Nat))).2).2) ∧
    isEmpty (insert 5 0 (new (Heap.empty : Heap Nat))).2 =
      some (decide (size (insert 5 0 (new (Heap.empty : Heap Nat))).2 = 0)) ∧
    isEmpty (remove 0 (insert 5 0 (new (Heap.empty : Heap Nat))).2).2 =
      some (decide (size (remove 0 (insert 5 0 (new (Heap.empty : Heap Nat))).2).2 = 0)) :=
  ⟨⟨Reachable.insertAt _ 5 0 Reachable.construct,
      Reachable.removeAt _ 0 (Reachable.insertAt _ 5 0 Reachable.construct)⟩,
    (isEmpty_spec Heap.empty _ (Reachable.insertAt _ 5 0 Reachable.construct)).1,
    (isEmpty_spec Heap.empty _
      (Reachable.removeAt _ 0 (Reachable.insertAt _ 5 0 Reachable.construct))).1⟩

/-- C15: for every list, empty or not, `clear()` terminates (fuel for one step more than
the list has real nodes is enough) and leaves a list with no real nodes:
`head->next == tail`, `tail->prev == head`, `size() == 0` and `isEmpty()` true, with the
sentinels it had; a second `clear()` leaves that state unchanged. -/
theorem clear_spec (s : State T) (xs : List T) (fuel : Nat)
    (hr : Repr s xs) (hf : xs.length < fuel) :
    (clear fuel s).1 = .ok () ∧
    Repr (clear fuel s).2 [] ∧
    size (clear fuel s).2 = 0 ∧
    isEmpty (clear fuel s).2 = some true ∧
    (clear fuel s).2.obj.head = s.obj.head ∧
    (clear fuel s).2.obj.tail = s.obj.tail ∧
    (∃ dh dt, (clear fuel s).2.heap.get s.obj.head = some ⟨dh, s.obj.tail, 0⟩ ∧
      (clear fuel s).2.heap.get s.obj.tail = some ⟨dt, 0, s.obj.head⟩) ∧
    ∀ fuel2, 0 < fuel2 → clear fuel2 (clear fuel s).2 = (.ok (), (clear fuel s).2) :=
  clear_repr fuel hr hf

/-- C15 at `[3, 1, 4, 1, 5]` and at the empty list. -/
theorem clear_spec_witness :
    (Repr (build Heap.empty [3, 1, 4, 1, 5]) [3, 1, 4, 1, 5] ∧ 5 < 6 ∧
      Repr (new (Heap.empty : Heap Nat)) [] ∧ 0 < 1) ∧
    (clear 6 (build Heap.empty [3, 1, 4, 1, 5])).1 = .ok () ∧
    Repr (clear 6 (build Heap.empty [3, 1, 4, 1, 5])).2 [] ∧
    clear 1 (clear 6 (build Heap.empty [3, 1, 4, 1, 5])).2 =
      (.ok (), (clear 6 (build Heap.empty [3, 1, 4, 1, 5])).2) ∧
    (clear 1 (new (Heap.empty : Heap Nat))).1 = .ok () :=
  ⟨⟨build_repr _ _, by decide, new_repr _, by decide⟩,
    (clear_spec (build Heap.empty [3, 1, 4, 1, 5]) [3, 1, 4, 1, 5] 6 (build_repr _ _)
      (by decide)).1,
    (clear_spec (build Heap.empty [3, 1, 4, 1, 5]) [3, 1, 4, 1, 5] 6 (build_repr _ _)
      (by decide)).2.1,
    (clear_spec (build Heap.empty [3, 1, 4, 1, 5]) [3, 1, 4, 1, 5] 6 (build_repr _ _)
      (by decide)).2.2.2.2.2.2.2 1 (by decide),
    (clear_spec (new Heap.empty) [] 1 (new_repr _) (by decide)).1⟩

/-- C16: on an empty list `remove(p)`, for every position `p`, positions above the size
included, and `remove()` are no-ops: they do not raise and leave the state as it is, the
list empty with `size() == 0` and the sentinels linked to each other. -/
theorem remove_on_empty (s : State T) (p : Nat) (hr : Repr s []) :
    remove p s = (.ok (), s) ∧ removeBack s = (.ok (), s) ∧
    size s = 0 ∧ isEmpty s = some true ∧
    ∃ dh dt, s.heap.get s.obj.head = some ⟨dh, s.obj.tail, 0⟩ ∧
      s.heap.get s.obj.tail = some ⟨dt, 0, s.obj.head⟩ := by
  obtain ⟨hs, hm⟩ := repr_nil_shape hr
  refine ⟨remove_empty p s hm, remove_empty _ s hm, hm, ?_, shape_nil_links hs⟩
  rw [isEmpty_shape hs]; rfl

/-- C16 at a freshly constructed list, for position `7`. -/
theorem remove_on_empty_witness :
    Repr (new (Heap.empty : Heap Nat)) [] ∧
    remove 7 (new (Heap.empty : Heap Nat)) = (.ok (), new Heap.empty) ∧
    removeBack (new (Heap.empty : Heap Nat)) = (.ok (), new Heap.empty) :=
  ⟨new_repr _, (remove_on_empty (new Heap.empty) 7 (new_repr _)).1,
    (remove_on_empty (new Heap.empty) 7 (new_repr _)).2.1⟩

/-- C17: on a list with element sequence `xs` of size `n`, for every `k < n` the iterator
reached from `begin()` by `k` increments points at the node `operator[](k)` returns a
reference into, dereferences to `xs[k]`, and is not equal to `end()`; the iterator
reached by `n` increments is equal to `end()`. -/
theorem iteration_spec (s : State T) (xs : List T) (hr : Repr s xs) :
    ∃ b, begin_ s = some b ∧
      (∀ k (hk : k < xs.length), ∃ it, advance s.heap k b = some it ∧
        it.deref s.heap = some xs[k] ∧ index s k = (.ok it.m_node, s) ∧
        it.ne (end_ s) = true ∧ it.eq (end_ s) = false) ∧
      ∃ it, advance s.heap xs.length b = some it ∧ it.eq (end_ s) = true ∧
        it.ne (end_ s) = false :=
  repr_iteration hr

/-- C17 at `[3, 1, 4, 1, 5]`: two increments of `begin()` lead to the `4`, five to
`end()`. -/
theorem iteration_spec_witness :
    Repr (build Heap.empty [3, 1, 4, 1, 5]) [3, 1, 4, 1, 5] ∧
    ∃ b, begin_ (build Heap.empty [3, 1, 4, 1, 5]) = some b ∧
      (∃ it, advance (build Heap.empty [3, 1, 4, 1, 5]).heap 2 b = some it ∧
        it.deref (build Heap.empty [3, 1, 4, 1, 5]).heap = some 4 ∧
        index (build Heap.empty [3, 1, 4, 1, 5]) 2 =
          (.ok it.m_node, build Heap.empty [3, 1, 4, 1, 5]) ∧
        it.ne (end_ (build Heap.empty [3, 1, 4, 1, 5])) = true ∧
        it.eq (end_ (build Heap.empty [3, 1, 4, 1, 5])) = false) ∧
      ∃ it, advance (build Heap.empty [3, 1, 4, 1, 5]).heap 5 b = some it ∧
        it.eq (end_ (build Heap.empty [3, 1, 4, 1, 5])) = true ∧
        it.ne (end_ (build Heap.empty [3, 1, 4, 1, 5])) = false :=
  ⟨build_repr _ _,
    (iteration_spec (build Heap.empty [3, 1, 4, 1, 5]) [3, 1, 4, 1, 5] (build_repr _ _)).elim
      fun b hb => ⟨b, hb.1, hb.2.1 2 (by decide), hb.2.2⟩⟩

/-- C18: in every state reachable from construction by `insert(v, p)`, `insert(v)`,
`remove(p)`, `remove()`, `clear()` and copy-assignment, calls that raise included,
walking `next` from `head` reaches `tail` after exactly `size()` real nodes, walking
`prev` from `tail` reaches `head` after exactly `size()` real nodes, the two walks visit
the same nodes in opposite order, `x->next->prev == x` for every linked node `x` but
`tail` and `x->prev->next == x` for every linked node `x` but `head`, `head->prev` and
`tail->next` are null, and `head` and `tail` are the sentinels the constructor made. -/
theorem wellFormed_spec [Inhabited T] (h0 : Heap T) (s : State T) (hr : Reachable h0 s) :
    walkNext s.heap (size s + 1) s.obj.head = some s.obj.tail ∧
    (∀ k, k ≤ size s → walkNext s.heap k s.obj.head ≠ some s.obj.tail) ∧
    walkPrev s.heap (size s + 1) s.obj.tail = some s.obj.head ∧
    (∀ k, k ≤ size s → walkPrev s.heap k s.obj.tail ≠ some s.obj.head) ∧
    (∀ k, k ≤ size s + 1 →
      walkPrev s.heap (size s + 1 - k) s.obj.tail = walkNext s.heap k s.obj.head) ∧
    (∀ k x, k ≤ size s → walkNext s.heap k s.obj.head = some x →
      ∃ n1 n2, s.heap.get x = some n1 ∧ s.heap.get n1.next = some n2 ∧ n2.prev = x) ∧
    (∀ k x, 1 ≤ k → k ≤ size s + 1 → walkNext s.heap k s.obj.head = some x →
      ∃ n1 n2, s.heap.get x = some n1 ∧ s.heap.get n1.prev = some n2 ∧ n2.next = x) ∧
    (∃ hd tl, s.heap.get s.obj.head = some hd ∧ hd.prev = 0 ∧
      s.heap.get s.obj.tail = some tl ∧ tl.next = 0) ∧
    s.obj.head = (new h0).obj.head ∧ s.obj.tail = (new h0).obj.tail := by
  obtain ⟨xs, ns, hs, hx, hm⟩ := reachable_repr hr
  have h := shape_wellFormed hs
  rw [← hm] at h
  obtain ⟨h1, h2, h3, h4, h5, h6, h7, h8⟩ := h
  exact ⟨h1, h2, h3, h4, h5, h6, h7, h8, reachable_sentinels hr⟩

/-- C18 at the list reached by `insert(5, 0)`, `insert(6)`, a raising `remove(9)`,
self-assignment and `clear()`. -/
theorem wellFormed_spec_witness :
    Reachable Heap.empty (clear 3 (assign 3 .self (remove 9 (insertBack 6
      (insert 5 0 (new (Heap.empty : Heap Nat))).2).2).2).2).2 ∧
    walkNext (clear 3 (assign 3 .self (remove 9 (insertBack 6
      (insert 5 0 (new (Heap.empty : Heap Nat))).2).2).2).2).2.heap
      (size (clear 3 (assign 3 .self (remove 9 (insertBack 6
        (insert 5 0 (new (Heap.empty : Heap Nat))).2).2).2).2).2 + 1)
      (clear 3 (assign 3 .self (remove 9 (insertBack 6
        (insert 5 0 (new (Heap.empty : Heap Nat))).2).2).2).2).2.obj.head =
      some (clear 3 (assign 3 .self (remove 9 (insertBack 6
        (insert 5 0 (new (Heap.empty : Heap Nat))).2).2).2).2).2.obj.tail :=
  ⟨Reachable.cleared _ 3 (Reachable.selfAssigned _ 3 (Reachable.removeAt _ 9
      (Reachable.insertLast _ 6 (Reachable.insertAt _ 5 0 Reachable.construct)))),
    (wellFormed_spec Heap.empty _ (Reachable.cleared _ 3 (Reachable.selfAssigned _ 3
      (Reachable.removeAt _ 9 (Reachable.insertLast _ 6
        (Reachable.insertAt _ 5 0 Reachable.construct)))))).1⟩

/-- C19, for sizes below `2 ^ 32`: `startFromHead(p)` is true exactly when
`p < size() / 2`, and `insert` and `remove` take their branch by it; on a well-formed
list of size `n` (an `unsigned int`), for `p ≤ n` the head traversal of `insert` and its
tail traversal, which is `n - p` steps of `prev` from `tail`, locate the same node, so
both branches of `insert(v, p)` give the same result; for `p < n` the head traversal of
`remove` and its tail traversal, which is `n - 1 - p` steps of `prev` from `tail->prev`,
locate the same node, so both branches of `remove(p)` give the same result. -/
theorem direction_spec [Inhabited T] (s : State T) (xs : List T) (v : T) (p : Nat)
    (hr : Repr s xs) (hu : xs.length < UINT_MOD) :
    (startFromHead s p = true ↔ p < size s / 2) ∧
    insert v p s = insertBy (startFromHead s p) v p s ∧
    remove p s = removeBy (startFromHead s p) p s ∧
    (p ≤ xs.length → ∃ a, fromHead s.heap s.obj.head p = some a ∧
      insertFromTail s.heap s.obj.tail s.obj.m_size p = some a ∧
      walkPrev s.heap (xs.length - p) s.obj.tail = some a ∧
      insertBy true v p s = insertBy false v p s) ∧
    (p < xs.length → ∃ a tl, fromHead s.heap s.obj.head p = some a ∧
      removeFromTail s.heap s.obj.tail s.obj.m_size p = some a ∧
      s.heap.get s.obj.tail = some tl ∧
      walkPrev s.heap (xs.length - 1 - p) tl.prev = some a ∧
      removeBy true p s = removeBy false p s) := by
  obtain ⟨ns, hs, hx, hm⟩ := hr
  have hl : xs.length = ns.length := by rw [← hx, List.length_map]
  rw [hl] at hu ⊢
  refine ⟨by simp [startFromHead, size], rfl, rfl, fun hp => ?_, fun hp => ?_⟩
  · obtain ⟨h1, h2, h3⟩ := insert_traversals hs p hp hu
    exact ⟨_, h1, by rw [hm]; exact h2, h3, insertBy_branches hs hm v p hp hu⟩
  · obtain ⟨h1, h2⟩ := remove_traversals hs p hp (le_of_lt hu)
    obtain ⟨dt, ht⟩ := shape_tail hs
    refine ⟨_, _, h1, by rw [hm]; exact h2, ht, ?_,
      removeBy_branches hs hm p hp (le_of_lt hu)⟩
    have h3 := h2
    simp only [removeFromTail, ht, downLoop_eq] at h3
    rw [Nat.mod_eq_of_lt (by omega)] at h3
    exact h3

/-- C19 at `[3, 1, 4, 1, 5]`: for position `1` both traversals of `insert` locate one
node and both branches of `insert(9, 1)` and of `remove(1)` give the same result. -/
theorem direction_spec_witness :
    (Repr (build Heap.empty [3, 1, 4, 1, 5]) [3, 1, 4, 1, 5] ∧ 5 < UINT_MOD ∧ 1 ≤ 5 ∧ 1 < 5) ∧
    (∃ a, fromHead (build Heap.empty [3, 1, 4, 1, 5]).heap
        (build Heap.empty [3, 1, 4, 1, 5]).obj.head 1 = some a ∧
      insertFromTail (build Heap.empty [3, 1, 4, 1, 5]).heap
        (build Heap.empty [3, 1, 4, 1, 5]).obj.tail
        (build Heap.empty [3, 1, 4, 1, 5]).obj.m_size 1 = some a) ∧
    insertBy true 9 1 (build Heap.empty [3, 1, 4, 1, 5]) =
      insertBy false 9 1 (build Heap.empty [3, 1, 4, 1, 5]) ∧
    removeBy true 1 (build Heap.empty [3, 1, 4, 1, 5]) =
      removeBy false 1 (build Heap.empty [3, 1, 4, 1, 5]) :=
  ⟨⟨build_repr _ _, by decide, by decide, by decide⟩,
    ((direction_spec (build Heap.empty [3, 1, 4, 1, 5]) [3, 1, 4, 1, 5] 9 1 (build_repr _ _)
      (by decide)).2.2.2.1 (by decide)).elim fun a ha => ⟨a, ha.1, ha.2.1⟩,
    ((direction_spec (build Heap.empty [3, 1, 4, 1, 5]) [3, 1, 4, 1, 5] 9 1 (build_repr _ _)
      (by decide)).2.2.2.1 (by decide)).elim fun _ ha => ha.2.2.2,
    ((direction_spec (build Heap.empty [3, 1, 4, 1, 5]) [3, 1, 4, 1, 5] 9 1 (build_repr _ _)
      (by decide)).2.2.2.2 (by decide)).elim fun _ ha => ha.elim fun _ hb => hb.2.2.2.2⟩

/-- C19 as stated fails at the list of `2 ^ 32` zeros and position `2 ^ 31`: the head
traversal of `insert` locates a real node, its tail traversal, whose counter
`unsigned int i = m_size` starts at `0`, makes no step and locates `tail`. -/
theorem direction_spec_counterexample :
    Repr (build Heap.empty (List.replicate 4294967296 0)) (List.replicate 4294967296 0) ∧
    2147483648 ≤ (List.replicate 4294967296 0).length ∧
    ∃ a, fromHead (build Heap.empty (List.replicate 4294967296 0)).heap
        (build Heap.empty (List.replicate 4294967296 0)).obj.head 2147483648 = some a ∧
      a ≠ (build Heap.empty (List.replicate 4294967296 0)).obj.tail ∧
      insertFromTail (build Heap.empty (List.replicate 4294967296 0)).heap
        (build Heap.empty (List.replicate 4294967296 0)).obj.tail
        (build Heap.empty (List.replicate 4294967296 0)).obj.m_size 2147483648 =
        some (build Heap.empty (List.replicate 4294967296 0)).obj.tail :=
  ⟨build_repr _ _, by rw [List.length_replicate]; decide,
    traversal_beyond 4294967296 2147483648 (by decide) (by decide)⟩

/-- C20: for every list `a` with element sequence `xs`, self-assignment `a = a` runs
`clear()` and then a copy loop of zero rounds, the size it reads being the `0` that
`clear()` has set: it ends normally and leaves `a` empty with `size() == 0`; the
elements `xs` are not preserved. -/
theorem self_assign_spec [Inhabited T] (s : State T) (xs : List T) (fuel : Nat)
    (hr : Repr s xs) (hf : xs.length < fuel) :
    assign fuel .self s = clear fuel s ∧
    (assign fuel .self s).1 = .ok () ∧
    Repr (assign fuel .self s).2 [] ∧
    size (assign fuel .self s).2 = 0 ∧
    isEmpty (assign fuel .self s).2 = some true ∧
    (xs ≠ [] → ¬ Repr (assign fuel .self s).2 xs) := by
  obtain ⟨c1, c2, c3, c4, -⟩ := clear_repr fuel hr hf
  rw [assign_self_clear fuel hr hf]
  exact ⟨rfl, c1, c2, c3, c4, fun hne h => hne (repr_unique h c2)⟩

/-- C20 at `[3, 1, 4, 1, 5]`: after `a = a` the list is empty. -/
theorem self_assign_spec_witness :
    (Repr (build Heap.empty [3, 1, 4, 1, 5]) [3, 1, 4, 1, 5] ∧ 5 < 6) ∧
    (assign 6 .self (build Heap.empty [3, 1, 4, 1, 5])).1 = .ok () ∧
    Repr (assign 6 .self (build Heap.empty [3, 1, 4, 1, 5])).2 [] ∧
    ¬ Repr (assign 6 .self (build Heap.empty [3, 1, 4, 1, 5])).2 [3, 1, 4, 1, 5] :=
  ⟨⟨build_repr _ _, by decide⟩,
    (self_assign_spec (build Heap.empty [3, 1, 4, 1, 5]) [3, 1, 4, 1, 5] 6 (build_repr _ _)
      (by decide)).2.1,
    (self_assign_spec (build Heap.empty [3, 1, 4, 1, 5]) [3, 1, 4, 1, 5] 6 (build_repr _ _)
      (by decide)).2.2.1,
    (self_assign_spec (build Heap.empty [3, 1, 4, 1, 5]) [3, 1, 4, 1, 5] 6 (build_repr _ _)
      (by decide)).2.2.2.2.2 (by decide)⟩

end LockFreeList
